import Mathlib

/-!
# Verification of the Zotero Substack/LinkedIn metadata pipeline

Shallow embedding of `src/main.py` (and, where the repository ships only
callers/tests of a function, of the behaviour the spec describes for it).

The URL normalizer `clean_url` delegates to CPython's `urllib.parse`
(`urlparse`, `parse_qs`, `urlencode`, `urlunparse`).  Those library
functions are embedded here byte-for-byte after the CPython 3.11 sources,
with two documented exceptions, both of which only make CPython *reject*
additional exotic URLs (in which case `clean_url` returns its input
unchanged): the NFKC netloc check (`_checknetloc`) and the bracketed-host
content validation (`_check_bracketed_host`) are not modelled.

Strings are processed as `List Char`; machine bytes are `Nat` values < 256.
-/

/-! ## Generic list helpers -/

/-- Split a list at the first element satisfying `p`: returns the elements
before it and the elements after it (the matching element is dropped),
or `none` when no element matches.  This is the common core of Python's
`str.find` + slicing and `str.split(sep, 1)` idioms. -/
def breakAt (p : Char → Bool) : List Char → Option (List Char × List Char)
  | [] => none
  | c :: cs =>
    if p c then some ([], cs)
    else match breakAt p cs with
         | some (a, b) => some (c :: a, b)
         | none => none

/-- Python `str.split(sep)` for a one-character separator: every occurrence
splits, empty chunks are kept. -/
def splitOnChar (sep : Char) : List Char → List (List Char)
  | [] => [[]]
  | c :: rest =>
    match splitOnChar sep rest with
    | [] => [[]]
    | g :: gs => if c = sep then [] :: g :: gs else (c :: g) :: gs

/-- Python `sep.join(pieces)` for a one-character separator. -/
def intercalateChar (sep : Char) : List (List Char) → List Char
  | [] => []
  | [x] => x
  | x :: y :: rest => x ++ sep :: intercalateChar sep (y :: rest)

/-- Drop `pre` from the front of a list, or `none` when it is not there. -/
def dropPre : List Char → List Char → Option (List Char)
  | [], cs => some cs
  | _ :: _, [] => none
  | a :: as, b :: bs => if a = b then dropPre as bs else none

/-- `l₁` occurs at the start of `l₂`. -/
def hasPre : List Char → List Char → Bool
  | [], _ => true
  | _ :: _, [] => false
  | a :: as, b :: bs => a == b && hasPre as bs

/-- `suffix` occurs at the end of `l`. -/
def endsWithL (suffix l : List Char) : Bool := hasPre suffix.reverse l.reverse

/-- `sub` occurs somewhere inside `l` (Python's `sub in l` on strings). -/
def hasSub (sub : List Char) : List Char → Bool
  | [] => hasPre sub []
  | l@(_ :: t) => hasPre sub l || hasSub sub t

/-- Python `sub in s` for strings. -/
def strContains (s sub : String) : Bool := hasSub sub.data s.data

/-- Python `str.lower` (ASCII case mapping, which covers the data the
claims exercise; implemented on the character list so that it evaluates
inside the kernel). -/
def lowerStr (s : String) : String := String.mk (s.data.map Char.toLower)

/-- Python `str.strip()` over ASCII whitespace (kernel-evaluable
equivalent of `String.trim` here). -/
def trimStr (s : String) : String :=
  String.mk (((s.data.dropWhile Char.isWhitespace).reverse.dropWhile Char.isWhitespace).reverse)

/-- Python `str.split()` with no argument: split on whitespace runs,
dropping empty words.  (Python's notion of whitespace is Unicode-wide;
`Char.isWhitespace` covers the ASCII cases, which is what the data here
contains.) -/
def splitWsGo : List Char → List Char → List String
  | [], [] => []
  | [], acc => [String.mk acc.reverse]
  | c :: cs, acc =>
    if c.isWhitespace then
      (if acc = [] then splitWsGo cs [] else String.mk acc.reverse :: splitWsGo cs [])
    else splitWsGo cs (c :: acc)

/-- Python `s.split()` (whitespace words of `s`). -/
def splitWs (s : String) : List String := splitWsGo s.data []

/-! ## Percent-coding layer (CPython `urllib.parse.quote_plus` / `unquote`)

`quote_plus` encodes a `str` by UTF-8-encoding it and then mapping every
byte to itself (bytes in `_ALWAYS_SAFE`: ASCII alphanumerics and `_.-~`),
to `+` (the space byte), or to an upper-case `%XX` escape.

`unquote` (with `errors='replace'`) turns maximal ASCII runs back into
bytes — decoding `%XX` escapes, leaving an invalid `%` literal — and
UTF-8-decodes each run with U+FFFD replacement; non-ASCII characters pass
through unchanged. -/

/-- Value of a hexadecimal digit (both cases), as used by `_hextobyte`. -/
def hexVal (c : Char) : Option Nat :=
  if '0' ≤ c ∧ c ≤ '9' then some (c.toNat - 48)
  else if 'a' ≤ c ∧ c ≤ 'f' then some (c.toNat - 97 + 10)
  else if 'A' ≤ c ∧ c ≤ 'F' then some (c.toNat - 65 + 10)
  else none

/-- The U+FFFD replacement character. -/
def replChar : Char := Char.ofNat 0xFFFD

/-- UTF-8 decoding of a byte list with U+FFFD replacement of invalid
sequences (Python `bytes.decode('utf-8', errors='replace')`);
on an invalid or truncated sequence one replacement character is emitted
for the consumed prefix and decoding resumes at the offending byte. -/
def utf8Dec : List Nat → List Char
  | [] => []
  | b :: bs =>
    if b < 0x80 then Char.ofNat b :: utf8Dec bs
    else if b < 0xC2 then replChar :: utf8Dec bs
    else if b < 0xE0 then
      match bs with
      | [] => [replChar]
      | b1 :: bs1 =>
        if 0x80 ≤ b1 ∧ b1 < 0xC0 then
          Char.ofNat ((b - 0xC0) * 64 + (b1 - 0x80)) :: utf8Dec bs1
        else replChar :: utf8Dec (b1 :: bs1)
    else if b < 0xF0 then
      match bs with
      | [] => [replChar]
      | b1 :: bs1 =>
        if (if b = 0xE0 then 0xA0 else 0x80) ≤ b1 ∧ b1 < (if b = 0xED then 0xA0 else 0xC0) then
          match bs1 with
          | [] => [replChar]
          | b2 :: bs2 =>
            if 0x80 ≤ b2 ∧ b2 < 0xC0 then
              Char.ofNat ((b - 0xE0) * 4096 + (b1 - 0x80) * 64 + (b2 - 0x80)) :: utf8Dec bs2
            else replChar :: utf8Dec (b2 :: bs2)
        else replChar :: utf8Dec (b1 :: bs1)
    else if b < 0xF5 then
      match bs with
      | [] => [replChar]
      | b1 :: bs1 =>
        if (if b = 0xF0 then 0x90 else 0x80) ≤ b1 ∧ b1 < (if b = 0xF4 then 0x90 else 0xC0) then
          match bs1 with
          | [] => [replChar]
          | b2 :: bs2 =>
            if 0x80 ≤ b2 ∧ b2 < 0xC0 then
              match bs2 with
              | [] => [replChar]
              | b3 :: bs3 =>
                if 0x80 ≤ b3 ∧ b3 < 0xC0 then
                  Char.ofNat ((b - 0xF0) * 262144 + (b1 - 0x80) * 4096 +
                    (b2 - 0x80) * 64 + (b3 - 0x80)) :: utf8Dec bs3
                else replChar :: utf8Dec (b3 :: bs3)
            else replChar :: utf8Dec (b2 :: bs2)
        else replChar :: utf8Dec (b1 :: bs1)
    else replChar :: utf8Dec bs

/-- UTF-8 encoding of one character (Python `str.encode('utf-8')`,
one scalar value). -/
def utf8EncodeChar (c : Char) : List Nat :=
  let n := c.toNat
  if n < 0x80 then [n]
  else if n < 0x800 then [0xC0 + n / 64, 0x80 + n % 64]
  else if n < 0x10000 then [0xE0 + n / 4096, 0x80 + (n / 64) % 64, 0x80 + n % 64]
  else [0xF0 + n / 262144, 0x80 + (n / 4096) % 64, 0x80 + (n / 64) % 64, 0x80 + n % 64]

/-- UTF-8 encoding of a character list. -/
def utf8EncodeL (cs : List Char) : List Nat := (cs.map utf8EncodeChar).flatten

/-- CPython `urllib.parse` `_ALWAYS_SAFE` bytes: ASCII letters, digits
and `_.-~`. -/
def isSafeByte (b : Nat) : Bool :=
  (65 ≤ b && b ≤ 90) || (97 ≤ b && b ≤ 122) || (48 ≤ b && b ≤ 57) ||
  b == 95 || b == 46 || b == 45 || b == 126

/-- Upper-case hexadecimal digit of a value < 16 (CPython quoter). -/
def hexDigitUpper (n : Nat) : Char :=
  if n < 10 then Char.ofNat (48 + n) else Char.ofNat (65 + n - 10)

/-- `quote_plus` treatment of a single UTF-8 byte: safe bytes stay
themselves, the space byte becomes `+`, everything else `%XX`. -/
def quoteByte (b : Nat) : List Char :=
  if isSafeByte b then [Char.ofNat b]
  else if b = 32 then ['+']
  else ['%', hexDigitUpper (b / 16), hexDigitUpper (b % 16)]

/-- CPython `urllib.parse.quote_plus(s, safe='')`. -/
def quotePlus (cs : List Char) : List Char := ((utf8EncodeL cs).map quoteByte).flatten

/-- Core of CPython `urllib.parse.unquote(s, errors='replace')`: scan the
characters, collecting ASCII characters and decoded `%XX` escapes into a
byte buffer (`buf`); an invalid escape contributes a literal `%` byte; a
non-ASCII character flushes the buffer through the UTF-8 decoder and
passes through unchanged. -/
def unquoteChars : List Char → List Nat → List Char
  | [], buf => utf8Dec buf
  | '%' :: c1 :: c2 :: cs, buf =>
    match hexVal c1, hexVal c2 with
    | some a, some b => unquoteChars cs (buf ++ [16 * a + b])
    | _, _ => unquoteChars (c1 :: c2 :: cs) (buf ++ [37])
  | '%' :: c1 :: [], buf => unquoteChars (c1 :: []) (buf ++ [37])
  | '%' :: [], buf => unquoteChars [] (buf ++ [37])
  | c :: cs, buf =>
    if c.toNat < 0x80 then unquoteChars cs (buf ++ [c.toNat])
    else utf8Dec buf ++ c :: unquoteChars cs []

/-- The `+`-to-space substitution of `parse_qsl`. -/
def replPlus (c : Char) : Char := if c = '+' then ' ' else c

/-- `unquote_plus`: the `.replace('+', ' ')`-then-`unquote` combination
that `parse_qsl` applies to every name and value. -/
def unquotePlus (cs : List Char) : List Char :=
  unquoteChars (cs.map replPlus) []

/-! ## URL splitting (CPython 3.11 `urllib.parse.urlsplit` / `urlparse`) -/

/-- One of the three byte values CPython removes from a URL before
parsing (`_UNSAFE_URL_BYTES_TO_REMOVE`). -/
def badWsChar (c : Char) : Bool := c == '\t' || c == '\r' || c == '\n'

def isAsciiUpper (c : Char) : Bool := 'A' ≤ c && c ≤ 'Z'
def isAsciiLower (c : Char) : Bool := 'a' ≤ c && c ≤ 'z'
def isAsciiAlpha (c : Char) : Bool := isAsciiUpper c || isAsciiLower c
def isAsciiDigit (c : Char) : Bool := '0' ≤ c && c ≤ '9'

/-- CPython `scheme_chars`: letters, digits and `+-.`. -/
def isSchemeChar (c : Char) : Bool :=
  isAsciiAlpha c || isAsciiDigit c || c == '+' || c == '-' || c == '.'

/-- A valid scheme name before the first `:` — nonempty, ASCII letter
first, scheme characters throughout (CPython's check in `urlsplit`). -/
def validSchemeName : List Char → Bool
  | [] => false
  | c :: rest => isAsciiAlpha c && rest.all isSchemeChar

/-- Scheme detection in `urlsplit`: split at the first `:` when the part
before it is a valid scheme name; the scheme is lower-cased.  Returns
`([], cs)` when no scheme is recognised. -/
def splitSchemeF (cs : List Char) : List Char × List Char :=
  match breakAt (fun c => c == ':') cs with
  | some (a, b) => if validSchemeName a then (a.map Char.toLower, b) else ([], cs)
  | none => ([], cs)

/-- The three characters that terminate the netloc in `_splitnetloc`. -/
def netlocDelim (c : Char) : Bool := c == '/' || c == '?' || c == '#'

/-- Parsed components as returned by `urlsplit`. -/
structure SplitResult where
  scheme : List Char
  netloc : List Char
  path : List Char
  query : List Char
  fragment : List Char
deriving Repr, DecidableEq

/-- Parsed components as returned by `urlparse` (path params split off). -/
structure ParseResult where
  scheme : List Char
  netloc : List Char
  path : List Char
  params : List Char
  query : List Char
  fragment : List Char
deriving Repr, DecidableEq

/-- CPython 3.11 `urlsplit` (with `allow_fragments=True`):
leading C0-control/space characters are stripped, tab/CR/LF removed
everywhere, then scheme, netloc (after `//`, with the bracket-mismatch
`ValueError`), fragment (first `#`) and query (first `?`) are split off.
The NFKC netloc check and the bracketed-host content validation are not
modelled (they only reject further inputs). -/
def urlsplitE (url : String) : Except String SplitResult :=
  let cs := (url.data.dropWhile (fun c => c.toNat ≤ 0x20)).filter (fun c => !badWsChar c)
  let sr := splitSchemeF cs
  let nr :=
    if (sr.2.take 2) = ['/', '/'] then
      (((sr.2.drop 2).takeWhile (fun c => !netlocDelim c)),
        ((sr.2.drop 2).dropWhile (fun c => !netlocDelim c)))
    else ([], sr.2)
  if (nr.1.contains '[' != nr.1.contains ']') then
    .error "Invalid IPv6 URL"
  else
    let fr :=
      match breakAt (fun c => c == '#') nr.2 with
      | some (a, b) => (a, b)
      | none => (nr.2, [])
    let qr :=
      match breakAt (fun c => c == '?') fr.1 with
      | some (a, b) => (a, b)
      | none => (fr.1, [])
    .ok ⟨sr.1, nr.1, qr.1, qr.2, fr.2⟩

/-- CPython `_splitparams`: split `;params` off the last path segment
(or off the whole path when it contains no `/`). -/
def splitParams (cs : List Char) : List Char × List Char :=
  if cs.contains ';' then
    if cs.contains '/' then
      let after := (cs.reverse.takeWhile (fun c => c != '/')).reverse
      let pre := cs.take (cs.length - after.length)
      match breakAt (fun c => c == ';') after with
      | some (a, b) => (pre ++ a, b)
      | none => (cs, [])
    else
      match breakAt (fun c => c == ';') cs with
      | some (a, b) => (a, b)
      | none => (cs, [])
  else (cs, [])

/-- CPython `urlparse`: `urlsplit` followed by `_splitparams`. -/
def urlparseE (url : String) : Except String ParseResult :=
  match urlsplitE url with
  | .error e => .error e
  | .ok r =>
    let pp := splitParams r.path
    .ok ⟨r.scheme, r.netloc, pp.1, pp.2, r.query, r.fragment⟩

/-- CPython `uses_netloc` (schemes that reinstate `//` in `urlunsplit`). -/
def usesNetloc : List String :=
  ["", "ftp", "http", "gopher", "nntp", "telnet", "imap", "wais", "file", "mms",
   "https", "shttp", "snews", "prospero", "rtsp", "rtsps", "rtspu", "rsync",
   "svn", "svn+ssh", "sftp", "nfs", "git", "git+ssh", "ws", "wss"]

/-- CPython 3.11 `urlunsplit`. -/
def urlunsplitL (scheme netloc path query fragment : List Char) : List Char :=
  let u := path
  let u :=
    if netloc ≠ [] ∨ (scheme ≠ [] ∧ (usesNetloc.map String.data).contains scheme ∧
        u.take 2 ≠ ['/', '/']) then
      ('/' :: '/' :: netloc) ++ (if u ≠ [] ∧ u.take 1 ≠ ['/'] then '/' :: u else u)
    else u
  let u := if scheme ≠ [] then scheme ++ ':' :: u else u
  let u := if query ≠ [] then u ++ '?' :: query else u
  if fragment ≠ [] then u ++ '#' :: fragment else u

/-- CPython `urlunparse`: re-attach `;params` to the path, then
`urlunsplit`. -/
def urlunparseL (p : ParseResult) : List Char :=
  urlunsplitL p.scheme p.netloc
    (if p.params ≠ [] then p.path ++ ';' :: p.params else p.path) p.query p.fragment

/-! ## Query-string layer (`parse_qs` / `urlencode(..., doseq=True)`) -/

/-- One chunk of `parse_qsl(qs, keep_blank_values=True)`: an empty chunk
is skipped, any other is split at its first `=` (a chunk with no `=`
keeps a blank value) and both halves are `unquote_plus`-decoded. -/
def qslChunk (chunk : List Char) : Option (List Char × List Char) :=
  if chunk = [] then none
  else
    let nv := match breakAt (fun c => c == '=') chunk with
              | some (a, b) => (a, b)
              | none => (chunk, [])
    some (unquotePlus nv.1, unquotePlus nv.2)

/-- CPython `parse_qsl(qs, keep_blank_values=True)`: split the query on
`&` and decode each chunk. -/
def parseQsl (qs : List Char) : List (List Char × List Char) :=
  let chunks := if qs = [] then [] else splitOnChar '&' qs
  chunks.filterMap qslChunk

/-- Insert one name/value pair into the insertion-ordered groups, the way
`parse_qs` appends to its result `dict`. -/
def addPair (acc : List (List Char × List (List Char))) (k v : List Char) :
    List (List Char × List (List Char)) :=
  match acc with
  | [] => [(k, [v])]
  | (k', vs) :: rest =>
    if k' = k then (k', vs ++ [v]) :: rest else (k', vs) :: addPair rest k v

/-- Group a pair list into the insertion-ordered key → value-list map a
Python `dict` builds. -/
def groupPairs (l : List (List Char × List Char)) : List (List Char × List (List Char)) :=
  l.foldl (fun acc kv => addPair acc kv.1 kv.2) []

/-- CPython `parse_qs(qs, keep_blank_values=True)`: the pairs of
`parse_qsl` grouped into an insertion-ordered key → value-list map. -/
def parseQs (qs : List Char) : List (List Char × List (List Char)) :=
  groupPairs (parseQsl qs)

/-- CPython `urlencode(query, doseq=True)` for a `parse_qs`-shaped map of
string lists: one `quote_plus(k)=quote_plus(v)` piece per value, joined
with `&`. -/
def urlencodeSeq (l : List (List Char × List (List Char))) : List Char :=
  intercalateChar '&'
    ((l.map (fun kv => kv.2.map (fun v => quotePlus kv.1 ++ '=' :: quotePlus v))).flatten)

/-! ## `clean_url` (src/main.py lines 68-131) -/

/-- The tracking-parameter denylist of `clean_url` (src/main.py 86-112). -/
def removeParams : List String :=
  ["utm_source", "utm_medium", "utm_campaign", "utm_term", "utm_content",
   "source", "ref", "referral", "eType", "mc_cid", "mc_eid", "fbclid",
   "ref_src", "ref_url", "_hsenc", "_hsmi", "hs_preview", "preview",
   "r", "s", "gclid", "ocid", "msclkid", "dclid", "igshid"]

/-- The kept-parameter filter of `clean_url`: keep a group iff its
(lower-cased) key is not on the denylist.  (Python lower-cases with
`str.lower`; `Char.toLower` matches it on the ASCII keys involved.) -/
def keepParam (kv : List Char × List (List Char)) : Bool :=
  !((removeParams.map String.data).contains (kv.1.map Char.toLower))

/-- `clean_url` (src/main.py 68-131): parse the URL, drop denylisted
query parameters, re-encode the remainder, rebuild the URL, strip one
trailing `?`; any parse failure returns the URL unchanged. -/
def clean_url (url : String) : String :=
  match urlparseE url with
  | .error _ => url
  | .ok p =>
    let cleanedParams := (parseQs p.query).filter keepParam
    let s := urlunparseL { p with query := urlencodeSeq cleanedParams }
    if s.getLast? = some '?' then String.mk s.dropLast else String.mk s

/-- Parse result of a URL with a default for the error case — a
convenience accessor for stating theorems about parse components. -/
def parseOf (url : String) : ParseResult :=
  match urlparseE url with
  | .ok p => p
  | .error _ => ⟨[], [], [], [], [], []⟩

/-- Does a URL parse at all? -/
def parsesOk (url : String) : Bool :=
  match urlparseE url with
  | .ok _ => true
  | .error _ => false

/-! ## JSON-LD values

`extruct` hands the code a list of JSON objects.  `Json` models the JSON
values appearing in them; `jget` is Python `dict.get` (returning `none`
for a missing key, and for `.get` on the non-`obj` values on which Python
would raise inside a caught exception). -/

inductive Json where
  | null
  | bool (b : Bool)
  | num (n : Int)
  | str (s : String)
  | arr (xs : List Json)
  | obj (fields : List (String × Json))
deriving Repr

/-- Python `j.get(k)` on a JSON object (`none` when the key is absent). -/
def jget (j : Json) (k : String) : Option Json :=
  match j with
  | .obj fields => (fields.find? (fun p => p.1 == k)).map (fun p => p.2)
  | _ => none

/-- Is this optional JSON value the string `s`?  All the comparisons the
code makes between JSON values and string literals factor through this
(Python `==` between a non-string JSON value and a `str` is `False`). -/
def jIsStr (o : Option Json) (s : String) : Bool :=
  match o with
  | some (.str t) => t == s
  | _ => false

/-- Python `k in j` on a JSON object. -/
def hasJKey (j : Json) (k : String) : Bool :=
  match j with
  | .obj fields => fields.any (fun p => p.1 == k)
  | _ => false

/-- Python truthiness of a JSON value. -/
def jtruthy : Json → Bool
  | .null => false
  | .bool b => b
  | .num n => n != 0
  | .str s => s != ""
  | .arr xs => !xs.isEmpty
  | .obj fs => !fs.isEmpty

/-- Read an optional JSON value that the Python code goes on to use as a
string, with a default.  (A non-string value here makes the Python code
raise inside its catch-all handler or store a non-string verbatim; both
exceptional paths are modelled by the default.) -/
def jstr : Option Json → String → String
  | some (.str s), _ => s
  | _, d => d

/-- Python `str(...)` on a JSON value.  The container renderings are
placeholders: only their (non-)containment of domain substrings is ever
observed, and no claim exercises a container here. -/
def pyStr : Json → String
  | .null => "None"
  | .bool b => if b then "True" else "False"
  | .num n => toString n
  | .str s => s
  | .arr _ => "<list>"
  | .obj _ => "<dict>"

/-! ## Site classification (src/main.py 197-253) -/

/-- One element of the note/chat regexes (src/main.py 207-212): a literal
character (matched under `re.IGNORECASE`), or one of the one-or-more
character-class repetitions `[\w-]+` and `\d+` that occur in them. -/
inductive RElem where
  | lit : Char → RElem
  | plusWordDash : RElem
  | plusDigit : RElem
deriving Repr, DecidableEq

/-- The literal elements of a pattern fragment (the `\.` escapes in the
source patterns denote literal dots). -/
def lits (s : String) : List RElem := s.data.map RElem.lit

/-- One-or-more repetition of a character class followed by the rest of the
pattern (`k` is the continuation): the boolean result of `re`'s
greedy-with-backtracking repetition is the disjunction over every nonempty
run of class characters. -/
def matchPlus (cl : Char → Bool) (k : List Char → Bool) : List Char → Bool
  | [] => false
  | d :: ds => cl d && (k ds || matchPlus cl k ds)

/-- Match a pattern against a prefix of the input (the pattern may end
before the input does).  The character semantics of Python's `re` over the
Unicode database are parameters: `wordc` is `\w` (word characters),
`digitc` is `\d` (decimal digits), and `ieq c d` is the `re.IGNORECASE`
equivalence between pattern character `c` and input character `d` (on
ASCII pairs it is equality of lower-casings; its classes reach outside
ASCII, e.g. the long s `ſ` is equivalent to `s`). -/
def matchElems (wordc digitc : Char → Bool) (ieq : Char → Char → Bool) :
    List RElem → List Char → Bool
  | [], _ => true
  | RElem.lit _ :: _, [] => false
  | RElem.lit c :: ps, d :: ds => ieq c d && matchElems wordc digitc ieq ps ds
  | RElem.plusWordDash :: ps, ds =>
    matchPlus (fun d => wordc d || d == '-') (matchElems wordc digitc ieq ps) ds
  | RElem.plusDigit :: ps, ds =>
    matchPlus digitc (matchElems wordc digitc ieq ps) ds

/-- `re.search`: try the pattern at every start position. -/
def searchElems (wordc digitc : Char → Bool) (ieq : Char → Char → Bool)
    (p : List RElem) : List Char → Bool
  | [] => matchElems wordc digitc ieq p []
  | cs@(_ :: t) => matchElems wordc digitc ieq p cs || searchElems wordc digitc ieq p t

/-- The four `note_patterns` of src/main.py 207-212. -/
def notePatterns : List (List RElem) :=
  [lits "substack.com/@" ++ RElem.plusWordDash :: lits "/note/",
   lits "substack.com/notes/",
   lits "substack.com/@" ++ RElem.plusWordDash :: lits "/p/comments/",
   lits "substack.com/profile/" ++ RElem.plusDigit :: RElem.lit '-' ::
     RElem.plusWordDash :: lits "/note/"]

/-- `is_substack_note_url` (src/main.py 197-213): `any(re.search(pattern,
url, re.IGNORECASE) for pattern in note_patterns)`, with the Unicode
character semantics of Python's `re` (`\w`, `\d` and the `IGNORECASE`
literal equivalence) abstracted as the parameters `wordc`, `digitc` and
`ieq`; theorems pin them on ASCII, where `\w` is `[A-Za-z0-9_]`, `\d` is
`[0-9]` and the equivalence is equality of lower-casings. -/
def is_substack_note_url (wordc digitc : Char → Bool) (ieq : Char → Char → Bool)
    (url : String) : Bool :=
  notePatterns.any fun p => searchElems wordc digitc ieq p url.data

/-- Python `\w` restricted to ASCII arguments: `[A-Za-z0-9_]`. -/
def asciiWordChar (c : Char) : Bool := c.isAlphanum || c == '_'

/-- Python `\d` restricted to ASCII arguments: `[0-9]`. -/
def asciiDigitChar (c : Char) : Bool := c.isDigit

/-- `re.IGNORECASE` literal equivalence restricted to ASCII pairs:
equality of lower-casings. -/
def asciiIgnoreEq (c d : Char) : Bool := c.toLower == d.toLower

/-- The note-URL test at the ASCII instantiation of the character
semantics.  On an all-ASCII URL it computes what CPython computes, and
the pipeline claims below evaluate it only on such URLs. -/
def noteUrlAscii (url : String) : Bool :=
  is_substack_note_url asciiWordChar asciiDigitChar asciiIgnoreEq url

/-- `check_if_substack` (src/main.py 216-253): never Substack for empty
HTML or note URLs; otherwise some JSON-LD node typed `NewsArticle` must
show a Substack fingerprint.  (`publisher.get` on a non-object publisher
raises in Python — an uncaught error path no claim exercises — modelled
here as the lookups returning nothing.) -/
def check_if_substack (extractLd : String → String → List Json) (html url : String) : Bool :=
  if html = "" ∨ noteUrlAscii url then false
  else
    (extractLd html url).any fun item =>
      jIsStr (jget item "@type") "NewsArticle" &&
      (let publisher := (jget item "publisher").getD (.obj [])
       strContains (pyStr ((jget item "url").getD (.str ""))) "substack.com" ||
       strContains (pyStr ((jget item "image").getD (.str ""))) "substackcdn.com" ||
       endsWithL "substack.com".data (jstr (jget publisher "url") "").data ||
       hasPre "pub:".data ((jstr (jget publisher "identifier") "").data))

/-! ## Metadata extraction (src/main.py 256-351) -/

/-- src/main.py 55. -/
def TITLE_FALLBACK_WORD_LIMIT : Nat := 20

/-- The metadata dictionary built by `extract_metadata`.  `type` keeps the
raw `@type` value for downstream mapping; the other fields are the strings
the code derives (non-string JSON in a string position is modelled as the
empty default, see `jstr`). -/
structure Metadata where
  title : String
  author : String
  date : String
  publisher : String
  type : Json
deriving Repr

/-- The starting `metadata` dictionary of `extract_metadata`. -/
def emptyMetadata : Metadata :=
  { title := "", author := "", date := "", publisher := "", type := .str "" }

/-- `"linkedin.com" in url.lower()` (src/main.py 272). -/
def isLinkedinUrl (url : String) : Bool := strContains (lowerStr url) "linkedin.com"

/-- LinkedIn comment URLs use the `/feed/update/` pattern (line 274). -/
def isLinkedinFeedUpdate (url : String) : Bool :=
  isLinkedinUrl url && strContains url "/feed/update/"

/-- Target rule 1 (src/main.py 281-288): on a LinkedIn feed/update page,
the first element of the first `SocialMediaPosting` node's non-empty
nested `comment` array.  (A truthy non-array `comment` value makes Python
index into it and then raise — caught, yielding empty metadata — a corner
modelled as no match.) -/
def nestedComment (json_ld : List Json) : Option Json :=
  json_ld.findSome? fun item =>
    if jIsStr (jget item "@type") "SocialMediaPosting" && hasJKey item "comment" then
      match jget item "comment" with
      | some (.arr (c :: _)) => some c
      | _ => none
    else none

/-- Target-node selection of `extract_metadata` (src/main.py 276-307):
nested LinkedIn comment, else first top-level `Comment`, else first
article/post node. -/
def selectTarget (json_ld : List Json) (url : String) : Option Json :=
  match (if isLinkedinFeedUpdate url then nestedComment json_ld else none) with
  | some t => some t
  | none =>
    match json_ld.find? (fun item => jIsStr (jget item "@type") "Comment") with
    | some t => some t
    | none =>
      json_ld.find? (fun item =>
        jIsStr (jget item "@type") "NewsArticle" ||
        jIsStr (jget item "@type") "BlogPosting" ||
        jIsStr (jget item "@type") "SocialMediaPosting" ||
        jIsStr (jget item "@type") "DiscussionForumPosting" ||
        jIsStr (jget item "@type") "Article")

/-- Author derivation (src/main.py 314-321): first list element's name, a
single object's name, or `str(value) if value else ""`. -/
def authorOf (t : Json) : String :=
  match jget t "author" with
  | some (.arr (a :: _)) => jstr (jget a "name") ""
  | some (.obj fs) => jstr (jget (.obj fs) "name") ""
  | some j => if jtruthy j then pyStr j else ""
  | none => ""

/-- Title derivation (src/main.py 324-334): `name`/`headline` for the
article types, else the first 20 whitespace words of `text`/`articleBody`
with a literal `" ..."` suffix when more words follow. -/
def titleOf (t : Json) : String :=
  if jIsStr (jget t "@type") "NewsArticle" ||
     jIsStr (jget t "@type") "BlogPosting" ||
     jIsStr (jget t "@type") "Article" then
    jstr (match jget t "name" with
          | some j => some j
          | none => jget t "headline") ""
  else
    match (jget t "text").getD ((jget t "articleBody").getD (.str "")) with
    | .str s =>
      let ws := splitWs s
      String.intercalate " " (ws.take TITLE_FALLBACK_WORD_LIMIT) ++
        (if TITLE_FALLBACK_WORD_LIMIT < ws.length then " ..." else "")
    | _ => ""

/-- First truthy value of an `a or b or ... or ""` chain. -/
def firstTruthy : List (Option Json) → Json
  | [] => .str ""
  | o :: rest =>
    match o with
    | some v => if jtruthy v then v else firstTruthy rest
    | none => firstTruthy rest

/-- Date derivation (src/main.py 337-342). -/
def dateOf (t : Json) : String :=
  match firstTruthy [jget t "datePublished", jget t "dateCreated", jget t "dateModified"] with
  | .str s => s
  | _ => ""

/-- Publisher derivation (src/main.py 343-346): the `name` of the
`publisher` object when it is an object, else empty. -/
def publisherOf (t : Json) : String :=
  match jget t "publisher" with
  | some (.obj fs) => jstr (jget (.obj fs) "name") ""
  | _ => ""

/-- Field derivation of `extract_metadata` from the target node
(src/main.py 310-346). -/
def deriveMetadata (t : Json) : Metadata :=
  { type := (jget t "@type").getD (.str "")
    author := authorOf t
    title := titleOf t
    date := dateOf t
    publisher := publisherOf t }

/-- `extract_metadata` (src/main.py 256-351), with the `extruct` JSON-LD
extraction abstracted as `extractLd`. -/
def extract_metadata (extractLd : String → String → List Json) (html url : String) : Metadata :=
  if html = "" then emptyMetadata
  else
    match selectTarget (extractLd html url) url with
    | some t => deriveMetadata t
    | none => emptyMetadata

/-! ## Zotero items and the reconciler (src/main.py 354-585) -/

/-- One creator entry as written by the reconciler. -/
structure Creator where
  firstName : String
  lastName : String
  creatorType : String
deriving DecidableEq, Repr

/-- The fields of a Zotero item's `data` dictionary that the pipeline
reads or writes; `none` models an absent key.  Tags are modelled by their
`"tag"` string values (the code only ever reads/writes `t["tag"]`);
fields the pipeline never touches pass through a real record unchanged
and are omitted. -/
structure ItemData where
  itemType : Option String := none
  url : Option String := none
  title : Option String := none
  websiteType : Option String := none
  blogTitle : Option String := none
  forumTitle : Option String := none
  date : Option String := none
  creators : Option (List Creator) := none
  tags : Option (List String) := none
deriving DecidableEq, Repr

/-- A Zotero item as handed to the pipeline. -/
structure Item where
  key : String := ""
  data : ItemData
deriving DecidableEq, Repr

/-- `validate_item_fields` (src/main.py 354-392): drop `blogTitle` from a
`forumPost`, drop `forumTitle` from a `blogPost`. -/
def validate_item_fields (d : ItemData) : ItemData :=
  if d.itemType = some "forumPost" then { d with blogTitle := none }
  else if d.itemType = some "blogPost" then { d with forumTitle := none }
  else d

/-- `metadata.get("type") in ["Comment", "DiscussionForumPosting",
"SocialMediaPosting"]` (src/main.py 403-407). -/
def isForumMetaType (ty : Json) : Bool :=
  match ty with
  | .str t => t == "Comment" || t == "DiscussionForumPosting" || t == "SocialMediaPosting"
  | _ => false

/-- Item-type and platform-marker assignment (src/main.py 402-411). -/
def typeStep (websiteLabel : String) (m : Metadata) (d : ItemData) : ItemData :=
  { d with
    itemType := some (if isForumMetaType m.type then "forumPost" else "blogPost"),
    websiteType := some websiteLabel }

/-- Title overwrite (src/main.py 413-414). -/
def titleStep (m : Metadata) (d : ItemData) : ItemData :=
  { d with title := if m.title ≠ "" then some m.title else d.title }

/-- Blog/forum title assignment from the publisher (src/main.py 416-423). -/
def pubTitleStep (m : Metadata) (d : ItemData) : ItemData :=
  if m.publisher ≠ "" then
    if d.itemType = some "forumPost" then { d with forumTitle := some m.publisher }
    else { d with blogTitle := some m.publisher }
  else d

/-- Date reconciliation (src/main.py 425-464).  `parseNorm` abstracts
`dateutil.parser.parse` followed by `strftime("%Y-%m-%d")`: `none` models
a parse exception.  (Python strips with `str.strip`; `trimStr` covers
the ASCII whitespace that occurs here.) -/
def recordNormDate (parseNorm : String → Option String) (d0 : Option String) : String :=
  let cur := trimStr (d0.getD "")
  if cur ≠ "" then (parseNorm cur).getD "" else cur

def dateStepValue (parseNorm : String → Option String) (m : Metadata)
    (d0 : Option String) : Option String :=
  if m.date ≠ "" then
    match parseNorm m.date with
    | some metaStr =>
      if recordNormDate parseNorm d0 = "" ∨ recordNormDate parseNorm d0 ≠ metaStr then
        some metaStr
      else d0
    | none =>
      if d0.getD "" = "" then some m.date else d0
  else d0

def dateStep (parseNorm : String → Option String) (m : Metadata) (d : ItemData) : ItemData :=
  { d with date := dateStepValue parseNorm m d.date }

/-- Creator assignment (src/main.py 466-481): only when the author is
non-empty and the record has no creators; last whitespace word becomes
the last name, the rest the first name. -/
def creatorsValue (m : Metadata) (c0 : Option (List Creator)) : Option (List Creator) :=
  if m.author ≠ "" ∧ c0.getD [] = [] then
    match splitWs m.author with
    | [] => c0
    | p :: ps =>
      some [{ firstName := String.intercalate " " ((p :: ps).dropLast),
              lastName := (p :: ps).getLastD "",
              creatorType := "author" }]
  else c0

def creatorsStep (m : Metadata) (d : ItemData) : ItemData :=
  { d with creators := creatorsValue m d.creators }

/-- Platform tag append (src/main.py 483-488): materialise the tag list,
then append the platform tag unless an equal tag exists. -/
def tagsAfterPlatform (tag : String) (t0 : Option (List String)) : Option (List String) :=
  let tags := t0.getD []
  if tags.any (fun t => t == tag) then some tags else some (tags ++ [tag])

def platformTagStep (tag : String) (d : ItemData) : ItemData :=
  { d with tags := tagsAfterPlatform tag d.tags }

/-- `prepare_substack_item_update` (src/main.py 395-491). -/
def prepare_substack_item_update (parseNorm : String → Option String)
    (item : Item) (m : Metadata) : ItemData :=
  validate_item_fields
    (platformTagStep "Substack"
      (creatorsStep m
        (dateStep parseNorm m
          (pubTitleStep m
            (titleStep m
              (typeStep "Substack Newsletter" m item.data))))))

/-- `prepare_linkedin_item_update` (src/main.py 494-585) — line for line
the Substack variant with the LinkedIn label and tag. -/
def prepare_linkedin_item_update (parseNorm : String → Option String)
    (item : Item) (m : Metadata) : ItemData :=
  validate_item_fields
    (platformTagStep "LinkedIn"
      (creatorsStep m
        (dateStep parseNorm m
          (pubTitleStep m
            (titleStep m
              (typeStep "LinkedIn" m item.data))))))

/-- The unconditional sentinel-tag append of `process_item`
(src/main.py 712-717). -/
def appendProcessedTag (d : ItemData) : ItemData :=
  { d with tags := some (d.tags.getD [] ++ ["zotero:processed"]) }

/-- `process_item` (src/main.py 588-719).  `download` abstracts
`download_page`, `extractLd` the `extruct` JSON-LD extraction, and
`parseNorm` the date parser (as in `dateStep`).  Statistics bookkeeping
and logging are pure observers and are omitted. -/
def process_item (download : String → String) (extractLd : String → String → List Json)
    (parseNorm : String → Option String) (item : Item)
    (exclude_substack exclude_linkedin force : Bool) : Option ItemData :=
  let url := item.data.url.getD ""
  if url = "" then none
  else
    let cleaned := clean_url url
    let urlChanged := cleaned ≠ url
    let d1 := if urlChanged then { item.data with url := some cleaned } else item.data
    if force ∨ ¬((item.data.tags.getD []).any (fun t => t == "zotero:processed")) then
      let isLi := strContains (lowerStr url) "linkedin.com"
      if exclude_linkedin ∧ isLi then
        if urlChanged then some d1 else none
      else if exclude_substack ∧ ¬exclude_linkedin ∧ ¬isLi then
        if urlChanged then some d1 else none
      else
        let html := download cleaned
        let isSub := html ≠ "" ∧ (check_if_substack extractLd html url ∨ noteUrlAscii url)
        let m := extract_metadata extractLd html url
        if html ≠ "" ∧ (isSub ∨ isLi) then
          let upd := if isSub then prepare_substack_item_update parseNorm item m
                     else prepare_linkedin_item_update parseNorm item m
          some (appendProcessedTag { upd with url := some cleaned })
        else
          if urlChanged then some (appendProcessedTag d1) else none
    else
      if urlChanged then some (appendProcessedTag d1) else none

/-! ## Batch orchestrator loop (src/main.py 819-867) -/

/-- The run statistics countered by the orchestrator. -/
structure BatchStats where
  processed : Nat := 0
  substackFound : Nat := 0
  linkedinFound : Nat := 0
  updated : Nat := 0
  errors : Nat := 0
  urls_cleaned : Nat := 0
deriving DecidableEq, Repr

/-- The mutable state threaded through the orchestrator's item loop. -/
structure LoopState where
  updates : List ItemData := []
  batch_updates : List ItemData := []
  stats : BatchStats := {}
deriving DecidableEq, Repr

/-- The per-item phase of the orchestrator loop (src/main.py 820-842):
an exception from `process_item` counts one error (modelled as
`Except.error`); a computed update is recorded for the report, counted as
a cleaned URL when the URL changed, and — outside a dry run — staged in
the batch buffer and counted as updated. -/
def itemPhase (dry_run : Bool) (st : LoopState) (origUrl : Option String)
    (res : Except Unit (Option ItemData)) : LoopState :=
  match res with
  | .error _ => { st with stats.errors := st.stats.errors + 1 }
  | .ok none => st
  | .ok (some upd) =>
    let st' := { st with updates := st.updates ++ [upd] }
    let st'' := if upd.url ≠ origUrl then
                  { st' with stats.urls_cleaned := st'.stats.urls_cleaned + 1 }
                else st'
    if dry_run then st''
    else { st'' with batch_updates := st''.batch_updates ++ [upd],
                     stats.updated := st''.stats.updated + 1 }

/-- The flush phase of the orchestrator loop (src/main.py 844-856):
when the pending buffer has reached 50 records or the current record is
the last, `zot.update_items` is attempted (`flushOk` abstracts its
success); success empties the buffer, failure counts the entire pending
buffer as errors and empties it — no retry. -/
def flushPhase (flushOk : List ItemData → Bool) (isLast : Bool) (st : LoopState) : LoopState :=
  if 50 ≤ st.batch_updates.length ∨ isLast then
    if flushOk st.batch_updates then { st with batch_updates := [] }
    else { st with stats.errors := st.stats.errors + st.batch_updates.length,
                   batch_updates := [] }
  else st

/-- One full iteration of the orchestrator's item loop (src/main.py
820-860): item phase, flush phase (non-dry runs only), progress counter.
(`item == web_items[-1]` compares by value; for the distinct records of a
run it holds exactly at the last iteration, modelled by `isLast`.) -/
def batchStep (dry_run : Bool) (flushOk : List ItemData → Bool) (isLast : Bool)
    (st : LoopState) (origUrl : Option String) (res : Except Unit (Option ItemData)) :
    LoopState :=
  let st1 := itemPhase dry_run st origUrl res
  let st2 := if dry_run then st1 else flushPhase flushOk isLast st1
  { st2 with stats.processed := st2.stats.processed + 1 }

/-- The orchestrator's item loop as a fold over the per-item inputs
(original URL and processing outcome); processing always continues with
the remaining records, whatever each step did. -/
def runBatchLoop (dry_run : Bool) (flushOk : List ItemData → Bool) :
    List (Option String × Except Unit (Option ItemData)) → LoopState → LoopState
  | [], st => st
  | x :: rest, st =>
    runBatchLoop dry_run flushOk rest (batchStep dry_run flushOk (rest.isEmpty) st x.1 x.2)

/-! ## Spec-modelled site classifier parts

`is_substack_domain` is imported from `main` by `tests/test_real_urls.py`
and `get_substack_content_type` by the tests and tools, but neither is
present in `src/main.py`; `is_substack_domain` is modelled from the spec
below. -/

/-- The URL's host: the lower-cased netloc without userinfo and port. -/
def hostOf (url : String) : String :=
  match urlparseE url with
  | .error _ => ""
  | .ok p =>
    let n := p.netloc.map Char.toLower
    let n := (n.reverse.takeWhile (fun c => c != '@')).reverse
    String.mk (n.takeWhile (fun c => c != ':'))

/-- Modelled from the spec: `is_substack_domain` is absent from
src/main.py (only tests/test_real_urls.py imports and exercises it).
Spec §4.2: "true iff host equals the platform's root domain or is a
strict subdomain of it … a security-relevant exact-suffix check, not a
substring check". -/
def is_substack_domain (url : String) : Bool :=
  hostOf url == "substack.com" || endsWithL ".substack.com".data (hostOf url).data

/-- The flat pair list encoded by a grouped map (`urlencode` emits one
`k=v` piece per pair of this list, in order). -/
def flattenPairs (g : List (List Char × List (List Char))) : List (List Char × List Char) :=
  g.flatMap (fun kv => kv.2.map (fun v => (kv.1, v)))

/-- The encoded text of one name/value pair inside `urlencode`'s output. -/
def encPair (kv : List Char × List Char) : List Char :=
  quotePlus kv.1 ++ '=' :: quotePlus kv.2

/-- The keys of a `parse_qs`-shaped map, in insertion order. -/
def keysOf (g : List (List Char × List (List Char))) : List (List Char) :=
  g.map Prod.fst

/-- The query component `clean_url` writes back: parse, filter the
denylist, re-encode. -/
def cleanedQuery (q : List Char) : List Char :=
  urlencodeSeq ((parseQs q).filter keepParam)

/-- The effect of `clean_url`'s trailing-`?` strip on the fragment
component. -/
def stripFragment (f : List Char) : List Char :=
  if f.getLast? = some '?' then f.dropLast else f

/-- The characters `quote_plus` can emit: ASCII alphanumerics, `_.-~`,
`+` and `%`. -/
def isQSafeChar (c : Char) : Bool :=
  isAsciiAlpha c || isAsciiDigit c ||
  c == '_' || c == '.' || c == '-' || c == '~' || c == '+' || c == '%'

/-! # Theorems -/

/-! ## Frame lemmas for the reconciler steps -/

theorem titleStep_itemType (m : Metadata) (d : ItemData) :
    (titleStep m d).itemType = d.itemType := rfl

theorem pubTitleStep_itemType (m : Metadata) (d : ItemData) :
    (pubTitleStep m d).itemType = d.itemType := by
  unfold pubTitleStep; split <;> [skip; rfl]; split <;> rfl

theorem dateStep_itemType (pn : String → Option String) (m : Metadata) (d : ItemData) :
    (dateStep pn m d).itemType = d.itemType := rfl

theorem creatorsStep_itemType (m : Metadata) (d : ItemData) :
    (creatorsStep m d).itemType = d.itemType := rfl

theorem platformTagStep_itemType (tag : String) (d : ItemData) :
    (platformTagStep tag d).itemType = d.itemType := rfl

theorem validate_itemType (d : ItemData) :
    (validate_item_fields d).itemType = d.itemType := by
  unfold validate_item_fields; split <;> [rfl; split <;> rfl]

theorem validate_blogTitle_of_forum (d : ItemData) (h : d.itemType = some "forumPost") :
    (validate_item_fields d).blogTitle = none := by
  unfold validate_item_fields
  rw [if_pos h]

theorem validate_forumTitle_of_blog (d : ItemData) (h : d.itemType = some "blogPost") :
    (validate_item_fields d).forumTitle = none := by
  unfold validate_item_fields
  rw [if_neg (by simp [h]), if_pos h]

theorem prepare_substack_itemType (pn : String → Option String) (item : Item) (m : Metadata) :
    (prepare_substack_item_update pn item m).itemType =
      some (if isForumMetaType m.type then "forumPost" else "blogPost") := by
  unfold prepare_substack_item_update
  rw [validate_itemType, platformTagStep_itemType, creatorsStep_itemType,
      dateStep_itemType, pubTitleStep_itemType, titleStep_itemType]
  rfl

theorem prepare_linkedin_itemType (pn : String → Option String) (item : Item) (m : Metadata) :
    (prepare_linkedin_item_update pn item m).itemType =
      some (if isForumMetaType m.type then "forumPost" else "blogPost") := by
  unfold prepare_linkedin_item_update
  rw [validate_itemType, platformTagStep_itemType, creatorsStep_itemType,
      dateStep_itemType, pubTitleStep_itemType, titleStep_itemType]
  rfl

/-- The dichotomy and exclusivity facts underlying claim C1, for either
prepared output. -/
theorem prepared_exclusive (out : ItemData)
    (hty : out.itemType = some "forumPost" ∨ out.itemType = some "blogPost")
    (hf : out.itemType = some "forumPost" → out.blogTitle = none)
    (hb : out.itemType = some "blogPost" → out.forumTitle = none) :
    ¬(out.blogTitle ≠ none ∧ out.forumTitle ≠ none) := by
  rintro ⟨h1, h2⟩
  rcases hty with h | h
  · exact h1 (hf h)
  · exact h2 (hb h)

theorem validate_exclusive (X : ItemData) :
    ((validate_item_fields X).itemType = some "forumPost" →
      (validate_item_fields X).blogTitle = none) ∧
    ((validate_item_fields X).itemType = some "blogPost" →
      (validate_item_fields X).forumTitle = none) := by
  constructor
  · intro h
    exact validate_blogTitle_of_forum X (by rw [← validate_itemType]; exact h)
  · intro h
    exact validate_forumTitle_of_blog X (by rw [← validate_itemType]; exact h)

/-- C1: for every input record and extracted metadata, the record
returned by `prepare_substack_item_update` or
`prepare_linkedin_item_update` never carries both `forumTitle` and
`blogTitle`: the resolved itemType is `forumPost` or `blogPost`; a
`forumPost` output has no `blogTitle` field and a `blogPost` output has
no `forumTitle` field, even when the removed field was present in the
original record. -/
theorem c1_reconciled_never_both_titles
    (parseNorm : String → Option String) (item : Item) (m : Metadata) :
    ∀ out, (out = prepare_substack_item_update parseNorm item m ∨
            out = prepare_linkedin_item_update parseNorm item m) →
      (out.itemType = some "forumPost" ∨ out.itemType = some "blogPost") ∧
      (out.itemType = some "forumPost" → out.blogTitle = none) ∧
      (out.itemType = some "blogPost" → out.forumTitle = none) ∧
      ¬(out.blogTitle ≠ none ∧ out.forumTitle ≠ none) := by
  intro out hout
  have hty : out.itemType = some (if isForumMetaType m.type then "forumPost" else "blogPost") := by
    rcases hout with h | h <;> subst h
    · exact prepare_substack_itemType parseNorm item m
    · exact prepare_linkedin_itemType parseNorm item m
  have hdich : out.itemType = some "forumPost" ∨ out.itemType = some "blogPost" := by
    by_cases hc : isForumMetaType m.type = true
    · left; rw [hty, if_pos hc]
    · right; rw [hty, if_neg hc]
  have hf : out.itemType = some "forumPost" → out.blogTitle = none := by
    rcases hout with h | h <;> subst h <;> exact (validate_exclusive _).1
  have hb : out.itemType = some "blogPost" → out.forumTitle = none := by
    rcases hout with h | h <;> subst h <;> exact (validate_exclusive _).2
  exact ⟨hdich, hf, hb, prepared_exclusive out hdich hf hb⟩

/-! ## Date reconciliation lemmas for C5 -/

theorem pubTitleStep_date (m : Metadata) (d : ItemData) :
    (pubTitleStep m d).date = d.date := by
  unfold pubTitleStep; split <;> [skip; rfl]; split <;> rfl

theorem validate_date (d : ItemData) :
    (validate_item_fields d).date = d.date := by
  unfold validate_item_fields; split <;> [rfl; split <;> rfl]

theorem prepare_substack_date (pn : String → Option String) (item : Item) (m : Metadata) :
    (prepare_substack_item_update pn item m).date = dateStepValue pn m item.data.date := by
  unfold prepare_substack_item_update
  rw [validate_date]
  show dateStepValue pn m
    (pubTitleStep m (titleStep m (typeStep "Substack Newsletter" m item.data))).date = _
  rw [pubTitleStep_date]
  rfl

theorem prepare_linkedin_date (pn : String → Option String) (item : Item) (m : Metadata) :
    (prepare_linkedin_item_update pn item m).date = dateStepValue pn m item.data.date := by
  unfold prepare_linkedin_item_update
  rw [validate_date]
  show dateStepValue pn m
    (pubTitleStep m (titleStep m (typeStep "LinkedIn" m item.data))).date = _
  rw [pubTitleStep_date]
  rfl

/-- C5: date reconciliation in the reconciler.  With a non-empty
extracted date string: when `parseNorm` (dateutil parse + `%Y-%m-%d`
formatting) succeeds with normal form `nd`, the record date is set to
`nd` exactly when the record's own normalized date (`recordNormDate` —
empty when absent or unparsable) is empty or different, and left
untouched when it already normalizes to `nd`; when parsing fails, the
raw string is stored only into a record with no date at all, and an
existing date is never overwritten. -/
theorem c5_date_reconciliation (parseNorm : String → Option String)
    (item : Item) (m : Metadata) (hm : m.date ≠ "") :
    ∀ out, (out = prepare_substack_item_update parseNorm item m ∨
            out = prepare_linkedin_item_update parseNorm item m) →
      (∀ nd, parseNorm m.date = some nd →
        ((recordNormDate parseNorm item.data.date = "" ∨
          recordNormDate parseNorm item.data.date ≠ nd) → out.date = some nd) ∧
        (recordNormDate parseNorm item.data.date ≠ "" →
         recordNormDate parseNorm item.data.date = nd → out.date = item.data.date)) ∧
      (parseNorm m.date = none →
        (item.data.date.getD "" = "" → out.date = some m.date) ∧
        (item.data.date.getD "" ≠ "" → out.date = item.data.date)) := by
  intro out hout
  have hval : out.date = dateStepValue parseNorm m item.data.date := by
    rcases hout with h | h <;> subst h
    · exact prepare_substack_date parseNorm item m
    · exact prepare_linkedin_date parseNorm item m
  constructor
  · intro nd hnd
    constructor
    · intro hcase
      rw [hval]
      unfold dateStepValue
      rw [if_pos hm, hnd]
      dsimp only
      rw [if_pos hcase]
    · intro hne heq
      rw [hval]
      unfold dateStepValue
      rw [if_pos hm, hnd]
      dsimp only
      rw [if_neg (by push_neg; exact ⟨hne, heq⟩)]
  · intro hnd
    constructor
    · intro hempty
      rw [hval]
      unfold dateStepValue
      rw [if_pos hm, hnd]
      dsimp only
      rw [if_pos hempty]
    · intro hne
      rw [hval]
      unfold dateStepValue
      rw [if_pos hm, hnd]
      dsimp only
      rw [if_neg hne]

/-- Witness for C1: a comment-type metadata against a record already
carrying a `blogTitle` loses it; an article-type metadata against a
record already carrying a `forumTitle` loses that. -/
theorem c1_witness :
    (prepare_substack_item_update (fun _ => none)
      { data := { blogTitle := some "Old Blog", forumTitle := some "Old Forum" } }
      { title := "T", author := "", date := "", publisher := "Pub",
        type := .str "Comment" }).blogTitle = none ∧
    (prepare_linkedin_item_update (fun _ => none)
      { data := { blogTitle := some "Old Blog", forumTitle := some "Old Forum" } }
      { title := "T", author := "", date := "", publisher := "Pub",
        type := .str "Article" }).forumTitle = none := by
  constructor
  · exact (c1_reconciled_never_both_titles (fun _ => none)
      { data := { blogTitle := some "Old Blog", forumTitle := some "Old Forum" } }
      { title := "T", author := "", date := "", publisher := "Pub", type := .str "Comment" }
      _ (Or.inl rfl)).2.1 (by decide)
  · exact (c1_reconciled_never_both_titles (fun _ => none)
      { data := { blogTitle := some "Old Blog", forumTitle := some "Old Forum" } }
      { title := "T", author := "", date := "", publisher := "Pub", type := .str "Article" }
      _ (Or.inr rfl)).2.2.1 (by decide)

/-- Witness for C5: the spec's example — `2024-03-01T10:00:00Z`
reconciles an unset record date to `2024-03-01`, and a record date
already equal to `2024-03-01` is left untouched. -/
theorem c5_witness :
    (prepare_substack_item_update
      (fun s => if s = "2024-03-01T10:00:00Z" ∨ s = "2024-03-01" then some "2024-03-01" else none)
      { data := {} }
      { title := "", author := "", date := "2024-03-01T10:00:00Z", publisher := "",
        type := .str "" }).date = some "2024-03-01" ∧
    (prepare_substack_item_update
      (fun s => if s = "2024-03-01T10:00:00Z" ∨ s = "2024-03-01" then some "2024-03-01" else none)
      { data := { date := some "2024-03-01" } }
      { title := "", author := "", date := "2024-03-01T10:00:00Z", publisher := "",
        type := .str "" }).date = some "2024-03-01" := by
  constructor
  · exact ((c5_date_reconciliation
      (fun s => if s = "2024-03-01T10:00:00Z" ∨ s = "2024-03-01" then some "2024-03-01" else none)
      { data := {} }
      { title := "", author := "", date := "2024-03-01T10:00:00Z", publisher := "", type := .str "" }
      (by decide) _ (Or.inl rfl)).1 "2024-03-01" (by decide)).1 (by decide)
  · exact (((c5_date_reconciliation
      (fun s => if s = "2024-03-01T10:00:00Z" ∨ s = "2024-03-01" then some "2024-03-01" else none)
      { data := { date := some "2024-03-01" } }
      { title := "", author := "", date := "2024-03-01T10:00:00Z", publisher := "", type := .str "" }
      (by decide) _ (Or.inl rfl)).1 "2024-03-01" (by decide)).2 (by decide) (by decide)).trans
      (by decide)

/-- C2 (code bug at src/main.py 712-717): on a record already tagged
`zotero:processed` whose URL still cleans (tracking key `r`), the
sentinel tag is appended again — the output tag list carries a
duplicate, because the append is unconditional. -/
theorem c2_duplicate_processed_tag :
    process_item (fun _ => "") (fun _ _ => []) (fun _ => none)
        { data := { url := some "http://x/?r=1", tags := some ["zotero:processed"] } }
        false false false =
      some { url := some "http://x/",
             tags := some ["zotero:processed", "zotero:processed"] } := by
  decide

/-! ## Suffix/pattern lemmas for C3 and C4 -/

theorem hasPre_iff (a : List Char) : ∀ b, hasPre a b = true ↔ a <+: b := by
  induction a with
  | nil => intro b; simp [hasPre]
  | cons x xs ih =>
    intro b
    cases b with
    | nil => simp [hasPre]
    | cons y ys =>
      simp [hasPre, ih, List.cons_prefix_cons, And.comm]

theorem endsWithL_iff (suf l : List Char) :
    endsWithL suf l = true ↔ ∃ t, l = t ++ suf := by
  unfold endsWithL
  rw [hasPre_iff, List.reverse_prefix]
  constructor
  · rintro ⟨t, ht⟩
    exact ⟨t, ht.symm⟩
  · rintro ⟨t, ht⟩
    exact ⟨t, ht.symm⟩

theorem dropPre_eq_append : ∀ (a l r : List Char), dropPre a l = some r → l = a ++ r := by
  intro a
  induction a with
  | nil => intro l r h; cases h; rfl
  | cons x xs ih =>
    intro l r h
    cases l with
    | nil => cases h
    | cons y ys =>
      unfold dropPre at h
      by_cases hxy : x = y
      · rw [if_pos hxy] at h
        rw [← hxy, List.cons_append]
        exact congrArg _ (ih ys r h)
      · rw [if_neg hxy] at h
        cases h

/-- C3 (spec-modelled `is_substack_domain`): true exactly when the URL's
host is the root domain `substack.com` or carries it as a proper
`.substack.com` suffix; in particular false for the look-alike hosts
`evilsubstack.com` and `mysubstack.com` and for the CDN host
`substackcdn.com`, and true for the root domain and a true subdomain. -/
theorem c3_is_substack_domain_exact_suffix :
    (∀ url, is_substack_domain url = true ↔
      (hostOf url = "substack.com" ∨
       ∃ pre : String, (hostOf url).data = pre.data ++ ".substack.com".data)) ∧
    is_substack_domain "https://evilsubstack.com/p/test" = false ∧
    is_substack_domain "https://substackcdn.com/image.jpg" = false ∧
    is_substack_domain "https://mysubstack.com/p/test" = false ∧
    is_substack_domain "https://substack.com/notes/123" = true ∧
    is_substack_domain "https://astralcodexten.substack.com/p/test" = true := by
  refine ⟨?_, by decide, by decide, by decide, by decide, by decide⟩
  intro url
  unfold is_substack_domain
  rw [Bool.or_eq_true_iff, beq_iff_eq, endsWithL_iff]
  constructor
  · rintro (h | ⟨t, ht⟩)
    · exact Or.inl h
    · exact Or.inr ⟨String.mk t, ht⟩
  · rintro (h | ⟨pre, hpre⟩)
    · exact Or.inl h
    · exact Or.inr ⟨pre.data, hpre⟩

/-- ASCII lower-casing stays in ASCII and is idempotent. -/
theorem toLower128_facts : ∀ n, n < 128 →
    ((Char.ofNat n).toLower.toNat < 128 ∧
     (Char.ofNat n).toLower.toLower = (Char.ofNat n).toLower) := by
  decide

theorem toLower_ascii {c : Char} (h : c.toNat < 128) :
    c.toLower.toNat < 128 ∧ c.toLower.toLower = c.toLower := by
  have hfacts := toLower128_facts c.toNat h
  rwa [Char.ofNat_toNat] at hfacts

/-- Under the ASCII pinning of `ieq`, each ASCII character is equivalent
to its own lower-casing. -/
theorem forall2_ieq_toLower (ieq : Char → Char → Bool)
    (hieq : ∀ c d, c.toNat < 128 → d.toNat < 128 → ieq c d = asciiIgnoreEq c d) :
    ∀ mid : List Char, (∀ c ∈ mid, c.toNat < 128) →
      List.Forall₂ (fun c d => ieq c d = true) (mid.map Char.toLower) mid
  | [], _ => List.Forall₂.nil
  | c :: t, h => by
    simp only [List.map_cons]
    refine List.Forall₂.cons ?_
      (forall2_ieq_toLower ieq hieq t fun x hx => h x (List.mem_cons_of_mem c hx))
    have hc : c.toNat < 128 := h c (List.mem_cons_self c t)
    rw [hieq _ _ (toLower_ascii hc).1 hc]
    show (c.toLower.toLower == c.toLower) = true
    rw [(toLower_ascii hc).2]
    exact beq_self_eq_true _

/-- Under the ASCII pinning of `ieq`, each ASCII character is equivalent
to itself. -/
theorem forall2_ieq_refl (ieq : Char → Char → Bool)
    (hieq : ∀ c d, c.toNat < 128 → d.toNat < 128 → ieq c d = asciiIgnoreEq c d) :
    ∀ l : List Char, (∀ c ∈ l, c.toNat < 128) →
      List.Forall₂ (fun c d => ieq c d = true) l l
  | [], _ => List.Forall₂.nil
  | c :: t, h => by
    refine List.Forall₂.cons ?_
      (forall2_ieq_refl ieq hieq t fun x hx => h x (List.mem_cons_of_mem c hx))
    have hc : c.toNat < 128 := h c (List.mem_cons_self c t)
    rw [hieq c c hc hc]
    show (c.toLower == c.toLower) = true
    exact beq_self_eq_true _

/-- A literal-only pattern matches any input whose prefix is pointwise
`ieq`-equivalent to it. -/
theorem matchElems_lits_forall2 (wordc digitc : Char → Bool)
    (ieq : Char → Char → Bool) {L mid : List Char}
    (h : List.Forall₂ (fun c d => ieq c d = true) L mid) (post : List Char) :
    matchElems wordc digitc ieq (L.map RElem.lit) (mid ++ post) = true := by
  induction h with
  | nil => rfl
  | cons h1 h2 ih =>
    simp only [List.map_cons, List.cons_append]
    show (ieq _ _ && matchElems wordc digitc ieq _ _) = true
    rw [h1, ih]
    rfl

/-- `re.search` succeeds whenever the pattern matches at some position. -/
theorem searchElems_suffix (wordc digitc : Char → Bool) (ieq : Char → Char → Bool)
    (p : List RElem) : ∀ pre rest : List Char,
    matchElems wordc digitc ieq p rest = true →
    searchElems wordc digitc ieq p (pre ++ rest) = true := by
  intro pre
  induction pre with
  | nil =>
    intro rest h
    cases rest with
    | nil => exact h
    | cons d ds =>
      show (matchElems wordc digitc ieq p (d :: ds) ||
            searchElems wordc digitc ieq p ds) = true
      rw [h]
      rfl
  | cons c t ih =>
    intro rest h
    show (matchElems wordc digitc ieq p (c :: (t ++ rest)) ||
          searchElems wordc digitc ieq p (t ++ rest)) = true
    rw [ih rest h]
    exact Bool.or_true _

/-- C4 counterexample: `https://evilsubstack.com/notes/abc` lives on a
look-alike host — `is_substack_domain` is false for it — yet the note
classifier matches it (computed at the ASCII instantiation of the
character semantics, which agrees with CPython on this all-ASCII URL). -/
theorem c4_counterexample :
    hostOf "https://evilsubstack.com/notes/abc" = "evilsubstack.com" ∧
    is_substack_domain "https://evilsubstack.com/notes/abc" = false ∧
    noteUrlAscii "https://evilsubstack.com/notes/abc" = true := by
  refine ⟨by decide, by decide, by decide⟩

/-- C4 amended: note/chat classification by `is_substack_note_url` is a
case-insensitive `re.search` substring match over the whole URL string with
no host scoping: any URL whose text contains `substack.com/notes/` (up to
character case) anywhere — whatever its host — is classified as a note URL.
`ieq` is pinned only on ASCII pairs, where Python's `re.IGNORECASE`
equivalence is equality of lower-casings. -/
theorem c4_note_url_substring_match
    (wordc digitc : Char → Bool) (ieq : Char → Char → Bool)
    (hieq : ∀ c d, c.toNat < 128 → d.toNat < 128 → ieq c d = asciiIgnoreEq c d)
    (url : String) (pre mid post : List Char)
    (hurl : url.data = pre ++ (mid ++ post))
    (hmid : mid.map Char.toLower = "substack.com/notes/".data)
    (hascii : ∀ c ∈ mid, c.toNat < 128) :
    is_substack_note_url wordc digitc ieq url = true := by
  have hfa := forall2_ieq_toLower ieq hieq mid hascii
  rw [hmid] at hfa
  have hm := matchElems_lits_forall2 wordc digitc ieq hfa post
  unfold is_substack_note_url
  refine List.any_eq_true.mpr ⟨lits "substack.com/notes/", by decide, ?_⟩
  show searchElems wordc digitc ieq (lits "substack.com/notes/") url.data = true
  rw [hurl]
  exact searchElems_suffix wordc digitc ieq _ pre (mid ++ post) hm

/-- Witness for the amended C4 at a real note URL. -/
theorem c4_witness :
    is_substack_note_url asciiWordChar asciiDigitChar asciiIgnoreEq
      "https://substack.com/notes/post-67890" = true :=
  c4_note_url_substring_match asciiWordChar asciiDigitChar asciiIgnoreEq
    (fun _ _ _ _ => rfl) "https://substack.com/notes/post-67890"
    "https://".data "substack.com/notes/".data "post-67890".data
    rfl (by decide) (by decide)

/-- Python's `re.IGNORECASE` literal equivalence reaches outside ASCII
(CPython places the long s `ſ` in the equivalence class of `s`), so the
matcher fires on URLs whose text nowhere contains an ASCII-cased
`substack.com/`: granting `ieq 's' 'ſ'`, the URL
`https://ſubstack.com/notes/x` is classified as a note URL. -/
theorem noteUrl_matches_long_s
    (wordc digitc : Char → Bool) (ieq : Char → Char → Bool)
    (hieq : ∀ c d, c.toNat < 128 → d.toNat < 128 → ieq c d = asciiIgnoreEq c d)
    (hs : ieq 's' 'ſ' = true) :
    is_substack_note_url wordc digitc ieq "https://ſubstack.com/notes/x" = true := by
  have hrest : List.Forall₂ (fun c d => ieq c d = true)
      "ubstack.com/notes/".data "ubstack.com/notes/".data :=
    forall2_ieq_refl ieq hieq _ (by decide)
  have hfa : List.Forall₂ (fun c d => ieq c d = true)
      "substack.com/notes/".data ('ſ' :: "ubstack.com/notes/".data) := by
    rw [show "substack.com/notes/".data = 's' :: "ubstack.com/notes/".data from rfl]
    exact List.Forall₂.cons hs hrest
  have hm := matchElems_lits_forall2 wordc digitc ieq hfa "x".data
  unfold is_substack_note_url
  refine List.any_eq_true.mpr ⟨lits "substack.com/notes/", by decide, ?_⟩
  exact searchElems_suffix wordc digitc ieq (lits "substack.com/notes/")
    "https://".data (('ſ' :: "ubstack.com/notes/".data) ++ "x".data) hm

/-- C6: for a selected target node whose `@type` is not one of the
article types, `extract_metadata` sets the title to the first 20
whitespace-separated words of the node's body text joined by single
spaces, appending the literal `" ..."` exactly when the body has more
than 20 words. -/
theorem c6_fallback_title (extractLd : String → String → List Json)
    (html url : String) (t : Json) (s : String)
    (hh : html ≠ "")
    (ht : selectTarget (extractLd html url) url = some t)
    (harticle : (jIsStr (jget t "@type") "NewsArticle" ||
                 jIsStr (jget t "@type") "BlogPosting" ||
                 jIsStr (jget t "@type") "Article") = false)
    (hbody : (jget t "text").getD ((jget t "articleBody").getD (.str "")) = .str s) :
    (extract_metadata extractLd html url).title =
      String.intercalate " " ((splitWs s).take TITLE_FALLBACK_WORD_LIMIT) ++
        (if TITLE_FALLBACK_WORD_LIMIT < (splitWs s).length then " ..." else "") := by
  unfold extract_metadata
  rw [if_neg hh, ht]
  show (deriveMetadata t).title = _
  show titleOf t = _
  unfold titleOf
  rw [if_neg (by rw [harticle]; exact Bool.false_ne_true), hbody]

/-- Witness for C6: a 25-word comment body yields the first 20 words
plus `" ..."`; a 15-word body yields all 15 words with no suffix. -/
theorem c6_witness :
    (extract_metadata
      (fun _ _ => [Json.obj [("@type", Json.str "Comment"),
        ("text", Json.str "w1 w2 w3 w4 w5 w6 w7 w8 w9 w10 w11 w12 w13 w14 w15 w16 w17 w18 w19 w20 w21 w22 w23 w24 w25")]])
      "<html>" "https://x.com").title =
      "w1 w2 w3 w4 w5 w6 w7 w8 w9 w10 w11 w12 w13 w14 w15 w16 w17 w18 w19 w20 ..." ∧
    (extract_metadata
      (fun _ _ => [Json.obj [("@type", Json.str "Comment"),
        ("text", Json.str "w1 w2 w3 w4 w5 w6 w7 w8 w9 w10 w11 w12 w13 w14 w15")]])
      "<html>" "https://x.com").title =
      "w1 w2 w3 w4 w5 w6 w7 w8 w9 w10 w11 w12 w13 w14 w15" := by
  constructor
  · exact (c6_fallback_title
      (fun _ _ => [Json.obj [("@type", Json.str "Comment"),
        ("text", Json.str "w1 w2 w3 w4 w5 w6 w7 w8 w9 w10 w11 w12 w13 w14 w15 w16 w17 w18 w19 w20 w21 w22 w23 w24 w25")]])
      "<html>" "https://x.com" _ _ (by decide) rfl (by decide) rfl).trans (by decide)
  · exact (c6_fallback_title
      (fun _ _ => [Json.obj [("@type", Json.str "Comment"),
        ("text", Json.str "w1 w2 w3 w4 w5 w6 w7 w8 w9 w10 w11 w12 w13 w14 w15")]])
      "<html>" "https://x.com" _ _ (by decide) rfl (by decide) rfl).trans (by decide)

/-- C9: the orchestrator's flush discipline.  After the item phase of a
non-dry-run step: no flush happens below 50 pending records unless the
record is the last (the step only advances the progress counter); at the
threshold or on the last record the buffer is always emptied (no retry
possible); a failed flush adds exactly the full pending-buffer size to
the error counter, while a successful one leaves it unchanged; and the
loop unconditionally continues with the remaining records. -/
theorem c9_batch_flush (flushOk : List ItemData → Bool) (isLast : Bool)
    (st : LoopState) (origUrl : Option String) (res : Except Unit (Option ItemData)) :
    (∀ st', st' = itemPhase false st origUrl res →
      (¬(50 ≤ st'.batch_updates.length ∨ isLast = true) →
        batchStep false flushOk isLast st origUrl res =
          { st' with stats.processed := st'.stats.processed + 1 }) ∧
      ((50 ≤ st'.batch_updates.length ∨ isLast = true) →
        (batchStep false flushOk isLast st origUrl res).batch_updates = [] ∧
        (flushOk st'.batch_updates = false →
          (batchStep false flushOk isLast st origUrl res).stats.errors =
            st'.stats.errors + st'.batch_updates.length) ∧
        (flushOk st'.batch_updates = true →
          (batchStep false flushOk isLast st origUrl res).stats.errors =
            st'.stats.errors))) ∧
    (∀ x rest st0, runBatchLoop false flushOk (x :: rest) st0 =
      runBatchLoop false flushOk rest
        (batchStep false flushOk rest.isEmpty st0 x.1 x.2)) := by
  constructor
  · intro st' hst'
    subst hst'
    have hb : batchStep false flushOk isLast st origUrl res =
        { flushPhase flushOk isLast (itemPhase false st origUrl res) with
          stats.processed :=
            (flushPhase flushOk isLast (itemPhase false st origUrl res)).stats.processed + 1 } := rfl
    constructor
    · intro hno
      rw [hb]
      unfold flushPhase
      rw [if_neg hno]
    · intro hyes
      refine ⟨?_, ?_, ?_⟩
      · rw [hb]
        unfold flushPhase
        rw [if_pos hyes]
        split <;> rfl
      · intro hfail
        rw [hb]
        unfold flushPhase
        rw [if_pos hyes, if_neg (by rw [hfail]; exact Bool.false_ne_true)]
      · intro hokk
        rw [hb]
        unfold flushPhase
        rw [if_pos hyes, if_pos hokk]
  · intro x rest st0
    rfl

/-- Witness for C9: one step with a failing flush on the last record
marks the single pending update as an error and clears the buffer. -/
theorem c9_witness :
    (batchStep false (fun _ => false) true {} none (.ok (some {}))).batch_updates = [] ∧
    (batchStep false (fun _ => false) true {} none (.ok (some {}))).stats.errors = 1 := by
  have h := (c9_batch_flush (fun _ => false) true {} none (.ok (some {}))).1 _ rfl
  refine ⟨(h.2 (by decide)).1, ((h.2 (by decide)).2.1 (by decide)).trans (by decide)⟩

/-! ## Percent-coding round trip -/

theorem char_valid_cases (c : Char) :
    c.toNat < 0xD800 ∨ (0xE000 ≤ c.toNat ∧ c.toNat < 0x110000) := by
  have h := c.valid
  unfold UInt32.isValidChar Nat.isValidChar at h
  have he : c.toNat = c.val.toNat := rfl
  rw [he]
  rcases h with h | ⟨h1, h2⟩
  · left; exact h
  · right; exact ⟨by omega, by omega⟩

theorem utf8Dec_encodeChar (c : Char) (bs : List Nat) :
    utf8Dec (utf8EncodeChar c ++ bs) = c :: utf8Dec bs := by
  have hval := char_valid_cases c
  unfold utf8EncodeChar
  by_cases h1 : c.toNat < 0x80
  · rw [if_pos h1]
    simp only [List.cons_append, List.nil_append]
    conv_lhs => unfold utf8Dec
    rw [if_pos h1, Char.ofNat_toNat]
  · rw [if_neg h1]
    by_cases h2 : c.toNat < 0x800
    · rw [if_pos h2]
      simp only [List.cons_append, List.nil_append]
      conv_lhs => unfold utf8Dec
      rw [if_neg (by omega), if_neg (by omega), if_pos (by omega)]
      dsimp only
      rw [if_pos (by omega)]
      have harg : (0xC0 + c.toNat / 64 - 0xC0) * 64 + (0x80 + c.toNat % 64 - 0x80) = c.toNat := by
        omega
      rw [harg, Char.ofNat_toNat]
    · rw [if_neg h2]
      by_cases h3 : c.toNat < 0x10000
      · rw [if_pos h3]
        simp only [List.cons_append, List.nil_append]
        conv_lhs => unfold utf8Dec
        rw [if_neg (by omega), if_neg (by omega), if_neg (by omega), if_pos (by omega)]
        dsimp only
        have hcond : ((if (0xE0 + c.toNat / 4096) = 0xE0 then 0xA0 else 0x80) ≤
            0x80 + c.toNat / 64 % 64 ∧
            0x80 + c.toNat / 64 % 64 < (if (0xE0 + c.toNat / 4096) = 0xED then 0xA0 else 0xC0)) := by
          split_ifs <;> omega
        rw [if_pos hcond]
        rw [if_pos (by omega)]
        have harg : (0xE0 + c.toNat / 4096 - 0xE0) * 4096 +
            (0x80 + c.toNat / 64 % 64 - 0x80) * 64 + (0x80 + c.toNat % 64 - 0x80) = c.toNat := by
          omega
        rw [harg, Char.ofNat_toNat]
      · rw [if_neg h3]
        simp only [List.cons_append, List.nil_append]
        conv_lhs => unfold utf8Dec
        rw [if_neg (by omega), if_neg (by omega), if_neg (by omega), if_neg (by omega),
          if_pos (by omega)]
        dsimp only
        have hcond : ((if (0xF0 + c.toNat / 262144) = 0xF0 then 0x90 else 0x80) ≤
            0x80 + c.toNat / 4096 % 64 ∧
            0x80 + c.toNat / 4096 % 64 <
              (if (0xF0 + c.toNat / 262144) = 0xF4 then 0x90 else 0xC0)) := by
          split_ifs <;> omega
        rw [if_pos hcond]
        rw [if_pos (by omega)]
        rw [if_pos (by omega)]
        have harg : (0xF0 + c.toNat / 262144 - 0xF0) * 262144 +
            (0x80 + c.toNat / 4096 % 64 - 0x80) * 4096 +
            (0x80 + c.toNat / 64 % 64 - 0x80) * 64 + (0x80 + c.toNat % 64 - 0x80) = c.toNat := by
          omega
        rw [harg, Char.ofNat_toNat]

theorem utf8Dec_encodeL_append (cs : List Char) (bs : List Nat) :
    utf8Dec (utf8EncodeL cs ++ bs) = cs ++ utf8Dec bs := by
  induction cs with
  | nil => simp [utf8EncodeL]
  | cons c t ih =>
    show utf8Dec ((utf8EncodeChar c ++ utf8EncodeL t) ++ bs) = _
    rw [List.append_assoc, utf8Dec_encodeChar, ih]
    rfl

theorem utf8Dec_encodeL (cs : List Char) : utf8Dec (utf8EncodeL cs) = cs := by
  have h := utf8Dec_encodeL_append cs []
  rw [List.append_nil] at h
  rw [h]
  show cs ++ utf8Dec [] = cs
  rw [show utf8Dec [] = [] from rfl, List.append_nil]

theorem utf8EncodeChar_lt (c : Char) : ∀ b ∈ utf8EncodeChar c, b < 256 := by
  have hval := char_valid_cases c
  intro b hb
  unfold utf8EncodeChar at hb
  by_cases h1 : c.toNat < 0x80
  · rw [if_pos h1] at hb
    simp only [List.mem_cons, List.not_mem_nil, or_false] at hb
    omega
  · rw [if_neg h1] at hb
    by_cases h2 : c.toNat < 0x800
    · rw [if_pos h2] at hb
      simp only [List.mem_cons, List.not_mem_nil, or_false] at hb
      rcases hb with h | h <;> omega
    · rw [if_neg h2] at hb
      by_cases h3 : c.toNat < 0x10000
      · rw [if_pos h3] at hb
        simp only [List.mem_cons, List.not_mem_nil, or_false] at hb
        rcases hb with h | h | h <;> omega
      · rw [if_neg h3] at hb
        simp only [List.mem_cons, List.not_mem_nil, or_false] at hb
        rcases hb with h | h | h | h <;> omega

theorem utf8EncodeL_lt (cs : List Char) : ∀ b ∈ utf8EncodeL cs, b < 256 := by
  intro b hb
  unfold utf8EncodeL at hb
  rw [List.mem_flatten] at hb
  rcases hb with ⟨l, hl, hbl⟩
  rw [List.mem_map] at hl
  rcases hl with ⟨c, _, rfl⟩
  exact utf8EncodeChar_lt c b hbl

theorem hexVal_hexDigitUpper : ∀ n, n < 16 → hexVal (hexDigitUpper n) = some n := by decide

theorem hexDigitUpper_ne_plus : ∀ n, n < 16 →
    (replPlus (hexDigitUpper n) = hexDigitUpper n ∧ isQSafeChar (hexDigitUpper n) = true) := by
  decide

set_option maxRecDepth 4096 in
theorem charOfNat_toNat_256 : ∀ b, b < 256 → (Char.ofNat b).toNat = b := by decide

set_option maxRecDepth 4096 in
theorem safeByte_facts : ∀ b, b < 256 → isSafeByte b = true →
    (replPlus (Char.ofNat b) = Char.ofNat b ∧ ¬(Char.ofNat b = '%') ∧
     (Char.ofNat b).toNat < 0x80 ∧ (Char.ofNat b).toNat = b ∧
     isQSafeChar (Char.ofNat b) = true) := by
  decide

theorem unquoteChars_cons_ne_pct (c : Char) (cs : List Char) (buf : List Nat)
    (h : ¬(c = '%')) :
    unquoteChars (c :: cs) buf =
      (if c.toNat < 0x80 then unquoteChars cs (buf ++ [c.toNat])
       else utf8Dec buf ++ c :: unquoteChars cs []) := by
  conv_lhs => rw [unquoteChars.eq_def]
  split <;> simp_all

theorem unquoteChars_pct (c1 c2 : Char) (cs : List Char) (buf : List Nat) :
    unquoteChars ('%' :: c1 :: c2 :: cs) buf =
      (match hexVal c1, hexVal c2 with
       | some a, some b => unquoteChars cs (buf ++ [16 * a + b])
       | _, _ => unquoteChars (c1 :: c2 :: cs) (buf ++ [37])) := rfl

theorem unquote_quoteByte (b : Nat) (hb : b < 256) (cs : List Char) (buf : List Nat) :
    unquoteChars ((quoteByte b).map replPlus ++ cs) buf = unquoteChars cs (buf ++ [b]) := by
  unfold quoteByte
  by_cases hs : isSafeByte b = true
  · rw [if_pos hs]
    obtain ⟨hrepl, hpct, hlt, htn, _⟩ := safeByte_facts b hb hs
    show unquoteChars (replPlus (Char.ofNat b) :: cs) buf = _
    rw [hrepl, unquoteChars_cons_ne_pct _ _ _ hpct, if_pos hlt, htn]
  · rw [if_neg hs]
    by_cases h32 : b = 32
    · rw [if_pos h32]
      show unquoteChars (replPlus '+' :: cs) buf = _
      rw [show replPlus '+' = ' ' from rfl,
        unquoteChars_cons_ne_pct _ _ _ (by decide), if_pos (by decide),
        show (' ').toNat = 32 from rfl, h32]
    · rw [if_neg h32]
      have h16a : b / 16 < 16 := by omega
      have h16b : b % 16 < 16 := by omega
      obtain ⟨hr1, _⟩ := hexDigitUpper_ne_plus _ h16a
      obtain ⟨hr2, _⟩ := hexDigitUpper_ne_plus _ h16b
      show unquoteChars (replPlus '%' :: replPlus (hexDigitUpper (b / 16)) ::
        replPlus (hexDigitUpper (b % 16)) :: cs) buf = _
      rw [show replPlus '%' = '%' from rfl, hr1, hr2, unquoteChars_pct,
        hexVal_hexDigitUpper _ h16a, hexVal_hexDigitUpper _ h16b]
      dsimp only
      rw [show 16 * (b / 16) + b % 16 = b from by omega]

theorem unquote_quoted_bytes (bs : List Nat) (hbs : ∀ b ∈ bs, b < 256) (buf : List Nat) :
    unquoteChars (((bs.map quoteByte).flatten).map replPlus) buf = utf8Dec (buf ++ bs) := by
  induction bs generalizing buf with
  | nil => simp only [List.map_nil, List.flatten_nil, List.append_nil]; rfl
  | cons b t ih =>
    rw [List.map_cons, List.flatten_cons, List.map_append,
      unquote_quoteByte b (hbs b (List.mem_cons_self b t)) _ buf,
      ih (fun x hx => hbs x (List.mem_cons_of_mem b hx)), List.append_assoc,
      List.singleton_append]

theorem unquotePlus_quotePlus (cs : List Char) : unquotePlus (quotePlus cs) = cs := by
  unfold unquotePlus quotePlus
  rw [unquote_quoted_bytes _ (utf8EncodeL_lt cs) [], List.nil_append, utf8Dec_encodeL]

theorem quotePlus_chars (cs : List Char) : ∀ c ∈ quotePlus cs, isQSafeChar c = true := by
  intro c hc
  unfold quotePlus at hc
  rw [List.mem_flatten] at hc
  obtain ⟨l, hl, hcl⟩ := hc
  rw [List.mem_map] at hl
  obtain ⟨b, hbmem, rfl⟩ := hl
  have hb : b < 256 := utf8EncodeL_lt cs b hbmem
  unfold quoteByte at hcl
  by_cases hs : isSafeByte b = true
  · rw [if_pos hs] at hcl
    simp only [List.mem_cons, List.not_mem_nil, or_false] at hcl
    rw [hcl]
    exact (safeByte_facts b hb hs).2.2.2.2
  · rw [if_neg hs] at hcl
    by_cases h32 : b = 32
    · rw [if_pos h32] at hcl
      simp only [List.mem_cons, List.not_mem_nil, or_false] at hcl
      rw [hcl]; rfl
    · rw [if_neg h32] at hcl
      simp only [List.mem_cons, List.not_mem_nil, or_false] at hcl
      rcases hcl with rfl | rfl | rfl
      · rfl
      · exact (hexDigitUpper_ne_plus _ (by omega)).2
      · exact (hexDigitUpper_ne_plus _ (by omega)).2


/-! ## Query-string round trip -/

theorem breakAt_cons (p : Char → Bool) (c : Char) (cs : List Char) :
    breakAt p (c :: cs) =
      if p c then some ([], cs)
      else match breakAt p cs with
           | some (a, b) => some (c :: a, b)
           | none => none := rfl

theorem breakAt_none {p : Char → Bool} : ∀ {cs : List Char},
    (∀ x ∈ cs, p x = false) → breakAt p cs = none := by
  intro cs
  induction cs with
  | nil => intro _; rfl
  | cons c t ih =>
    intro h
    rw [breakAt_cons,
      if_neg (by rw [h c (List.mem_cons_self c t)]; exact Bool.false_ne_true),
      ih (fun x hx => h x (List.mem_cons_of_mem c hx))]

theorem breakAt_append {p : Char → Bool} (a : List Char) (c : Char) (b : List Char)
    (ha : ∀ x ∈ a, p x = false) (hc : p c = true) :
    breakAt p (a ++ c :: b) = some (a, b) := by
  induction a with
  | nil => rw [List.nil_append, breakAt_cons, if_pos hc]
  | cons x xs ih =>
    rw [List.cons_append, breakAt_cons,
      if_neg (by rw [ha x (List.mem_cons_self x xs)]; exact Bool.false_ne_true),
      ih (fun y hy => ha y (List.mem_cons_of_mem x hy))]

theorem breakAt_some {p : Char → Bool} : ∀ {cs a b : List Char},
    breakAt p cs = some (a, b) →
    ∃ c, cs = a ++ c :: b ∧ p c = true ∧ ∀ x ∈ a, p x = false := by
  intro cs
  induction cs with
  | nil => intro a b h; cases h
  | cons x xs ih =>
    intro a b h
    rw [breakAt_cons] at h
    by_cases hx : p x = true
    · rw [if_pos hx] at h
      cases h
      exact ⟨x, rfl, hx, by intro y hy; cases hy⟩
    · rw [if_neg hx] at h
      cases hrec : breakAt p xs with
      | none => rw [hrec] at h; cases h
      | some ab =>
        obtain ⟨a', b'⟩ := ab
        rw [hrec] at h
        cases h
        obtain ⟨c, hcs, hpc, hall⟩ := ih hrec
        refine ⟨c, by rw [List.cons_append, hcs], hpc, ?_⟩
        intro y hy
        rcases List.mem_cons.mp hy with rfl | hy'
        · exact Bool.eq_false_iff.mpr hx
        · exact hall y hy'

theorem splitOnChar_cons_of_res (sep c : Char) (t g : List Char) (gs : List (List Char))
    (hres : splitOnChar sep t = g :: gs) :
    splitOnChar sep (c :: t) = if c = sep then [] :: g :: gs else (c :: g) :: gs := by
  conv_lhs => rw [splitOnChar.eq_def]
  dsimp only
  rw [hres]

theorem splitOnChar_ne_nil (sep : Char) : ∀ (cs : List Char), splitOnChar sep cs ≠ [] := by
  intro cs
  induction cs with
  | nil => simp [splitOnChar]
  | cons c t ih =>
    cases hres : splitOnChar sep t with
    | nil => exact absurd hres ih
    | cons g gs =>
      rw [splitOnChar_cons_of_res sep c t g gs hres]
      split <;> simp

theorem splitOnChar_no_sep (sep : Char) : ∀ (x : List Char),
    (∀ c ∈ x, ¬c = sep) → splitOnChar sep x = [x] := by
  intro x
  induction x with
  | nil => intro _; rfl
  | cons c t ih =>
    intro h
    have ht := ih (fun y hy => h y (List.mem_cons_of_mem c hy))
    rw [splitOnChar_cons_of_res sep c t t [] ht, if_neg (h c (List.mem_cons_self c t))]

theorem splitOnChar_append_sep (sep : Char) : ∀ (x r : List Char),
    (∀ c ∈ x, ¬c = sep) → splitOnChar sep (x ++ sep :: r) = x :: splitOnChar sep r := by
  intro x
  induction x with
  | nil =>
    intro r _
    rw [List.nil_append]
    cases hres : splitOnChar sep r with
    | nil => exact absurd hres (splitOnChar_ne_nil sep r)
    | cons g gs =>
      rw [splitOnChar_cons_of_res sep sep r g gs hres, if_pos rfl]
  | cons c t ih =>
    intro r h
    have hrec := ih r (fun y hy => h y (List.mem_cons_of_mem c hy))
    rw [List.cons_append,
      splitOnChar_cons_of_res sep c _ t (splitOnChar sep r) hrec,
      if_neg (h c (List.mem_cons_self c t))]

theorem splitOnChar_intercalate (sep : Char) : ∀ (pieces : List (List Char)),
    pieces ≠ [] → (∀ x ∈ pieces, ∀ c ∈ x, ¬c = sep) →
    splitOnChar sep (intercalateChar sep pieces) = pieces := by
  intro pieces
  induction pieces with
  | nil => intro h; cases h rfl
  | cons x rest ih =>
    intro _ h
    cases rest with
    | nil =>
      show splitOnChar sep x = [x]
      exact splitOnChar_no_sep sep x (h x (List.mem_cons_self x []))
    | cons y rest' =>
      show splitOnChar sep (x ++ sep :: intercalateChar sep (y :: rest')) = _
      rw [splitOnChar_append_sep sep x _ (h x (List.mem_cons_self x _)),
        ih (by simp) (fun z hz => h z (List.mem_cons_of_mem x hz))]

theorem intercalateChar_ne_nil (sep : Char) : ∀ (pieces : List (List Char)),
    pieces ≠ [] → (∀ x ∈ pieces, x ≠ []) → intercalateChar sep pieces ≠ [] := by
  intro pieces
  match pieces with
  | [] => intro h; cases h rfl
  | [x] => intro _ h; exact h x (List.mem_cons_self x [])
  | x :: y :: rest =>
    intro _ _
    show x ++ sep :: intercalateChar sep (y :: rest) ≠ []
    simp

theorem mem_intercalateChar {sep : Char} {c : Char} : ∀ {pieces : List (List Char)},
    c ∈ intercalateChar sep pieces → c = sep ∨ ∃ x ∈ pieces, c ∈ x := by
  intro pieces
  match pieces with
  | [] => intro h; cases h
  | [x] => intro h; exact Or.inr ⟨x, List.mem_cons_self x [], h⟩
  | x :: y :: rest =>
    intro h
    rcases List.mem_append.mp h with h | h
    · exact Or.inr ⟨x, List.mem_cons_self x _, h⟩
    · rcases List.mem_cons.mp h with rfl | h
      · exact Or.inl rfl
      · rcases mem_intercalateChar h with h | ⟨z, hz, hcz⟩
        · exact Or.inl h
        · exact Or.inr ⟨z, List.mem_cons_of_mem x hz, hcz⟩

theorem encPair_ne_nil (kv : List Char × List Char) : encPair kv ≠ [] := by
  unfold encPair
  simp

theorem mem_encPair {c : Char} {kv : List Char × List Char} (hc : c ∈ encPair kv) :
    isQSafeChar c = true ∨ c = '=' := by
  unfold encPair at hc
  rcases List.mem_append.mp hc with h | h
  · exact Or.inl (quotePlus_chars _ _ h)
  · rcases List.mem_cons.mp h with rfl | h
    · exact Or.inr rfl
    · exact Or.inl (quotePlus_chars _ _ h)

theorem flattenPairs_map_enc : ∀ (G : List (List Char × List (List Char))),
    (G.map (fun kv => kv.2.map (fun v => quotePlus kv.1 ++ '=' :: quotePlus v))).flatten
      = (flattenPairs G).map encPair := by
  intro G
  induction G with
  | nil => rfl
  | cons kv G ih =>
    show _ ++ _ = _
    rw [ih]
    show _ = ((kv.2.map (fun v => (kv.1, v))) ++ flattenPairs G).map encPair
    rw [List.map_append, List.map_map]
    rfl

theorem urlencodeSeq_eq_map (G : List (List Char × List (List Char))) :
    urlencodeSeq G = intercalateChar '&' ((flattenPairs G).map encPair) := by
  unfold urlencodeSeq
  rw [flattenPairs_map_enc]

theorem qslChunk_encPair (kv : List Char × List Char) : qslChunk (encPair kv) = some kv := by
  unfold qslChunk
  rw [if_neg (encPair_ne_nil kv)]
  have hb : breakAt (fun c => c == '=') (encPair kv)
      = some (quotePlus kv.1, quotePlus kv.2) := by
    apply breakAt_append
    · intro x hx
      have hq := quotePlus_chars _ _ hx
      cases hxe : (x == '=')
      · rfl
      · exact absurd hq (by rw [eq_of_beq hxe]; decide)
    · rfl
  rw [hb]
  show some (unquotePlus (quotePlus kv.1), unquotePlus (quotePlus kv.2)) = some kv
  rw [unquotePlus_quotePlus, unquotePlus_quotePlus]

theorem filterMap_qslChunk_enc : ∀ (F : List (List Char × List Char)),
    (F.map encPair).filterMap qslChunk = F := by
  intro F
  induction F with
  | nil => rfl
  | cons kv F ih =>
    rw [List.map_cons, List.filterMap_cons, qslChunk_encPair, ih]

theorem parseQsl_urlencodeSeq (G : List (List Char × List (List Char))) :
    parseQsl (urlencodeSeq G) = flattenPairs G := by
  unfold parseQsl
  rw [urlencodeSeq_eq_map]
  by_cases hF : flattenPairs G = []
  · rw [hF]
    rfl
  · have hne : intercalateChar '&' ((flattenPairs G).map encPair) ≠ [] := by
      apply intercalateChar_ne_nil
      · intro h
        exact hF (List.map_eq_nil_iff.mp h)
      · intro x hx
        obtain ⟨kv, _, rfl⟩ := List.mem_map.mp hx
        exact encPair_ne_nil kv
    rw [if_neg hne]
    rw [splitOnChar_intercalate _ _ (by
        intro h
        exact hF (List.map_eq_nil_iff.mp h))
      (by
        intro x hx c hcx hce
        obtain ⟨kv, _, rfl⟩ := List.mem_map.mp hx
        rcases mem_encPair hcx with hq | hq
        · rw [hce] at hq
          exact absurd hq (by decide)
        · rw [hce] at hq
          cases hq)]
    exact filterMap_qslChunk_enc _

theorem addPair_not_mem (k v : List Char) :
    ∀ (acc : List (List Char × List (List Char))), ¬ k ∈ keysOf acc →
    addPair acc k v = acc ++ [(k, [v])] := by
  intro acc
  induction acc with
  | nil => intro _; rfl
  | cons hd rest ih =>
    intro h
    obtain ⟨k', vs⟩ := hd
    show (if k' = k then _ else _) = _
    rw [if_neg (fun he => h (by rw [← he]; exact List.mem_cons_self _ _)),
      ih (fun hm => h (List.mem_cons_of_mem _ hm))]
    rfl

theorem addPair_last (k v : List Char) (vs : List (List Char)) :
    ∀ (acc : List (List Char × List (List Char))), ¬ k ∈ keysOf acc →
    addPair (acc ++ [(k, vs)]) k v = acc ++ [(k, vs ++ [v])] := by
  intro acc
  induction acc with
  | nil =>
    intro _
    show (if k = k then _ else _) = _
    rw [if_pos rfl]
    rfl
  | cons hd rest ih =>
    intro h
    obtain ⟨k', vs'⟩ := hd
    rw [List.cons_append]
    show (if k' = k then ((k', vs' ++ [v]) :: (rest ++ [(k, vs)]))
          else (k', vs') :: addPair (rest ++ [(k, vs)]) k v) = _
    rw [if_neg (fun he => h (by rw [← he]; exact List.mem_cons_self _ _)),
      ih (fun hm => h (List.mem_cons_of_mem _ hm))]
    rfl

theorem foldl_addPair_vals (k : List Char) (acc : List (List Char × List (List Char)))
    (hk : ¬ k ∈ keysOf acc) : ∀ (vs vs₀ : List (List Char)),
    List.foldl (fun a kv => addPair a kv.1 kv.2) (acc ++ [(k, vs₀)])
      (vs.map (fun v => (k, v))) = acc ++ [(k, vs₀ ++ vs)] := by
  intro vs
  induction vs with
  | nil => intro vs₀; simp
  | cons v vs ih =>
    intro vs₀
    rw [List.map_cons, List.foldl_cons]
    show List.foldl _ (addPair (acc ++ [(k, vs₀)]) k v) _ = _
    rw [addPair_last k v vs₀ acc hk, ih (vs₀ ++ [v]), List.append_assoc]
    rfl

theorem foldl_addPair_flatten : ∀ (G acc : List (List Char × List (List Char))),
    (∀ kv ∈ G, ¬ kv.1 ∈ keysOf acc) → (keysOf G).Nodup → (∀ kv ∈ G, kv.2 ≠ []) →
    List.foldl (fun a kv => addPair a kv.1 kv.2) acc (flattenPairs G) = acc ++ G := by
  intro G
  induction G with
  | nil => intro acc _ _ _; simp [flattenPairs]
  | cons hd G ih =>
    intro acc hdisj hnd hvals
    obtain ⟨k, vs⟩ := hd
    have hkacc : ¬ k ∈ keysOf acc := hdisj (k, vs) (List.mem_cons_self _ _)
    cases vs with
    | nil => exact absurd rfl (hvals (k, []) (List.mem_cons_self _ _))
    | cons v vs' =>
      show List.foldl _ acc ((((v :: vs').map (fun w => (k, w))) ++ flattenPairs G)) = _
      rw [List.foldl_append, List.map_cons, List.foldl_cons]
      show List.foldl _ (List.foldl _ (addPair acc k v) _) _ = _
      rw [addPair_not_mem k v acc hkacc, foldl_addPair_vals k acc hkacc vs' [v]]
      have hkeys : keysOf (acc ++ [(k, [v] ++ vs')]) = keysOf acc ++ [k] := by
        unfold keysOf
        rw [List.map_append]
        rfl
      rw [ih (acc ++ [(k, [v] ++ vs')])
        (by
          intro kv hkv
          rw [hkeys, List.mem_append]
          rintro (hm | hm)
          · exact hdisj kv (List.mem_cons_of_mem _ hkv) hm
          · have hk1 : kv.1 = k := by
              simpa using hm
            have : k ∈ keysOf G := by
              rw [← hk1]
              exact List.mem_map_of_mem Prod.fst hkv
            exact (List.nodup_cons.mp hnd).1 this
        )
        (List.nodup_cons.mp hnd).2
        (fun kv hkv => hvals kv (List.mem_cons_of_mem _ hkv)),
        List.append_assoc]
      rfl

theorem groupPairs_flatten (G : List (List Char × List (List Char)))
    (hnd : (keysOf G).Nodup) (hvals : ∀ kv ∈ G, kv.2 ≠ []) :
    groupPairs (flattenPairs G) = G := by
  unfold groupPairs
  rw [foldl_addPair_flatten G [] (by intro kv _ h; cases h) hnd hvals]
  rfl

theorem parseQs_urlencodeSeq (G : List (List Char × List (List Char)))
    (hnd : (keysOf G).Nodup) (hvals : ∀ kv ∈ G, kv.2 ≠ []) :
    parseQs (urlencodeSeq G) = G := by
  unfold parseQs
  rw [parseQsl_urlencodeSeq, groupPairs_flatten G hnd hvals]

theorem keysOf_cons (hd : List Char × List (List Char))
    (t : List (List Char × List (List Char))) :
    keysOf (hd :: t) = hd.1 :: keysOf t := rfl

theorem keysOf_addPair (k v : List Char) :
    ∀ (acc : List (List Char × List (List Char))),
    keysOf (addPair acc k v) = if k ∈ keysOf acc then keysOf acc else keysOf acc ++ [k] := by
  intro acc
  induction acc with
  | nil => rfl
  | cons hd rest ih =>
    obtain ⟨k', vs'⟩ := hd
    show keysOf (if k' = k then _ else _) = _
    by_cases he : k' = k
    · subst he
      rw [if_pos rfl]
      simp only [keysOf_cons]
      rw [if_pos (List.mem_cons_self _ _)]
    · rw [if_neg he]
      simp only [keysOf_cons]
      show k' :: keysOf (addPair rest k v) = _
      rw [ih]
      by_cases hm : k ∈ keysOf rest
      · rw [if_pos hm, if_pos (List.mem_cons_of_mem _ hm)]
      · rw [if_neg hm,
          if_neg (by
            rw [List.mem_cons]
            rintro (hk | hk)
            · exact he hk.symm
            · exact hm hk)]
        rfl

theorem mem_addPair (k v : List Char) :
    ∀ (acc : List (List Char × List (List Char))) (kv : List Char × List (List Char)),
    kv ∈ addPair acc k v → kv ∈ acc ∨ kv.2 ≠ [] := by
  intro acc
  induction acc with
  | nil =>
    intro kv hkv
    rcases List.mem_cons.mp hkv with rfl | hkv
    · exact Or.inr (by simp)
    · cases hkv
  | cons hd rest ih =>
    intro kv hkv
    obtain ⟨k', vs'⟩ := hd
    by_cases he : k' = k
    · rw [show addPair ((k', vs') :: rest) k v = (k', vs' ++ [v]) :: rest from by
        show (if k' = k then _ else _) = _
        rw [if_pos he]] at hkv
      rcases List.mem_cons.mp hkv with rfl | hkv
      · exact Or.inr (by simp)
      · exact Or.inl (List.mem_cons_of_mem _ hkv)
    · rw [show addPair ((k', vs') :: rest) k v = (k', vs') :: addPair rest k v from by
        show (if k' = k then _ else _) = _
        rw [if_neg he]] at hkv
      rcases List.mem_cons.mp hkv with rfl | hkv
      · exact Or.inl (List.mem_cons_self _ _)
      · rcases ih kv hkv with h | h
        · exact Or.inl (List.mem_cons_of_mem _ h)
        · exact Or.inr h

theorem foldl_addPair_wf : ∀ (l : List (List Char × List Char))
    (acc : List (List Char × List (List Char))),
    (keysOf acc).Nodup → (∀ kv ∈ acc, kv.2 ≠ []) →
    (keysOf (List.foldl (fun a kv => addPair a kv.1 kv.2) acc l)).Nodup ∧
      (∀ kv ∈ List.foldl (fun a kv => addPair a kv.1 kv.2) acc l, kv.2 ≠ []) := by
  intro l
  induction l with
  | nil => intro acc h1 h2; exact ⟨h1, h2⟩
  | cons p l ih =>
    intro acc h1 h2
    rw [List.foldl_cons]
    apply ih
    · rw [keysOf_addPair]
      by_cases hm : p.1 ∈ keysOf acc
      · rw [if_pos hm]; exact h1
      · rw [if_neg hm]
        rw [List.nodup_append]
        exact ⟨h1, List.nodup_singleton _, by
          intro a ha hb
          rw [List.mem_singleton] at hb
          subst hb
          exact hm ha⟩
    · intro kv hkv
      rcases mem_addPair p.1 p.2 acc kv hkv with h | h
      · exact h2 kv h
      · exact h

theorem parseQs_wf (q : List Char) :
    (keysOf (parseQs q)).Nodup ∧ ∀ kv ∈ parseQs q, kv.2 ≠ [] := by
  unfold parseQs groupPairs
  exact foldl_addPair_wf _ [] List.nodup_nil (by intro kv h; cases h)

theorem filtered_wf (q : List Char) :
    (keysOf ((parseQs q).filter keepParam)).Nodup ∧
      ∀ kv ∈ (parseQs q).filter keepParam, kv.2 ≠ [] := by
  obtain ⟨h1, h2⟩ := parseQs_wf q
  constructor
  · exact h1.sublist (List.Sublist.map Prod.fst (List.filter_sublist _))
  · intro kv hkv
    exact h2 kv (List.mem_of_mem_filter hkv)

theorem cleanedQuery_idem (q : List Char) :
    cleanedQuery (cleanedQuery q) = cleanedQuery q := by
  unfold cleanedQuery
  obtain ⟨h1, h2⟩ := filtered_wf q
  rw [parseQs_urlencodeSeq _ h1 h2,
    List.filter_eq_self.mpr (fun kv hkv => List.of_mem_filter hkv)]

theorem cleanedQuery_keys (q : List Char) :
    ∀ kv ∈ parseQsl (cleanedQuery q),
      ¬ (removeParams.map String.data).contains (kv.1.map Char.toLower) = true := by
  unfold cleanedQuery
  rw [parseQsl_urlencodeSeq]
  intro kv hkv
  unfold flattenPairs at hkv
  rcases List.mem_flatMap.mp hkv with ⟨g, hgmem, hmem⟩
  rcases List.mem_map.mp hmem with ⟨v, hv, he⟩
  subst he
  have hkeep := List.of_mem_filter hgmem
  unfold keepParam at hkeep
  simpa using hkeep

/-! ## Character facts for URL reassembly -/

theorem charLe_toNat {a b : Char} (h : a ≤ b) : a.toNat ≤ b.toNat := by
  have h2 := Char.le_def.mp h
  rw [UInt32.le_def] at h2
  exact h2

set_option maxRecDepth 8192 in
theorem char128_facts : ∀ n, n < 128 →
    (isSchemeChar (Char.ofNat n) = true →
      badWsChar (Char.ofNat n) = false ∧ 0x20 < (Char.ofNat n).toNat ∧
      ((Char.ofNat n == ':') = false) ∧
      ((Char.ofNat n == '?') = false) ∧
      ((Char.ofNat n == '#') = false) ∧
      isSchemeChar (Char.toLower (Char.ofNat n)) = true ∧
      Char.toLower (Char.toLower (Char.ofNat n)) = Char.toLower (Char.ofNat n)) ∧
    (isAsciiAlpha (Char.ofNat n) = true → isAsciiAlpha (Char.toLower (Char.ofNat n)) = true) := by
  decide

theorem isSchemeChar_toNat_lt {c : Char} (h : isSchemeChar c = true) : c.toNat < 128 := by
  simp only [isSchemeChar, isAsciiAlpha, isAsciiUpper, isAsciiLower, isAsciiDigit,
    Bool.or_eq_true, Bool.and_eq_true, beq_iff_eq, decide_eq_true_eq] at h
  rcases h with ((((⟨h1, h2⟩ | ⟨h1, h2⟩) | ⟨h1, h2⟩) | h) | h) | h
  · exact lt_of_le_of_lt (charLe_toNat h2) (by decide)
  · exact lt_of_le_of_lt (charLe_toNat h2) (by decide)
  · exact lt_of_le_of_lt (charLe_toNat h2) (by decide)
  · subst h; decide
  · subst h; decide
  · subst h; decide

theorem schemeChar_props {c : Char} (h : isSchemeChar c = true) :
    badWsChar c = false ∧ 0x20 < c.toNat ∧ ((c == ':') = false) ∧
    ((c == '?') = false) ∧ ((c == '#') = false) ∧
    isSchemeChar (Char.toLower c) = true ∧
    Char.toLower (Char.toLower c) = Char.toLower c := by
  have hlt := isSchemeChar_toNat_lt h
  have hc : Char.ofNat c.toNat = c := Char.ofNat_toNat c
  have hfacts := (char128_facts c.toNat hlt).1
  rw [hc] at hfacts
  exact hfacts h

theorem alphaChar_toLower {c : Char} (h : isAsciiAlpha c = true) :
    isAsciiAlpha (Char.toLower c) = true := by
  have hs : isSchemeChar c = true := by unfold isSchemeChar; rw [h]; rfl
  have hlt := isSchemeChar_toNat_lt hs
  have hc : Char.ofNat c.toNat = c := Char.ofNat_toNat c
  have hfacts := (char128_facts c.toNat hlt).2
  rw [hc] at hfacts
  exact hfacts h

theorem validSchemeName_all {a : List Char} (h : validSchemeName a = true) :
    ∀ c ∈ a, isSchemeChar c = true := by
  cases a with
  | nil => cases h
  | cons c0 rest =>
    rw [show validSchemeName (c0 :: rest) = (isAsciiAlpha c0 && rest.all isSchemeChar)
        from rfl, Bool.and_eq_true] at h
    intro c hc
    rcases List.mem_cons.mp hc with rfl | hc
    · unfold isSchemeChar; rw [h.1]; rfl
    · exact List.all_eq_true.mp h.2 c hc

theorem validSchemeName_map_toLower {a : List Char} (h : validSchemeName a = true) :
    validSchemeName (a.map Char.toLower) = true := by
  cases a with
  | nil => cases h
  | cons c0 rest =>
    rw [show validSchemeName (c0 :: rest) = (isAsciiAlpha c0 && rest.all isSchemeChar)
        from rfl, Bool.and_eq_true] at h
    rw [List.map_cons,
      show validSchemeName (Char.toLower c0 :: rest.map Char.toLower)
        = (isAsciiAlpha (Char.toLower c0) && (rest.map Char.toLower).all isSchemeChar)
        from rfl, Bool.and_eq_true]
    refine ⟨alphaChar_toLower h.1, ?_⟩
    rw [List.all_eq_true]
    intro x hx
    obtain ⟨y, hy, rfl⟩ := List.mem_map.mp hx
    exact (schemeChar_props (List.all_eq_true.mp h.2 y hy)).2.2.2.2.2.1

theorem validSchemeName_lower_idem {a : List Char} (h : validSchemeName a = true) :
    (a.map Char.toLower).map Char.toLower = a.map Char.toLower := by
  rw [List.map_map]
  apply List.map_congr_left
  intro c hc
  show Char.toLower (Char.toLower c) = Char.toLower c
  exact (schemeChar_props (validSchemeName_all h c hc)).2.2.2.2.2.2

/-! ## List helpers for URL reassembly -/

theorem getLast?_mem_list {l : List Char} {c : Char} (h : l.getLast? = some c) : c ∈ l := by
  have hne : l ≠ [] := by rintro rfl; cases h
  have h2 := List.getLast?_eq_getLast l hne
  rw [h2] at h
  have h3 := Option.some.inj h
  rw [← h3]
  exact List.getLast_mem hne

theorem dropWhile_head_false (p : Char → Bool) : ∀ (l : List Char) (c : Char) (t : List Char),
    l.dropWhile p = c :: t → p c = false := by
  intro l
  induction l with
  | nil => intro c t h; cases h
  | cons x xs ih =>
    intro c t h
    rw [List.dropWhile_cons] at h
    by_cases hx : p x = true
    · rw [if_pos hx] at h
      exact ih c t h
    · rw [if_neg hx] at h
      cases h
      exact Bool.eq_false_iff.mpr hx

theorem takeWhile_dropWhile_app (p : Char → Bool) : ∀ (a b : List Char),
    (∀ x ∈ a, p x = true) → (∀ c t, b = c :: t → p c = false) →
    (a ++ b).takeWhile p = a ∧ (a ++ b).dropWhile p = b := by
  intro a
  induction a with
  | nil =>
    intro b _ hb
    rw [List.nil_append]
    cases b with
    | nil => exact ⟨rfl, rfl⟩
    | cons c t =>
      rw [List.takeWhile_cons, List.dropWhile_cons, if_neg, if_neg]
      · exact ⟨rfl, rfl⟩
      · rw [hb c t rfl]; exact Bool.false_ne_true
      · rw [hb c t rfl]; exact Bool.false_ne_true
  | cons x xs ih =>
    intro b ha hb
    have hx := ha x (List.mem_cons_self x xs)
    obtain ⟨h1, h2⟩ := ih b (fun y hy => ha y (List.mem_cons_of_mem x hy)) hb
    rw [List.cons_append, List.takeWhile_cons, List.dropWhile_cons, if_pos hx, if_pos hx,
      h1, h2]
    exact ⟨rfl, rfl⟩

theorem takeWhile_dropWhile_split (p : Char → Bool) : ∀ (a b : List Char),
    (∀ c t, b = c :: t → p c = false) →
    ∃ a1 a2, a = a1 ++ a2 ∧ (a ++ b).takeWhile p = a1 ∧ (a ++ b).dropWhile p = a2 ++ b ∧
      (∀ x ∈ a1, p x = true) ∧ (∀ c t, a2 ++ b = c :: t → p c = false) := by
  intro a
  induction a with
  | nil =>
    intro b hb
    refine ⟨[], [], rfl, ?_, ?_, (by intro x h; cases h), hb⟩
    · rw [List.nil_append]
      cases b with
      | nil => rfl
      | cons c t =>
        rw [List.takeWhile_cons, if_neg]
        rw [hb c t rfl]; exact Bool.false_ne_true
    · rw [List.nil_append]
      cases b with
      | nil => rfl
      | cons c t =>
        rw [List.dropWhile_cons, if_neg]
        rw [hb c t rfl]; exact Bool.false_ne_true
  | cons x xs ih =>
    intro b hb
    by_cases hx : p x = true
    · obtain ⟨a1, a2, heq, ht, hd, h1, h2⟩ := ih b hb
      refine ⟨x :: a1, a2, (by rw [heq]; rfl), ?_, ?_, ?_, h2⟩
      · rw [List.cons_append, List.takeWhile_cons, if_pos hx, ht]
      · rw [List.cons_append, List.dropWhile_cons, if_pos hx, hd]
      · intro y hy
        rcases List.mem_cons.mp hy with rfl | hy
        · exact hx
        · exact h1 y hy
    · refine ⟨[], x :: xs, rfl, ?_, ?_, (by intro y h; cases h), ?_⟩
      · rw [List.cons_append, List.takeWhile_cons, if_neg hx]
      · rw [List.cons_append, List.dropWhile_cons, if_neg hx]
      · intro c t h
        rw [List.cons_append] at h
        cases h
        exact Bool.eq_false_iff.mpr hx

theorem breakAt_head {p : Char → Bool} {l a b : List Char} (h : breakAt p l = some (a, b))
    (hne : a ≠ []) : a.head? = l.head? := by
  obtain ⟨c, hl, -, -⟩ := breakAt_some h
  cases a with
  | nil => cases hne rfl
  | cons x xs => rw [hl]; rfl

/-! ## Scheme-splitting lemmas -/

theorem splitSchemeF_inv (cs : List Char) :
    (splitSchemeF cs).1 = [] ∨
      (validSchemeName (splitSchemeF cs).1 = true ∧
        (splitSchemeF cs).1.map Char.toLower = (splitSchemeF cs).1) := by
  unfold splitSchemeF
  cases hb : breakAt (fun c => c == ':') cs with
  | none => exact Or.inl rfl
  | some ab =>
    obtain ⟨a, b⟩ := ab
    dsimp only
    by_cases hv : validSchemeName a = true
    · rw [if_pos hv]
      exact Or.inr ⟨validSchemeName_map_toLower hv, validSchemeName_lower_idem hv⟩
    · rw [if_neg hv]
      exact Or.inl rfl

theorem splitSchemeF_snd_subset (cs : List Char) : ∀ c ∈ (splitSchemeF cs).2, c ∈ cs := by
  unfold splitSchemeF
  cases hb : breakAt (fun c => c == ':') cs with
  | none => intro c hc; exact hc
  | some ab =>
    obtain ⟨a, b⟩ := ab
    dsimp only
    by_cases hv : validSchemeName a = true
    · rw [if_pos hv]
      intro c hc
      obtain ⟨k, hcs, -, -⟩ := breakAt_some hb
      rw [hcs]
      exact List.mem_append.mpr (Or.inr (List.mem_cons_of_mem _ hc))
    · rw [if_neg hv]; intro c hc; exact hc

theorem splitSchemeF_reparse (scheme rest : List Char)
    (hv : validSchemeName scheme = true) (hl : scheme.map Char.toLower = scheme) :
    splitSchemeF (scheme ++ ':' :: rest) = (scheme, rest) := by
  unfold splitSchemeF
  rw [breakAt_append scheme ':' rest
    (fun x hx => (schemeChar_props (validSchemeName_all hv x hx)).2.2.1) rfl]
  dsimp only
  rw [if_pos hv, hl]

theorem splitSchemeF_slash (t : List Char) : splitSchemeF ('/' :: t) = ([], '/' :: t) := by
  unfold splitSchemeF
  cases hb : breakAt (fun c => c == ':') ('/' :: t) with
  | none => rfl
  | some ab =>
    obtain ⟨a, b⟩ := ab
    obtain ⟨c, hcs, hpc, hall⟩ := breakAt_some hb
    cases a with
    | nil =>
      rw [List.nil_append] at hcs
      cases hcs
      exact absurd hpc (by decide)
    | cons a0 a' =>
      rw [List.cons_append] at hcs
      cases hcs
      dsimp only
      rw [if_neg]
      intro hv
      have : validSchemeName ('/' :: a') = (isAsciiAlpha '/' && a'.all isSchemeChar) := rfl
      rw [this] at hv
      have hfa : isAsciiAlpha '/' = false := by decide
      rw [hfa, Bool.false_and] at hv
      exact Bool.false_ne_true hv

theorem splitSchemeF_shape (A Q : List Char)
    (hA : ∀ c ∈ A, (c == '?') = false ∧ (c == '#') = false)
    (hQ : ∀ c t, Q = c :: t → (c = '?' ∨ c = '#')) :
    ∃ A2, (∀ c ∈ A2, (c == '?') = false ∧ (c == '#') = false) ∧
      (splitSchemeF (A ++ Q)).2 = A2 ++ Q := by
  unfold splitSchemeF
  cases hb : breakAt (fun c => c == ':') (A ++ Q) with
  | none => exact ⟨A, hA, rfl⟩
  | some ab =>
    obtain ⟨a, b⟩ := ab
    dsimp only
    by_cases hv : validSchemeName a = true
    · rw [if_pos hv]
      obtain ⟨c, hcs, hpc, hall⟩ := breakAt_some hb
      have hc : c = ':' := eq_of_beq hpc
      subst hc
      rcases List.append_eq_append_iff.mp hcs with ⟨w, hw1, hw2⟩ | ⟨w, hw1, hw2⟩
      · -- a = A ++ w, Q = w ++ ':' :: b : the colon lies inside Q
        exfalso
        cases w with
        | nil =>
          rw [List.nil_append] at hw2
          rcases hQ ':' b hw2 with h | h <;> cases h
        | cons x w' =>
          rw [List.cons_append] at hw2
          have hx : x ∈ a := by
            rw [hw1]
            exact List.mem_append.mpr (Or.inr (List.mem_cons_self _ _))
          have hsc := validSchemeName_all hv x hx
          rcases hQ x _ hw2 with rfl | rfl
          · exact absurd hsc (by decide)
          · exact absurd hsc (by decide)
      · -- A = a ++ w, ':' :: b = w ++ Q : the colon lies inside A
        cases w with
        | nil =>
          rw [List.nil_append] at hw2
          rcases hQ ':' b hw2.symm with h | h <;> cases h
        | cons x w' =>
          rw [List.cons_append] at hw2
          injection hw2 with hx hb2
          refine ⟨w', ?_, ?_⟩
          · intro d hd
            apply hA
            rw [hw1]
            exact List.mem_append.mpr (Or.inr (List.mem_cons_of_mem _ hd))
          · exact hb2
    · rw [if_neg hv]
      exact ⟨A, hA, rfl⟩

/-! ## Path-parameter splitting lemmas -/

theorem take_pre {cs P A : List Char} (h : cs = P ++ A) :
    cs.take (cs.length - A.length) = P := by
  subst h
  rw [List.length_append, Nat.add_sub_cancel]
  exact List.take_left P A

theorem rev_decomp (q : Char → Bool) (cs : List Char) :
    cs = (cs.reverse.dropWhile q).reverse ++ (cs.reverse.takeWhile q).reverse := by
  rw [← List.reverse_append, List.takeWhile_append_dropWhile, List.reverse_reverse]

theorem contains_false_of (a : List Char) (c0 : Char) (h : ∀ x ∈ a, (x == c0) = false) :
    a.contains c0 = false := by
  cases hc : a.contains c0 with
  | false => rfl
  | true =>
    exfalso
    have hm : c0 ∈ a := by simpa using hc
    have := h _ hm
    simp at this

theorem lastSeg_mem (cs : List Char) :
    ∀ c ∈ (cs.reverse.takeWhile (fun c => c != '/')).reverse,
      c ∈ cs ∧ (c == '/') = false := by
  intro c hc
  rw [List.mem_reverse] at hc
  have hq := List.mem_takeWhile_imp hc
  have hm : c ∈ cs.reverse := (List.takeWhile_sublist _).mem hc
  refine ⟨List.mem_reverse.mp hm, ?_⟩
  simpa using hq

theorem pre_slash {cs : List Char} (h : cs.contains '/' = true) :
    ∃ P', (cs.reverse.dropWhile (fun c => c != '/')).reverse = P' ++ ['/'] := by
  cases hd : cs.reverse.dropWhile (fun c => c != '/') with
  | nil =>
    exfalso
    have hdec := rev_decomp (fun c => c != '/') cs
    rw [hd] at hdec
    simp only [List.reverse_nil, List.nil_append] at hdec
    have hm : '/' ∈ cs := by simpa using h
    rw [hdec] at hm
    have := (lastSeg_mem cs '/' hm).2
    simp at this
  | cons c t =>
    have hc := dropWhile_head_false _ _ _ _ hd
    have hcc : c = '/' := by simpa using hc
    subst hcc
    refine ⟨t.reverse, ?_⟩
    rw [List.reverse_cons]

theorem splitParams_spec (cs : List Char) : ∀ (a b : List Char), splitParams cs = (a, b) →
    (∀ c ∈ a, c ∈ cs) ∧
    (b = [] → splitParams a = (a, [])) ∧
    (b ≠ [] → a ++ ';' :: b = cs) ∧
    (∀ c t, a = c :: t → ∃ t2, cs = c :: t2) := by
  intro a b h
  unfold splitParams at h
  by_cases hsemi : cs.contains ';' = true
  · rw [if_pos hsemi] at h
    by_cases hslash : cs.contains '/' = true
    · rw [if_pos hslash] at h
      dsimp only at h
      cases hba : breakAt (fun c => c == ';')
          ((cs.reverse.takeWhile (fun c => c != '/')).reverse) with
      | none =>
        rw [hba] at h
        injection h with h1 h2
        subst h1
        subst h2
        refine ⟨fun c hc => hc, fun _ => ?_, fun hb => absurd rfl hb,
          fun c t hct => ⟨t, hct⟩⟩
        unfold splitParams
        rw [if_pos hsemi, if_pos hslash]
        dsimp only
        rw [hba]
      | some ab =>
        obtain ⟨a', b'⟩ := ab
        rw [hba] at h
        injection h with h1 h2
        subst h1
        subst h2
        have hdec := rev_decomp (fun c => c != '/') cs
        have hpre := take_pre hdec
        obtain ⟨c0, hA2, hpc, hall⟩ := breakAt_some hba
        have hc0 : c0 = ';' := eq_of_beq hpc
        subst hc0
        have ha'mem : ∀ x ∈ a', x ∈ (cs.reverse.takeWhile (fun c => c != '/')).reverse := by
          intro x hx
          rw [hA2]
          exact List.mem_append.mpr (Or.inl hx)
        refine ⟨?_, ?_, ?_, ?_⟩
        · intro c hc
          rcases List.mem_append.mp hc with hc | hc
          · rw [hpre] at hc
            rw [hdec]
            exact List.mem_append.mpr (Or.inl hc)
          · exact (lastSeg_mem cs c (ha'mem c hc)).1
        · intro hb
          subst hb
          rw [hpre]
          obtain ⟨P', hP'⟩ := pre_slash hslash
          by_cases hs2 : ((cs.reverse.dropWhile (fun c => c != '/')).reverse ++ a').contains ';'
              = true
          · unfold splitParams
            rw [if_pos hs2, if_pos]
            · dsimp only
              have hrev : ((cs.reverse.dropWhile (fun c => c != '/')).reverse ++ a').reverse
                  = a'.reverse ++ ('/' :: P'.reverse) := by
                rw [List.reverse_append, hP', List.reverse_append]
                rfl
              have htw := takeWhile_dropWhile_app (fun c => c != '/') a'.reverse
                ('/' :: P'.reverse)
                (by
                  intro x hx
                  rw [List.mem_reverse] at hx
                  have := (lastSeg_mem cs x (ha'mem x hx)).2
                  simpa using this)
                (by
                  intro c t hct
                  injection hct with hc ht
                  subst hc
                  decide)
              rw [show (((cs.reverse.dropWhile (fun c => c != '/')).reverse ++ a').reverse.takeWhile
                    (fun c => c != '/')).reverse = a' from by
                  rw [hrev, htw.1, List.reverse_reverse]]
              rw [breakAt_none (fun x hx => hall x hx)]
            · rw [hP']
              have hmem : '/' ∈ (P' ++ ['/']) ++ a' :=
                List.mem_append.mpr (Or.inl (List.mem_append.mpr (Or.inr (List.mem_cons_self _ _))))
              exact List.elem_eq_true_of_mem hmem
          · unfold splitParams
            rw [if_neg hs2]
        · intro hb
          rw [hpre, List.append_assoc, ← hA2]
          exact hdec.symm
        · intro c t hct
          rw [hpre] at hct
          obtain ⟨P', hP'⟩ := pre_slash hslash
          cases hP : (cs.reverse.dropWhile (fun c => c != '/')).reverse with
          | nil =>
            exfalso
            rw [hP] at hP'
            cases P' <;> cases hP'
          | cons p0 pt =>
            rw [hP, List.cons_append] at hct
            injection hct with hc ht
            subst hc
            refine ⟨pt ++ (cs.reverse.takeWhile (fun c => c != '/')).reverse, ?_⟩
            conv_lhs => rw [hdec]
            rw [hP, List.cons_append]
    · rw [if_neg hslash] at h
      cases hba : breakAt (fun c => c == ';') cs with
      | none =>
        rw [hba] at h
        injection h with h1 h2
        subst h1
        subst h2
        refine ⟨fun c hc => hc, fun _ => ?_, fun hb => absurd rfl hb,
          fun c t hct => ⟨t, hct⟩⟩
        unfold splitParams
        rw [if_pos hsemi, if_neg hslash, hba]
      | some ab =>
        obtain ⟨a', b'⟩ := ab
        rw [hba] at h
        injection h with h1 h2
        subst h1
        subst h2
        obtain ⟨c0, hcs, hpc, hall⟩ := breakAt_some hba
        have hc0 : c0 = ';' := eq_of_beq hpc
        subst hc0
        refine ⟨?_, ?_, ?_, ?_⟩
        · intro c hc
          rw [hcs]
          exact List.mem_append.mpr (Or.inl hc)
        · intro hb
          subst hb
          have hcont := contains_false_of a' ';' hall
          unfold splitParams
          rw [if_neg (by rw [hcont]; exact Bool.false_ne_true)]
        · intro hb
          exact hcs.symm
        · intro c t hct
          subst hct
          exact ⟨t ++ ';' :: b', by rw [hcs, List.cons_append]⟩
  · rw [if_neg hsemi] at h
    injection h with h1 h2
    subst h1
    subst h2
    refine ⟨fun c hc => hc, fun _ => ?_, fun hb => absurd rfl hb,
      fun c t hct => ⟨t, hct⟩⟩
    unfold splitParams
    rw [if_neg hsemi]

/-! ## More parsing helpers -/

theorem breakAt_eq_none {p : Char → Bool} : ∀ {l : List Char}, breakAt p l = none →
    ∀ x ∈ l, p x = false := by
  intro l
  induction l with
  | nil => intro _ x hx; cases hx
  | cons c t ih =>
    intro h x hx
    rw [breakAt_cons] at h
    by_cases hc : p c = true
    · rw [if_pos hc] at h; cases h
    · rw [if_neg hc] at h
      rcases List.mem_cons.mp hx with rfl | hx
      · exact Bool.eq_false_iff.mpr hc
      · cases hrec : breakAt p t with
        | none => exact ih hrec x hx
        | some ab =>
          obtain ⟨a, b⟩ := ab
          rw [hrec] at h
          cases h

theorem badWs_of_gt {c : Char} (h : 0x20 < c.toNat) : badWsChar c = false := by
  unfold badWsChar
  have h1 : (c == '\t') = false := by
    cases hb : c == '\t' with
    | false => rfl
    | true => exact absurd h (by rw [eq_of_beq hb]; decide)
  have h2 : (c == '\r') = false := by
    cases hb : c == '\r' with
    | false => rfl
    | true => exact absurd h (by rw [eq_of_beq hb]; decide)
  have h3 : (c == '\n') = false := by
    cases hb : c == '\n' with
    | false => rfl
    | true => exact absurd h (by rw [eq_of_beq hb]; decide)
  rw [h1, h2, h3]
  rfl

theorem splitSchemeF_empty (cs : List Char) :
    (splitSchemeF cs).1 = [] → (splitSchemeF cs).2 = cs := by
  unfold splitSchemeF
  cases hb : breakAt (fun c => c == ':') cs with
  | none => intro _; rfl
  | some ab =>
    obtain ⟨a, b⟩ := ab
    dsimp only
    by_cases hv : validSchemeName a = true
    · rw [if_pos hv]
      intro h1
      have ha : a = [] := List.map_eq_nil_iff.mp h1
      subst ha
      cases hv
    · rw [if_neg hv]
      intro _
      rfl

set_option maxRecDepth 8192 in
theorem qsafe128_facts : ∀ n, n < 128 → isQSafeChar (Char.ofNat n) = true →
    badWsChar (Char.ofNat n) = false ∧ ((Char.ofNat n == '#') = false) ∧
    ((Char.ofNat n == '?') = false) := by
  decide

theorem isQSafeChar_toNat_lt {c : Char} (h : isQSafeChar c = true) : c.toNat < 128 := by
  simp only [isQSafeChar, isAsciiAlpha, isAsciiUpper, isAsciiLower, isAsciiDigit,
    Bool.or_eq_true, Bool.and_eq_true, beq_iff_eq, decide_eq_true_eq] at h
  rcases h with ((((((((⟨h1, h2⟩ | ⟨h1, h2⟩) | ⟨h1, h2⟩) | h) | h) | h) | h) | h) | h)
  · exact lt_of_le_of_lt (charLe_toNat h2) (by decide)
  · exact lt_of_le_of_lt (charLe_toNat h2) (by decide)
  · exact lt_of_le_of_lt (charLe_toNat h2) (by decide)
  · subst h; decide
  · subst h; decide
  · subst h; decide
  · subst h; decide
  · subst h; decide
  · subst h; decide

theorem qSafeChar_props {c : Char} (h : isQSafeChar c = true) :
    badWsChar c = false ∧ ((c == '#') = false) ∧ ((c == '?') = false) := by
  have hlt := isQSafeChar_toNat_lt h
  have hc : Char.ofNat c.toNat = c := Char.ofNat_toNat c
  have hfacts := qsafe128_facts c.toNat hlt
  rw [hc] at hfacts
  exact hfacts h

theorem cleanedQuery_chars (q : List Char) : ∀ c ∈ cleanedQuery q,
    badWsChar c = false ∧ ((c == '#') = false) ∧ ((c == '?') = false) := by
  intro c hc
  unfold cleanedQuery at hc
  rw [urlencodeSeq_eq_map] at hc
  rcases mem_intercalateChar hc with rfl | ⟨x, hx, hcx⟩
  · refine ⟨by decide, by decide, by decide⟩
  · obtain ⟨kv, -, rfl⟩ := List.mem_map.mp hx
    rcases mem_encPair hcx with hq | rfl
    · exact qSafeChar_props hq
    · refine ⟨by decide, by decide, by decide⟩

theorem qf_payload (NR2 f1 F P Q : List Char)
    (hfr : (NR2 = f1 ++ '#' :: F ∧ ∀ x ∈ f1, (x == '#') = false) ∨
      (f1 = NR2 ∧ F = [] ∧ ∀ x ∈ NR2, (x == '#') = false))
    (hqr : (f1 = P ++ '?' :: Q ∧ ∀ x ∈ P, (x == '?') = false) ∨
      (P = f1 ∧ Q = [] ∧ ∀ x ∈ f1, (x == '?') = false)) :
    (∀ c ∈ P, (c == '?') = false ∧ (c == '#') = false) ∧
    (∀ c ∈ P, c ∈ NR2) ∧ (∀ c ∈ F, c ∈ NR2) ∧
    (∀ c t, P = c :: t → ∃ t2, NR2 = c :: t2) := by
  have hPf1 : ∀ c ∈ P, c ∈ f1 := by
    rcases hqr with ⟨heq, -⟩ | ⟨rfl, -, -⟩
    · intro c hc
      rw [heq]
      exact List.mem_append.mpr (Or.inl hc)
    · intro c hc; exact hc
  have hP1 : ∀ c ∈ P, (c == '?') = false := by
    rcases hqr with ⟨-, hall⟩ | ⟨rfl, -, hall⟩
    · exact hall
    · exact hall
  have hf1sharp : ∀ c ∈ f1, (c == '#') = false := by
    rcases hfr with ⟨-, hall⟩ | ⟨rfl, -, hall⟩
    · exact hall
    · exact hall
  have hf1N : ∀ c ∈ f1, c ∈ NR2 := by
    rcases hfr with ⟨heq, -⟩ | ⟨rfl, -, -⟩
    · intro c hc
      rw [heq]
      exact List.mem_append.mpr (Or.inl hc)
    · intro c hc; exact hc
  have hheadf1 : ∀ c t, P = c :: t → ∃ t3, f1 = c :: t3 := by
    rcases hqr with ⟨heq, -⟩ | ⟨rfl, -, -⟩
    · intro c t hct
      subst hct
      exact ⟨t ++ '?' :: Q, by rw [heq, List.cons_append]⟩
    · intro c t hct
      exact ⟨t, hct⟩
  refine ⟨fun c hc => ⟨hP1 c hc, hf1sharp c (hPf1 c hc)⟩,
    fun c hc => hf1N c (hPf1 c hc), ?_, ?_⟩
  · rcases hfr with ⟨heq, -⟩ | ⟨-, rfl, -⟩
    · intro c hc
      rw [heq]
      exact List.mem_append.mpr (Or.inr (List.mem_cons_of_mem _ hc))
    · intro c hc; cases hc
  · intro c t hct
    obtain ⟨t3, hf⟩ := hheadf1 c t hct
    rcases hfr with ⟨heq, -⟩ | ⟨rfl, -, -⟩
    · exact ⟨t3 ++ '#' :: F, by rw [heq, hf, List.cons_append]⟩
    · exact ⟨t3, hf⟩

theorem urlsplitE_inv {url : String} {r : SplitResult} (h : urlsplitE url = .ok r) :
    (r.scheme = [] ∨ (validSchemeName r.scheme = true ∧ r.scheme.map Char.toLower = r.scheme)) ∧
    (∀ c ∈ r.netloc, netlocDelim c = false ∧ badWsChar c = false) ∧
    (r.netloc.contains '[' = r.netloc.contains ']') ∧
    (∀ c ∈ r.path, (c == '?') = false ∧ (c == '#') = false ∧ badWsChar c = false) ∧
    (∀ c ∈ r.fragment, badWsChar c = false) ∧
    (r.netloc ≠ [] → r.path = [] ∨ r.path.take 1 = ['/']) ∧
    (r.scheme = [] → r.netloc = [] → ∀ c t, r.path = c :: t → 0x20 < c.toNat) := by
  unfold urlsplitE at h
  dsimp only at h
  generalize hCS : (url.data.dropWhile (fun c => c.toNat ≤ 0x20)).filter
      (fun c => !badWsChar c) = CS at h
  have hbadws : ∀ c ∈ CS, badWsChar c = false := by
    rw [← hCS]
    intro c hc
    have := List.of_mem_filter hc
    simpa using this
  have hheadcs : ∀ c t, CS = c :: t → 0x20 < c.toNat := by
    rw [← hCS]
    intro c t hct
    cases hd : url.data.dropWhile (fun c => c.toNat ≤ 0x20) with
    | nil =>
      rw [hd] at hct
      cases hct
    | cons c0 t0 =>
      have hp := dropWhile_head_false _ _ _ _ hd
      have hgt : 0x20 < c0.toNat := by
        simp only [decide_eq_false_iff_not] at hp
        omega
      have hbw := badWs_of_gt hgt
      rw [hd, List.filter_cons, if_pos (by rw [hbw]; rfl)] at hct
      injection hct with h1 h2
      subst h1
      exact hgt
  have hscheme := splitSchemeF_inv CS
  have hsnd := splitSchemeF_snd_subset CS
  have hsempty := splitSchemeF_empty CS
  by_cases htake : (splitSchemeF CS).2.take 2 = ['/', '/']
  · rw [if_pos htake] at h
    dsimp only at h
    by_cases hbrk : (((((splitSchemeF CS).2.drop 2).takeWhile
            (fun c => !netlocDelim c)).contains '[')
        != ((((splitSchemeF CS).2.drop 2).takeWhile
            (fun c => !netlocDelim c)).contains ']')) = true
    · rw [if_pos hbrk] at h
      cases h
    · rw [if_neg hbrk] at h
      simp only [bne_iff_ne, ne_eq, not_not] at hbrk
      have hmemTW : ∀ c ∈ ((splitSchemeF CS).2.drop 2).takeWhile (fun c => !netlocDelim c),
          netlocDelim c = false ∧ badWsChar c = false := by
        intro c hc
        have h1 := List.mem_takeWhile_imp hc
        have h2 : c ∈ (splitSchemeF CS).2.drop 2 := (List.takeWhile_sublist _).mem hc
        have h3 : c ∈ (splitSchemeF CS).2 := List.mem_of_mem_drop h2
        exact ⟨by simpa using h1, hbadws c (hsnd c h3)⟩
      have hmemDW : ∀ c ∈ ((splitSchemeF CS).2.drop 2).dropWhile (fun c => !netlocDelim c),
          badWsChar c = false := by
        intro c hc
        have h2 : c ∈ (splitSchemeF CS).2.drop 2 := (List.dropWhile_sublist _).mem hc
        exact hbadws c (hsnd c (List.mem_of_mem_drop h2))
      have hheadDW : ∀ c t,
          ((splitSchemeF CS).2.drop 2).dropWhile (fun c => !netlocDelim c) = c :: t →
          netlocDelim c = true := by
        intro c t hct
        have := dropWhile_head_false _ _ _ _ hct
        simpa using this
      have main : ∀ (f1 F P Q : List Char),
          ((((splitSchemeF CS).2.drop 2).dropWhile (fun c => !netlocDelim c)
              = f1 ++ '#' :: F ∧ ∀ x ∈ f1, (x == '#') = false) ∨
            (f1 = ((splitSchemeF CS).2.drop 2).dropWhile (fun c => !netlocDelim c) ∧ F = [] ∧
              ∀ x ∈ ((splitSchemeF CS).2.drop 2).dropWhile (fun c => !netlocDelim c),
                (x == '#') = false)) →
          ((f1 = P ++ '?' :: Q ∧ ∀ x ∈ P, (x == '?') = false) ∨
            (P = f1 ∧ Q = [] ∧ ∀ x ∈ f1, (x == '?') = false)) →
          (((splitSchemeF CS).1 = [] ∨ (validSchemeName (splitSchemeF CS).1 = true ∧
              (splitSchemeF CS).1.map Char.toLower = (splitSchemeF CS).1)) ∧
          (∀ c ∈ ((splitSchemeF CS).2.drop 2).takeWhile (fun c => !netlocDelim c),
            netlocDelim c = false ∧ badWsChar c = false) ∧
          ((((splitSchemeF CS).2.drop 2).takeWhile (fun c => !netlocDelim c)).contains '['
            = (((splitSchemeF CS).2.drop 2).takeWhile (fun c => !netlocDelim c)).contains ']') ∧
          (∀ c ∈ P, (c == '?') = false ∧ (c == '#') = false ∧ badWsChar c = false) ∧
          (∀ c ∈ F, badWsChar c = false) ∧
          (((splitSchemeF CS).2.drop 2).takeWhile (fun c => !netlocDelim c) ≠ [] →
            P = [] ∨ P.take 1 = ['/']) ∧
          ((splitSchemeF CS).1 = [] →
            ((splitSchemeF CS).2.drop 2).takeWhile (fun c => !netlocDelim c) = [] →
            ∀ c t, P = c :: t → 0x20 < c.toNat)) := by
        intro f1 F P Q hfr hqr
        obtain ⟨hPchars, hPN, hFN, hPhead⟩ := qf_payload _ f1 F P Q hfr hqr
        have hPslash : ∀ c t, P = c :: t → c = '/' := by
          intro c t hct
          obtain ⟨t2, hDWh⟩ := hPhead c t hct
          have hdel := hheadDW c t2 hDWh
          have hq := (hPchars c (by rw [hct]; exact List.mem_cons_self _ _)).1
          have hsh := (hPchars c (by rw [hct]; exact List.mem_cons_self _ _)).2
          unfold netlocDelim at hdel
          rw [hq, hsh, Bool.or_false, Bool.or_false] at hdel
          exact eq_of_beq hdel
        refine ⟨hscheme, hmemTW, hbrk, ?_, ?_, ?_, ?_⟩
        · intro c hc
          exact ⟨(hPchars c hc).1, (hPchars c hc).2, hmemDW c (hPN c hc)⟩
        · intro c hc
          exact hmemDW c (hFN c hc)
        · intro _
          cases hp : P with
          | nil => exact Or.inl rfl
          | cons c t =>
            right
            rw [hPslash c t hp]
            rfl
        · intro _ _ c t hct
          rw [hPslash c t hct]
          decide
      cases hfrb : breakAt (fun c => c == '#')
          (((splitSchemeF CS).2.drop 2).dropWhile (fun c => !netlocDelim c)) with
      | some frp =>
        obtain ⟨f1, F⟩ := frp
        rw [hfrb] at h
        dsimp only at h
        obtain ⟨c0, hDW, hpc0, hall0⟩ := breakAt_some hfrb
        have hc0 : c0 = '#' := eq_of_beq hpc0
        subst hc0
        cases hqrb : breakAt (fun c => c == '?') f1 with
        | some qrp =>
          obtain ⟨P0, Q0⟩ := qrp
          rw [hqrb] at h
          dsimp only at h
          obtain ⟨c1, hf1, hpc1, hall1⟩ := breakAt_some hqrb
          have hc1 : c1 = '?' := eq_of_beq hpc1
          subst hc1
          injection h with h2
          subst h2
          exact main f1 F P0 Q0 (Or.inl ⟨hDW, hall0⟩) (Or.inl ⟨hf1, hall1⟩)
        | none =>
          rw [hqrb] at h
          dsimp only at h
          injection h with h2
          subst h2
          exact main f1 F f1 [] (Or.inl ⟨hDW, hall0⟩)
            (Or.inr ⟨rfl, rfl, breakAt_eq_none hqrb⟩)
      | none =>
        rw [hfrb] at h
        dsimp only at h
        cases hqrb : breakAt (fun c => c == '?')
            (((splitSchemeF CS).2.drop 2).dropWhile (fun c => !netlocDelim c)) with
        | some qrp =>
          obtain ⟨P0, Q0⟩ := qrp
          rw [hqrb] at h
          dsimp only at h
          obtain ⟨c1, hf1, hpc1, hall1⟩ := breakAt_some hqrb
          have hc1 : c1 = '?' := eq_of_beq hpc1
          subst hc1
          injection h with h2
          subst h2
          exact main _ [] P0 Q0 (Or.inr ⟨rfl, rfl, breakAt_eq_none hfrb⟩)
            (Or.inl ⟨hf1, hall1⟩)
        | none =>
          rw [hqrb] at h
          dsimp only at h
          injection h with h2
          subst h2
          exact main _ [] _ [] (Or.inr ⟨rfl, rfl, breakAt_eq_none hfrb⟩)
            (Or.inr ⟨rfl, rfl, breakAt_eq_none hqrb⟩)
  · rw [if_neg htake] at h
    dsimp only at h
    rw [if_neg (by decide)] at h
    have main : ∀ (f1 F P Q : List Char),
        (((splitSchemeF CS).2 = f1 ++ '#' :: F ∧ ∀ x ∈ f1, (x == '#') = false) ∨
          (f1 = (splitSchemeF CS).2 ∧ F = [] ∧
            ∀ x ∈ (splitSchemeF CS).2, (x == '#') = false)) →
        ((f1 = P ++ '?' :: Q ∧ ∀ x ∈ P, (x == '?') = false) ∨
          (P = f1 ∧ Q = [] ∧ ∀ x ∈ f1, (x == '?') = false)) →
        (((splitSchemeF CS).1 = [] ∨ (validSchemeName (splitSchemeF CS).1 = true ∧
            (splitSchemeF CS).1.map Char.toLower = (splitSchemeF CS).1)) ∧
        (∀ c ∈ ([] : List Char), netlocDelim c = false ∧ badWsChar c = false) ∧
        (([] : List Char).contains '[' = ([] : List Char).contains ']') ∧
        (∀ c ∈ P, (c == '?') = false ∧ (c == '#') = false ∧ badWsChar c = false) ∧
        (∀ c ∈ F, badWsChar c = false) ∧
        (([] : List Char) ≠ [] → P = [] ∨ P.take 1 = ['/']) ∧
        ((splitSchemeF CS).1 = [] → ([] : List Char) = [] →
          ∀ c t, P = c :: t → 0x20 < c.toNat)) := by
      intro f1 F P Q hfr hqr
      obtain ⟨hPchars, hPN, hFN, hPhead⟩ := qf_payload _ f1 F P Q hfr hqr
      refine ⟨hscheme, (by intro c hc; cases hc), rfl, ?_, ?_, (fun hne => absurd rfl hne), ?_⟩
      · intro c hc
        exact ⟨(hPchars c hc).1, (hPchars c hc).2, hbadws c (hsnd c (hPN c hc))⟩
      · intro c hc
        exact hbadws c (hsnd c (hFN c hc))
      · intro hS _ c t hct
        obtain ⟨t2, hN2⟩ := hPhead c t hct
        have hCS2 := hsempty hS
        rw [hCS2] at hN2
        exact hheadcs c t2 hN2
    cases hfrb : breakAt (fun c => c == '#') (splitSchemeF CS).2 with
    | some frp =>
      obtain ⟨f1, F⟩ := frp
      rw [hfrb] at h
      dsimp only at h
      obtain ⟨c0, hN2, hpc0, hall0⟩ := breakAt_some hfrb
      have hc0 : c0 = '#' := eq_of_beq hpc0
      subst hc0
      cases hqrb : breakAt (fun c => c == '?') f1 with
      | some qrp =>
        obtain ⟨P0, Q0⟩ := qrp
        rw [hqrb] at h
        dsimp only at h
        obtain ⟨c1, hf1, hpc1, hall1⟩ := breakAt_some hqrb
        have hc1 : c1 = '?' := eq_of_beq hpc1
        subst hc1
        injection h with h2
        subst h2
        exact main f1 F P0 Q0 (Or.inl ⟨hN2, hall0⟩) (Or.inl ⟨hf1, hall1⟩)
      | none =>
        rw [hqrb] at h
        dsimp only at h
        injection h with h2
        subst h2
        exact main f1 F f1 [] (Or.inl ⟨hN2, hall0⟩)
          (Or.inr ⟨rfl, rfl, breakAt_eq_none hqrb⟩)
    | none =>
      rw [hfrb] at h
      dsimp only at h
      cases hqrb : breakAt (fun c => c == '?') (splitSchemeF CS).2 with
      | some qrp =>
        obtain ⟨P0, Q0⟩ := qrp
        rw [hqrb] at h
        dsimp only at h
        obtain ⟨c1, hf1, hpc1, hall1⟩ := breakAt_some hqrb
        have hc1 : c1 = '?' := eq_of_beq hpc1
        subst hc1
        injection h with h2
        subst h2
        exact main _ [] P0 Q0 (Or.inr ⟨rfl, rfl, breakAt_eq_none hfrb⟩)
          (Or.inl ⟨hf1, hall1⟩)
      | none =>
        rw [hqrb] at h
        dsimp only at h
        injection h with h2
        subst h2
        exact main _ [] _ [] (Or.inr ⟨rfl, rfl, breakAt_eq_none hfrb⟩)
          (Or.inr ⟨rfl, rfl, breakAt_eq_none hqrb⟩)

theorem urlsplitE_assembled (scheme netloc path q f2 fpart : List Char)
    (hs : scheme = [] ∨ (validSchemeName scheme = true ∧ scheme.map Char.toLower = scheme))
    (hn : ∀ c ∈ netloc, netlocDelim c = false ∧ badWsChar c = false)
    (hbr : netloc.contains '[' = netloc.contains ']')
    (hp : ∀ c ∈ path, (c == '?') = false ∧ (c == '#') = false ∧ badWsChar c = false)
    (hp0 : path = [] ∨ path.take 1 = ['/'])
    (hq : ∀ c ∈ q, ((c == '#') = false) ∧ badWsChar c = false)
    (hf : ∀ c ∈ f2, badWsChar c = false)
    (hfp : fpart = '#' :: f2 ∨ (fpart = [] ∧ f2 = [])) :
    urlsplitE (String.mk
        ((if scheme ≠ [] then scheme ++ [':'] else []) ++
          ('/' :: '/' :: (netloc ++ (path ++
            ((if q ≠ [] then '?' :: q else []) ++ fpart))))))
      = .ok ⟨scheme, netloc, path, q, f2⟩ := by
  have hchars : ∀ c ∈ ((if scheme ≠ [] then scheme ++ [':'] else []) ++
      ('/' :: '/' :: (netloc ++ (path ++
        ((if q ≠ [] then '?' :: q else []) ++ fpart))))), badWsChar c = false := by
    intro c hc
    rcases List.mem_append.mp hc with hc | hc
    · cases hsc : scheme with
      | nil =>
        rw [hsc] at hc
        simp at hc
      | cons s0 st =>
        rw [hsc, if_pos (by simp)] at hc
        rcases List.mem_append.mp hc with hc | hc
        · have hv : validSchemeName (s0 :: st) = true := by
            rcases hs with h0 | ⟨hv, -⟩
            · rw [hsc] at h0; cases h0
            · rw [← hsc]; exact hv
          exact (schemeChar_props (validSchemeName_all hv c (hsc ▸ hc))).1
        · rw [List.mem_singleton] at hc
          subst hc
          decide
    · rcases List.mem_cons.mp hc with rfl | hc
      · decide
      rcases List.mem_cons.mp hc with rfl | hc
      · decide
      rcases List.mem_append.mp hc with hc | hc
      · exact (hn c hc).2
      rcases List.mem_append.mp hc with hc | hc
      · exact (hp c hc).2.2
      rcases List.mem_append.mp hc with hc | hc
      · by_cases hqq : q ≠ []
        · rw [if_pos hqq] at hc
          rcases List.mem_cons.mp hc with rfl | hc
          · decide
          · exact (hq c hc).2
        · rw [if_neg hqq] at hc
          cases hc
      · rcases hfp with hfp1 | ⟨hfp1, -⟩
        · rw [hfp1] at hc
          rcases List.mem_cons.mp hc with rfl | hc
          · decide
          · exact hf c hc
        · rw [hfp1] at hc
          cases hc
  have hstart : ∃ c t, ((if scheme ≠ [] then scheme ++ [':'] else []) ++
      ('/' :: '/' :: (netloc ++ (path ++
        ((if q ≠ [] then '?' :: q else []) ++ fpart))))) = c :: t ∧ 0x20 < c.toNat := by
    cases hsc : scheme with
    | nil =>
      refine ⟨'/', '/' :: (netloc ++ (path ++
        ((if q ≠ [] then '?' :: q else []) ++ fpart))), ?_, by decide⟩
      rw [if_neg (by simp), List.nil_append]
    | cons s0 st =>
      refine ⟨s0, (st ++ [':']) ++ '/' :: '/' :: (netloc ++ (path ++
        ((if q ≠ [] then '?' :: q else []) ++ fpart))), ?_, ?_⟩
      · rw [if_pos (by simp)]
        rfl
      · have hv : validSchemeName (s0 :: st) = true := by
          rcases hs with h0 | ⟨hv, -⟩
          · rw [hsc] at h0; cases h0
          · rw [← hsc]; exact hv
        rw [show validSchemeName (s0 :: st) = (isAsciiAlpha s0 && st.all isSchemeChar)
            from rfl, Bool.and_eq_true] at hv
        have hsch : isSchemeChar s0 = true := by
          unfold isSchemeChar
          rw [hv.1]
          rfl
        exact (schemeChar_props hsch).2.1
  unfold urlsplitE
  dsimp only
  obtain ⟨c0, t0, hst, hgt⟩ := hstart
  have hCSeq : ((String.mk ((if scheme ≠ [] then scheme ++ [':'] else []) ++
      ('/' :: '/' :: (netloc ++ (path ++
        ((if q ≠ [] then '?' :: q else []) ++ fpart)))))).data.dropWhile
          (fun c => c.toNat ≤ 0x20)).filter (fun c => !badWsChar c)
      = ((if scheme ≠ [] then scheme ++ [':'] else []) ++
      ('/' :: '/' :: (netloc ++ (path ++
        ((if q ≠ [] then '?' :: q else []) ++ fpart))))) := by
    show (((if scheme ≠ [] then scheme ++ [':'] else []) ++
      ('/' :: '/' :: (netloc ++ (path ++
        ((if q ≠ [] then '?' :: q else []) ++ fpart))))).dropWhile
          (fun c => c.toNat ≤ 0x20)).filter (fun c => !badWsChar c) = _
    rw [hst, List.dropWhile_cons, if_neg (by
      simp only [decide_eq_true_eq]
      omega), ← hst]
    exact List.filter_eq_self.mpr (fun a ha => by rw [hchars a ha]; rfl)
  rw [hCSeq]
  have hsplit : splitSchemeF ((if scheme ≠ [] then scheme ++ [':'] else []) ++
      ('/' :: '/' :: (netloc ++ (path ++
        ((if q ≠ [] then '?' :: q else []) ++ fpart)))))
      = (scheme, '/' :: '/' :: (netloc ++ (path ++
          ((if q ≠ [] then '?' :: q else []) ++ fpart)))) := by
    cases hsc : scheme with
    | nil =>
      rw [if_neg (by simp), List.nil_append]
      exact splitSchemeF_slash _
    | cons s0 st =>
      rcases hs with h0 | ⟨hv, hl⟩
      · rw [hsc] at h0; cases h0
      · rw [hsc] at hv hl
        rw [if_pos (by simp), List.append_assoc, List.singleton_append]
        exact splitSchemeF_reparse (s0 :: st) _ hv hl
  rw [hsplit]
  dsimp only
  rw [if_pos (show ('/' :: '/' :: (netloc ++ (path ++
      ((if q ≠ [] then '?' :: q else []) ++ fpart)))).take 2 = ['/', '/'] from rfl)]
  have hTAIL : ∀ c t, (path ++ ((if q ≠ [] then '?' :: q else []) ++ fpart)) = c :: t →
      (!netlocDelim c) = false := by
    intro c t hct
    rcases hp0 with hpe | hp1
    · rw [hpe, List.nil_append] at hct
      by_cases hqq : q ≠ []
      · rw [if_pos hqq, List.cons_append] at hct
        injection hct with h1 h2
        subst h1
        decide
      · rw [if_neg hqq, List.nil_append] at hct
        rcases hfp with hfp1 | ⟨hfp1, -⟩
        · rw [hfp1] at hct
          injection hct with h1 h2
          subst h1
          decide
        · rw [hfp1] at hct
          cases hct
    · cases hpc : path with
      | nil => rw [hpc] at hp1; cases hp1
      | cons p0 pt =>
        rw [hpc] at hp1
        have hp0' : p0 = '/' := by
          have h' : [p0] = ['/'] := hp1
          exact (List.cons.inj h').1
        rw [hpc, List.cons_append] at hct
        injection hct with h1 h2
        subst h1
        rw [hp0']
        decide
  have htdw := takeWhile_dropWhile_app (fun c => !netlocDelim c) netloc
    (path ++ ((if q ≠ [] then '?' :: q else []) ++ fpart))
    (fun x hx => by show (!netlocDelim x) = true; rw [(hn x hx).1]; rfl) hTAIL
  dsimp only
  rw [show (('/' :: '/' :: (netloc ++ (path ++
      ((if q ≠ [] then '?' :: q else []) ++ fpart)))).drop 2)
      = netloc ++ (path ++ ((if q ≠ [] then '?' :: q else []) ++ fpart)) from rfl,
    htdw.1, htdw.2]
  have hbrf : (netloc.contains '[' != netloc.contains ']') = false := by
    rw [hbr]
    exact bne_self_eq_false _
  rw [if_neg (by rw [hbrf]; exact Bool.false_ne_true)]
  have hnosharp : ∀ x ∈ path ++ (if q ≠ [] then '?' :: q else []),
      (x == '#') = false := by
    intro x hx
    rcases List.mem_append.mp hx with hx | hx
    · exact (hp x hx).2.1
    · by_cases hqq : q ≠ []
      · rw [if_pos hqq] at hx
        rcases List.mem_cons.mp hx with rfl | hx
        · decide
        · exact (hq x hx).1
      · rw [if_neg hqq] at hx
        cases hx
  have hnoq : ∀ x ∈ path, (x == '?') = false := fun x hx => (hp x hx).1
  rcases hfp with hfp1 | ⟨hfp1, hf2⟩
  · subst hfp1
    rw [show path ++ ((if q ≠ [] then '?' :: q else []) ++ '#' :: f2)
        = (path ++ (if q ≠ [] then '?' :: q else [])) ++ '#' :: f2 from
      (List.append_assoc _ _ _).symm]
    rw [breakAt_append _ '#' f2 hnosharp rfl]
    dsimp only
    by_cases hqq : q ≠ []
    · rw [if_pos hqq, breakAt_append path '?' q hnoq rfl]
    · rw [if_neg hqq, List.append_nil, breakAt_none hnoq]
      rw [not_not] at hqq
      rw [hqq]
  · subst hfp1
    subst hf2
    rw [List.append_nil]
    by_cases hqq : q ≠ []
    · rw [if_pos hqq]
      have hbn : breakAt (fun c => c == '#') (path ++ '?' :: q) = none :=
        breakAt_none (by
          intro x hx
          exact hnosharp x (by
            rw [if_pos hqq]
            exact hx))
      rw [hbn]
      dsimp only
      rw [breakAt_append path '?' q hnoq rfl]
    · rw [if_neg hqq, List.append_nil, breakAt_none (fun x hx => (hp x hx).2.1)]
      dsimp only
      rw [breakAt_none hnoq]
      rw [not_not] at hqq
      rw [hqq]

theorem netlocDelim_false {c : Char} (h : netlocDelim c = false) :
    (c == '/') = false ∧ (c == '?') = false ∧ (c == '#') = false := by
  unfold netlocDelim at h
  rcases Bool.or_eq_false_iff.mp h with ⟨h12, h3⟩
  rcases Bool.or_eq_false_iff.mp h12 with ⟨h1, h2⟩
  exact ⟨h1, h2, h3⟩

theorem urlunsplitL_netloc (scheme netloc path q f : List Char)
    (hnn : netloc ≠ []) (hp0 : path = [] ∨ path.take 1 = ['/']) :
    urlunsplitL scheme netloc path q f
      = (if scheme ≠ [] then scheme ++ [':'] else []) ++
        ('/' :: '/' :: (netloc ++ (path ++
          ((if q ≠ [] then '?' :: q else []) ++
            (if f ≠ [] then '#' :: f else []))))) := by
  unfold urlunsplitL
  dsimp only
  rw [if_pos (Or.inl hnn)]
  rw [if_neg (show ¬(path ≠ [] ∧ path.take 1 ≠ ['/']) from by
    rintro ⟨hne, hq1⟩
    rcases hp0 with hpe | hp1
    · exact hne hpe
    · exact hq1 hp1)]
  by_cases hsc : scheme ≠ []
  · rw [if_pos hsc, if_pos hsc]
    by_cases hqq : q ≠ []
    · rw [if_pos hqq, if_pos hqq]
      by_cases hff : f ≠ []
      · rw [if_pos hff, if_pos hff]
        simp [List.append_assoc]
      · rw [if_neg hff, if_neg hff]
        simp [List.append_assoc]
    · rw [if_neg hqq, if_neg hqq]
      by_cases hff : f ≠ []
      · rw [if_pos hff, if_pos hff]
        simp [List.append_assoc]
      · rw [if_neg hff, if_neg hff]
        simp [List.append_assoc]
  · rw [if_neg hsc, if_neg hsc]
    by_cases hqq : q ≠ []
    · rw [if_pos hqq, if_pos hqq]
      by_cases hff : f ≠ []
      · rw [if_pos hff, if_pos hff]
        simp [List.append_assoc]
      · rw [if_neg hff, if_neg hff]
        simp [List.append_assoc]
    · rw [if_neg hqq, if_neg hqq]
      by_cases hff : f ≠ []
      · rw [if_pos hff, if_pos hff]
        simp [List.append_assoc]
      · rw [if_neg hff, if_neg hff]
        simp [List.append_assoc]

set_option maxHeartbeats 2000000 in
theorem clean_url_master {url : String} {p : ParseResult} (hp : urlparseE url = .ok p)
    (hnn : p.netloc ≠ []) :
    urlparseE (clean_url url) = .ok ⟨p.scheme, p.netloc, p.path, p.params,
      cleanedQuery p.query, stripFragment p.fragment⟩ ∧
    clean_url url = String.mk
      ((if p.scheme ≠ [] then p.scheme ++ [':'] else []) ++
        ('/' :: '/' :: (p.netloc ++
          ((if p.params ≠ [] then p.path ++ ';' :: p.params else p.path) ++
            ((if cleanedQuery p.query ≠ [] then '?' :: cleanedQuery p.query else []) ++
              (if p.fragment ≠ [] then '#' :: stripFragment p.fragment else [])))))) := by
  have hparse := hp
  unfold urlparseE at hp
  cases hsp : urlsplitE url with
  | error e => rw [hsp] at hp; cases hp
  | ok r =>
    rw [hsp] at hp
    dsimp only at hp
    injection hp with hp2
    subst hp2
    obtain ⟨inv1, inv2, inv3, inv4, inv5, inv6, -⟩ := urlsplitE_inv hsp
    have hnn' : r.netloc ≠ [] := hnn
    obtain ⟨m1, m2, m3, m4⟩ := splitParams_spec r.path (splitParams r.path).1
      (splitParams r.path).2 rfl
    have hpath0 : ∃ path0 : List Char,
        (if (splitParams r.path).2 ≠ []
          then (splitParams r.path).1 ++ ';' :: (splitParams r.path).2
          else (splitParams r.path).1) = path0 ∧
        (∀ c ∈ path0, (c == '?') = false ∧ (c == '#') = false ∧ badWsChar c = false) ∧
        (path0 = [] ∨ path0.take 1 = ['/']) ∧
        splitParams path0 = ((splitParams r.path).1, (splitParams r.path).2) := by
      by_cases h2 : (splitParams r.path).2 = []
      · refine ⟨(splitParams r.path).1, if_neg (fun hh => hh h2), ?_, ?_, ?_⟩
        · intro c hc
          exact inv4 c (m1 c hc)
        · cases hq1 : (splitParams r.path).1 with
          | nil => exact Or.inl rfl
          | cons c t =>
            obtain ⟨t2, hrp⟩ := m4 c t hq1
            rcases inv6 hnn' with hpe | hp1
            · rw [hpe] at hrp; cases hrp
            · right
              rw [hrp] at hp1
              have hc : c = '/' := (List.cons.inj (show [c] = ['/'] from hp1)).1
              rw [hc]
              rfl
        · rw [m2 h2, h2]
      · refine ⟨r.path, ?_, inv4, inv6 hnn', ?_⟩
        · rw [if_pos h2]
          exact m3 h2
        · rfl
    obtain ⟨path0, hp0eq, Fc, Fh, Fs⟩ := hpath0
    unfold clean_url
    rw [hparse]
    dsimp only
    rw [show cleanedQuery r.query
        = urlencodeSeq ((parseQs r.query).filter keepParam) from rfl]
    unfold urlunparseL
    dsimp only
    rw [hp0eq]
    rw [urlunsplitL_netloc r.scheme r.netloc path0 _ r.fragment hnn' Fh]
    have hQc : ∀ c ∈ urlencodeSeq ((parseQs r.query).filter keepParam),
        badWsChar c = false ∧ ((c == '#') = false) ∧ ((c == '?') = false) :=
      cleanedQuery_chars r.query
    have happ : ∀ (fpart f2 : List Char), (fpart = '#' :: f2 ∨ (fpart = [] ∧ f2 = [])) →
        (∀ c ∈ f2, badWsChar c = false) →
        urlsplitE (String.mk ((if r.scheme ≠ [] then r.scheme ++ [':'] else []) ++
          ('/' :: '/' :: (r.netloc ++ (path0 ++
            ((if urlencodeSeq ((parseQs r.query).filter keepParam) ≠ []
              then '?' :: urlencodeSeq ((parseQs r.query).filter keepParam) else [])
              ++ fpart))))))
          = .ok ⟨r.scheme, r.netloc, path0,
              urlencodeSeq ((parseQs r.query).filter keepParam), f2⟩ :=
      fun fpart f2 hfp hf2 => urlsplitE_assembled r.scheme r.netloc path0 _ f2 fpart
        inv1 inv2 inv3 Fc Fh (fun c hc => ⟨(hQc c hc).2.1, (hQc c hc).1⟩) hf2 hfp
    have hwrap : ∀ (fpart f2 : List Char), (fpart = '#' :: f2 ∨ (fpart = [] ∧ f2 = [])) →
        (∀ c ∈ f2, badWsChar c = false) →
        urlparseE (String.mk ((if r.scheme ≠ [] then r.scheme ++ [':'] else []) ++
          ('/' :: '/' :: (r.netloc ++ (path0 ++
            ((if urlencodeSeq ((parseQs r.query).filter keepParam) ≠ []
              then '?' :: urlencodeSeq ((parseQs r.query).filter keepParam) else [])
              ++ fpart))))))
          = .ok ⟨r.scheme, r.netloc, (splitParams r.path).1, (splitParams r.path).2,
              urlencodeSeq ((parseQs r.query).filter keepParam), f2⟩ := by
      intro fpart f2 hfp hf2
      unfold urlparseE
      rw [happ fpart f2 hfp hf2]
      dsimp only
      rw [Fs]
    by_cases hfe : r.fragment = []
    · rw [show (if r.fragment ≠ [] then '#' :: r.fragment else []) = ([] : List Char) from
        if_neg (fun hh => hh hfe)]
      have hlast : ¬ (((if r.scheme ≠ [] then r.scheme ++ [':'] else []) ++
          ('/' :: '/' :: (r.netloc ++ (path0 ++
            ((if urlencodeSeq ((parseQs r.query).filter keepParam) ≠ []
              then '?' :: urlencodeSeq ((parseQs r.query).filter keepParam) else [])
              ++ []))))).getLast? = some '?') := by
        by_cases hqe : urlencodeSeq ((parseQs r.query).filter keepParam) = []
        · rw [show (if urlencodeSeq ((parseQs r.query).filter keepParam) ≠ []
              then '?' :: urlencodeSeq ((parseQs r.query).filter keepParam) else [])
              = ([] : List Char) from if_neg (fun hh => hh hqe)]
          have hform : ((if r.scheme ≠ [] then r.scheme ++ [':'] else []) ++
              ('/' :: '/' :: (r.netloc ++ (path0 ++ (([] : List Char) ++ [])))))
              = ((if r.scheme ≠ [] then r.scheme ++ [':'] else []) ++ ['/', '/'])
                ++ (r.netloc ++ path0) := by
            simp [List.append_assoc]
          rw [hform, List.getLast?_append_of_ne_nil _ (by
            intro hx
            exact hnn' (List.append_eq_nil.mp hx).1)]
          intro heq
          have hm := getLast?_mem_list heq
          rcases List.mem_append.mp hm with hm | hm
          · exact absurd (inv2 '?' hm).1 (by decide)
          · exact absurd (Fc '?' hm).1 (by decide)
        · rw [show (if urlencodeSeq ((parseQs r.query).filter keepParam) ≠ []
              then '?' :: urlencodeSeq ((parseQs r.query).filter keepParam) else [])
              = '?' :: urlencodeSeq ((parseQs r.query).filter keepParam) from if_pos hqe]
          have hform : ((if r.scheme ≠ [] then r.scheme ++ [':'] else []) ++
              ('/' :: '/' :: (r.netloc ++ (path0 ++
                (('?' :: urlencodeSeq ((parseQs r.query).filter keepParam)) ++ [])))))
              = ((if r.scheme ≠ [] then r.scheme ++ [':'] else []) ++
                  ('/' :: '/' :: (r.netloc ++ (path0 ++ ['?']))))
                ++ urlencodeSeq ((parseQs r.query).filter keepParam) := by
            simp [List.append_assoc]
          rw [hform, List.getLast?_append_of_ne_nil _ hqe]
          intro heq
          exact absurd (hQc '?' (getLast?_mem_list heq)).2.2 (by decide)
      rw [if_neg hlast]
      constructor
      · rw [hwrap [] [] (Or.inr ⟨rfl, rfl⟩) (fun c hc => by cases hc)]
        rw [hfe]
        rfl
      · rw [hfe]
        rfl
    · rw [show (if r.fragment ≠ [] then '#' :: r.fragment else []) = '#' :: r.fragment from
        if_pos hfe]
      have hform : ((if r.scheme ≠ [] then r.scheme ++ [':'] else []) ++
          ('/' :: '/' :: (r.netloc ++ (path0 ++
            ((if urlencodeSeq ((parseQs r.query).filter keepParam) ≠ []
              then '?' :: urlencodeSeq ((parseQs r.query).filter keepParam) else [])
              ++ '#' :: r.fragment)))))
          = ((if r.scheme ≠ [] then r.scheme ++ [':'] else []) ++
              ('/' :: '/' :: (r.netloc ++ (path0 ++
                (if urlencodeSeq ((parseQs r.query).filter keepParam) ≠ []
                  then '?' :: urlencodeSeq ((parseQs r.query).filter keepParam) else [])))))
            ++ '#' :: r.fragment := by
        simp [List.append_assoc]
      rw [hform]
      have hlast2 : ((((if r.scheme ≠ [] then r.scheme ++ [':'] else []) ++
          ('/' :: '/' :: (r.netloc ++ (path0 ++
            (if urlencodeSeq ((parseQs r.query).filter keepParam) ≠ []
              then '?' :: urlencodeSeq ((parseQs r.query).filter keepParam) else [])))))
            ++ '#' :: r.fragment).getLast?) = r.fragment.getLast? := by
        rw [show ('#' :: r.fragment : List Char) = ['#'] ++ r.fragment from rfl,
          ← List.append_assoc]
        exact List.getLast?_append_of_ne_nil _ hfe
      rw [hlast2]
      by_cases hfl : r.fragment.getLast? = some '?'
      · rw [if_pos hfl]
        have hdrop : ((((if r.scheme ≠ [] then r.scheme ++ [':'] else []) ++
            ('/' :: '/' :: (r.netloc ++ (path0 ++
              (if urlencodeSeq ((parseQs r.query).filter keepParam) ≠ []
                then '?' :: urlencodeSeq ((parseQs r.query).filter keepParam) else [])))))
              ++ '#' :: r.fragment).dropLast)
            = ((if r.scheme ≠ [] then r.scheme ++ [':'] else []) ++
              ('/' :: '/' :: (r.netloc ++ (path0 ++
                ((if urlencodeSeq ((parseQs r.query).filter keepParam) ≠ []
                  then '?' :: urlencodeSeq ((parseQs r.query).filter keepParam) else [])
                  ++ '#' :: r.fragment.dropLast))))) := by
          rw [List.dropLast_append_of_ne_nil _ (List.cons_ne_nil '#' r.fragment)]
          rw [show ('#' :: r.fragment : List Char) = ['#'] ++ r.fragment from rfl,
            List.dropLast_append_of_ne_nil _ hfe]
          simp [List.append_assoc]
        rw [hdrop]
        constructor
        · rw [hwrap ('#' :: r.fragment.dropLast) r.fragment.dropLast (Or.inl rfl)
            (fun c hc => inv5 c ((List.dropLast_sublist _).mem hc))]
          rw [show stripFragment r.fragment = r.fragment.dropLast from by
            unfold stripFragment
            rw [if_pos hfl]]
        · rw [show (if r.fragment ≠ [] then '#' :: stripFragment r.fragment else [])
              = '#' :: r.fragment.dropLast from by
            rw [if_pos hfe]
            rw [show stripFragment r.fragment = r.fragment.dropLast from by
              unfold stripFragment
              rw [if_pos hfl]]]
      · rw [if_neg hfl]
        have hform3 : (((if r.scheme ≠ [] then r.scheme ++ [':'] else []) ++
            ('/' :: '/' :: (r.netloc ++ (path0 ++
              (if urlencodeSeq ((parseQs r.query).filter keepParam) ≠ []
                then '?' :: urlencodeSeq ((parseQs r.query).filter keepParam) else [])))))
              ++ '#' :: r.fragment)
            = ((if r.scheme ≠ [] then r.scheme ++ [':'] else []) ++
              ('/' :: '/' :: (r.netloc ++ (path0 ++
                ((if urlencodeSeq ((parseQs r.query).filter keepParam) ≠ []
                  then '?' :: urlencodeSeq ((parseQs r.query).filter keepParam) else [])
                  ++ '#' :: r.fragment))))) := by
          simp [List.append_assoc]
        rw [hform3]
        constructor
        · rw [hwrap ('#' :: r.fragment) r.fragment (Or.inl rfl) inv5]
          rw [show stripFragment r.fragment = r.fragment from by
            unfold stripFragment
            rw [if_neg hfl]]
        · rw [show (if r.fragment ≠ [] then '#' :: stripFragment r.fragment else [])
              = '#' :: r.fragment from by
            rw [if_pos hfe]
            rw [show stripFragment r.fragment = r.fragment from by
              unfold stripFragment
              rw [if_neg hfl]]]

theorem urlunsplitL_shape (scheme netloc path q f : List Char) :
    ∃ A, urlunsplitL scheme netloc path q f
        = A ++ ((if q ≠ [] then '?' :: q else []) ++ (if f ≠ [] then '#' :: f else []))
      ∧ (∀ c ∈ A, c ∈ scheme ∨ c = ':' ∨ c = '/' ∨ c ∈ netloc ∨ c ∈ path)
      ∧ (∀ c t, A = c :: t →
          (∃ st, scheme = c :: st) ∨ c = '/' ∨
            (scheme = [] ∧ netloc = [] ∧ ∃ t2, path = c :: t2)) := by
  unfold urlunsplitL
  dsimp only
  have key : ∀ u1 : List Char,
      (∀ c ∈ u1, c = '/' ∨ c ∈ netloc ∨ c ∈ path) →
      (∀ c t, u1 = c :: t → c = '/' ∨ (netloc = [] ∧ ∃ t2, path = c :: t2)) →
      ∃ A, (if f ≠ [] then
              (if q ≠ [] then (if scheme ≠ [] then scheme ++ ':' :: u1 else u1) ++ '?' :: q
                else (if scheme ≠ [] then scheme ++ ':' :: u1 else u1)) ++ '#' :: f
            else
              (if q ≠ [] then (if scheme ≠ [] then scheme ++ ':' :: u1 else u1) ++ '?' :: q
                else (if scheme ≠ [] then scheme ++ ':' :: u1 else u1)))
          = A ++ ((if q ≠ [] then '?' :: q else []) ++ (if f ≠ [] then '#' :: f else []))
        ∧ (∀ c ∈ A, c ∈ scheme ∨ c = ':' ∨ c = '/' ∨ c ∈ netloc ∨ c ∈ path)
        ∧ (∀ c t, A = c :: t →
            (∃ st, scheme = c :: st) ∨ c = '/' ∨
              (scheme = [] ∧ netloc = [] ∧ ∃ t2, path = c :: t2)) := by
    intro u1 hu1 hu1h
    refine ⟨(if scheme ≠ [] then scheme ++ ':' :: u1 else u1), ?_, ?_, ?_⟩
    · by_cases hqq : q ≠ []
      · rw [if_pos hqq, if_pos hqq]
        by_cases hff : f ≠ []
        · rw [if_pos hff, if_pos hff]
          simp [List.append_assoc]
        · rw [if_neg hff, if_neg hff]
          simp [List.append_assoc]
      · rw [if_neg hqq, if_neg hqq]
        by_cases hff : f ≠ []
        · rw [if_pos hff, if_pos hff]
          simp [List.append_assoc]
        · rw [if_neg hff, if_neg hff]
          simp [List.append_assoc]
    · intro c hc
      by_cases hsc : scheme ≠ []
      · rw [if_pos hsc] at hc
        rcases List.mem_append.mp hc with hc | hc
        · exact Or.inl hc
        · rcases List.mem_cons.mp hc with rfl | hc
          · exact Or.inr (Or.inl rfl)
          · rcases hu1 c hc with h | h | h
            · exact Or.inr (Or.inr (Or.inl h))
            · exact Or.inr (Or.inr (Or.inr (Or.inl h)))
            · exact Or.inr (Or.inr (Or.inr (Or.inr h)))
      · rw [if_neg hsc] at hc
        rcases hu1 c hc with h | h | h
        · exact Or.inr (Or.inr (Or.inl h))
        · exact Or.inr (Or.inr (Or.inr (Or.inl h)))
        · exact Or.inr (Or.inr (Or.inr (Or.inr h)))
    · intro c t hct
      by_cases hsc : scheme ≠ []
      · rw [if_pos hsc] at hct
        cases hscc : scheme with
        | nil => exact absurd hscc hsc
        | cons s0 st =>
          rw [hscc, List.cons_append] at hct
          injection hct with h1 h2
          subst h1
          exact Or.inl ⟨st, rfl⟩
      · rw [if_neg hsc] at hct
        rw [not_not] at hsc
        rcases hu1h c t hct with h | ⟨hn0, h⟩
        · exact Or.inr (Or.inl h)
        · exact Or.inr (Or.inr ⟨hsc, hn0, h⟩)
  by_cases hcond : netloc ≠ [] ∨ (scheme ≠ [] ∧
      (usesNetloc.map String.data).contains scheme ∧ path.take 2 ≠ ['/', '/'])
  · rw [if_pos hcond]
    by_cases hc2 : path ≠ [] ∧ path.take 1 ≠ ['/']
    · rw [if_pos hc2]
      apply key
      · intro c hc
        rcases List.mem_append.mp hc with hc | hc
        · rcases List.mem_cons.mp hc with rfl | hc
          · exact Or.inl rfl
          rcases List.mem_cons.mp hc with rfl | hc
          · exact Or.inl rfl
          · exact Or.inr (Or.inl hc)
        · rcases List.mem_cons.mp hc with rfl | hc
          · exact Or.inl rfl
          · exact Or.inr (Or.inr hc)
      · intro c t hct
        rw [List.cons_append] at hct
        injection hct with h1 h2
        subst h1
        exact Or.inl rfl
    · rw [if_neg hc2]
      apply key
      · intro c hc
        rcases List.mem_append.mp hc with hc | hc
        · rcases List.mem_cons.mp hc with rfl | hc
          · exact Or.inl rfl
          rcases List.mem_cons.mp hc with rfl | hc
          · exact Or.inl rfl
          · exact Or.inr (Or.inl hc)
        · exact Or.inr (Or.inr hc)
      · intro c t hct
        rw [List.cons_append] at hct
        injection hct with h1 h2
        subst h1
        exact Or.inl rfl
  · rw [if_neg hcond]
    apply key
    · intro c hc
      exact Or.inr (Or.inr hc)
    · intro c t hct
      exact Or.inr ⟨not_not.mp (not_or.mp hcond).1, t, hct⟩

theorem shape_last_ne (A q : List Char) (hA : ∀ c ∈ A, (c == '?') = false)
    (hq : ∀ c ∈ q, (c == '?') = false) :
    ¬ (A ++ ((if q ≠ [] then '?' :: q else []) ++ [])).getLast? = some '?' := by
  by_cases hqe : q = []
  · rw [if_neg (fun hh => hh hqe), List.nil_append, List.append_nil]
    intro heq
    exact absurd (hA '?' (getLast?_mem_list heq)) (by decide)
  · rw [if_pos hqe]
    rw [show A ++ (('?' :: q) ++ []) = (A ++ ['?']) ++ q from by simp [List.append_assoc]]
    rw [List.getLast?_append_of_ne_nil _ hqe]
    intro heq
    exact absurd (hq '?' (getLast?_mem_list heq)) (by decide)

theorem strip_shape (A q f2 fpart : List Char)
    (hA : ∀ c ∈ A, (c == '?') = false)
    (hq : ∀ c ∈ q, (c == '?') = false)
    (hfp : fpart = '#' :: f2 ∨ (fpart = [] ∧ f2 = [])) :
    ∃ fpart' f2', (fpart' = '#' :: f2' ∨ (fpart' = [] ∧ f2' = [])) ∧ (∀ c ∈ f2', c ∈ f2) ∧
      (if (A ++ ((if q ≠ [] then '?' :: q else []) ++ fpart)).getLast? = some '?'
        then (A ++ ((if q ≠ [] then '?' :: q else []) ++ fpart)).dropLast
        else (A ++ ((if q ≠ [] then '?' :: q else []) ++ fpart)))
      = A ++ ((if q ≠ [] then '?' :: q else []) ++ fpart') := by
  rcases hfp with hfp1 | ⟨hfp1, hf2⟩
  · subst hfp1
    cases hf2c : f2 with
    | nil =>
      refine ⟨['#'], [], Or.inl rfl, (fun c hc => by cases hc), ?_⟩
      rw [if_neg]
      rw [show A ++ ((if q ≠ [] then '?' :: q else []) ++ ['#'])
          = (A ++ (if q ≠ [] then '?' :: q else [])) ++ ['#'] from by
        simp [List.append_assoc]]
      rw [List.getLast?_append_of_ne_nil _ (by simp)]
      intro heq
      have := Option.some.inj heq
      cases this
    | cons g0 gt =>
      rw [← hf2c]
      by_cases hgl : ('#' :: f2).getLast? = some '?'
      · refine ⟨'#' :: f2.dropLast, f2.dropLast, Or.inl rfl,
          (fun c hc => (List.dropLast_sublist _).mem hc), ?_⟩
        rw [if_pos (by
          rw [show A ++ ((if q ≠ [] then '?' :: q else []) ++ '#' :: f2)
              = (A ++ (if q ≠ [] then '?' :: q else [])) ++ '#' :: f2 from by
            simp [List.append_assoc]]
          rw [List.getLast?_append_of_ne_nil _ (List.cons_ne_nil '#' f2)]
          exact hgl)]
        rw [show A ++ ((if q ≠ [] then '?' :: q else []) ++ '#' :: f2)
            = (A ++ (if q ≠ [] then '?' :: q else [])) ++ '#' :: f2 from by
          simp [List.append_assoc]]
        rw [List.dropLast_append_of_ne_nil _ (List.cons_ne_nil '#' f2)]
        rw [show ('#' :: f2 : List Char) = ['#'] ++ f2 from rfl,
          List.dropLast_append_of_ne_nil _ (by rw [hf2c]; simp)]
        simp [List.append_assoc]
      · refine ⟨'#' :: f2, f2, Or.inl rfl, (fun c hc => hc), ?_⟩
        rw [if_neg (by
          rw [show A ++ ((if q ≠ [] then '?' :: q else []) ++ '#' :: f2)
              = (A ++ (if q ≠ [] then '?' :: q else [])) ++ '#' :: f2 from by
            simp [List.append_assoc]]
          rw [List.getLast?_append_of_ne_nil _ (List.cons_ne_nil '#' f2)]
          exact hgl)]
  · subst hfp1
    subst hf2
    exact ⟨[], [], Or.inr ⟨rfl, rfl⟩, (fun c hc => hc),
      if_neg (shape_last_ne A q hA hq)⟩

theorem qf_exact (A4 q f2 fpart : List Char)
    (hA4 : ∀ c ∈ A4, (c == '?') = false ∧ (c == '#') = false)
    (hq : ∀ c ∈ q, (c == '#') = false)
    (hfp : fpart = '#' :: f2 ∨ (fpart = [] ∧ f2 = [])) :
    ((match breakAt (fun c => c == '#')
        (A4 ++ ((if q ≠ [] then '?' :: q else []) ++ fpart)) with
      | some (a, b) => (a, b)
      | none => (A4 ++ ((if q ≠ [] then '?' :: q else []) ++ fpart), []))
      = (A4 ++ (if q ≠ [] then '?' :: q else []), f2))
    ∧ ((match breakAt (fun c => c == '?') (A4 ++ (if q ≠ [] then '?' :: q else [])) with
        | some (a, b) => (a, b)
        | none => (A4 ++ (if q ≠ [] then '?' :: q else []), [])) = (A4, q)) := by
  have hnosharp : ∀ x ∈ A4 ++ (if q ≠ [] then '?' :: q else []), (x == '#') = false := by
    intro x hx
    rcases List.mem_append.mp hx with hx | hx
    · exact (hA4 x hx).2
    · by_cases hqq : q ≠ []
      · rw [if_pos hqq] at hx
        rcases List.mem_cons.mp hx with rfl | hx
        · decide
        · exact hq x hx
      · rw [if_neg hqq] at hx
        cases hx
  have hnoq : ∀ x ∈ A4, (x == '?') = false := fun x hx => (hA4 x hx).1
  constructor
  · rcases hfp with hfp1 | ⟨hfp1, hf2⟩
    · subst hfp1
      rw [show A4 ++ ((if q ≠ [] then '?' :: q else []) ++ '#' :: f2)
          = (A4 ++ (if q ≠ [] then '?' :: q else [])) ++ '#' :: f2 from
        (List.append_assoc _ _ _).symm]
      rw [breakAt_append _ '#' f2 hnosharp rfl]
    · subst hfp1
      subst hf2
      rw [List.append_nil]
      rw [breakAt_none hnosharp]
  · by_cases hqq : q ≠ []
    · rw [if_pos hqq, breakAt_append A4 '?' q hnoq rfl]
    · rw [if_neg hqq, List.append_nil, breakAt_none hnoq]
      rw [not_not] at hqq
      rw [hqq]

theorem urlsplitE_shape (A q f2 fpart : List Char) {r' : SplitResult}
    (hA : ∀ c ∈ A, (c == '?') = false ∧ (c == '#') = false)
    (hws : ∀ c ∈ A ++ ((if q ≠ [] then '?' :: q else []) ++ fpart), badWsChar c = false)
    (hhead : ∀ c t, A = c :: t → 0x20 < c.toNat)
    (hq : ∀ c ∈ q, (c == '#') = false)
    (hfp : fpart = '#' :: f2 ∨ (fpart = [] ∧ f2 = []))
    (h : urlsplitE (String.mk
        (A ++ ((if q ≠ [] then '?' :: q else []) ++ fpart))) = .ok r') :
    r'.query = q ∧ r'.fragment = f2 := by
  have hQhead : ∀ c t, ((if q ≠ [] then '?' :: q else []) ++ fpart) = c :: t →
      (c = '?' ∨ c = '#') := by
    intro c t hct
    by_cases hqq : q ≠ []
    · rw [if_pos hqq, List.cons_append] at hct
      injection hct with h1 h2
      subst h1
      exact Or.inl rfl
    · rw [if_neg hqq, List.nil_append] at hct
      rcases hfp with hfp1 | ⟨hfp1, -⟩
      · rw [hfp1] at hct
        injection hct with h1 h2
        subst h1
        exact Or.inr rfl
      · rw [hfp1] at hct
        cases hct
  have hheadS : ∀ c t, (A ++ ((if q ≠ [] then '?' :: q else []) ++ fpart)) = c :: t →
      0x20 < c.toNat := by
    intro c t hct
    cases hAc : A with
    | nil =>
      rw [hAc, List.nil_append] at hct
      rcases hQhead c t hct with rfl | rfl
      · decide
      · decide
    | cons a0 at0 =>
      rw [hAc, List.cons_append] at hct
      injection hct with h1 h2
      subst h1
      exact hhead a0 at0 hAc
  unfold urlsplitE at h
  dsimp only at h
  rw [show ((String.mk (A ++ ((if q ≠ [] then '?' :: q else []) ++ fpart))).data.dropWhile
        (fun c => c.toNat ≤ 0x20)).filter (fun c => !badWsChar c)
      = A ++ ((if q ≠ [] then '?' :: q else []) ++ fpart) from by
    show ((A ++ ((if q ≠ [] then '?' :: q else []) ++ fpart)).dropWhile
        (fun c => c.toNat ≤ 0x20)).filter (fun c => !badWsChar c) = _
    cases hSc : A ++ ((if q ≠ [] then '?' :: q else []) ++ fpart) with
    | nil => rfl
    | cons c0 t0 =>
      rw [← hSc]
      rw [show (A ++ ((if q ≠ [] then '?' :: q else []) ++ fpart)).dropWhile
          (fun c => c.toNat ≤ 0x20) = A ++ ((if q ≠ [] then '?' :: q else []) ++ fpart) from by
        rw [hSc, List.dropWhile_cons, if_neg (by
          simp only [decide_eq_true_eq]
          have := hheadS c0 t0 hSc
          omega)]]
      exact List.filter_eq_self.mpr (fun a ha => by rw [hws a ha]; rfl)] at h
  obtain ⟨A2, hA2chars, hA2eq⟩ := splitSchemeF_shape A
    ((if q ≠ [] then '?' :: q else []) ++ fpart) hA hQhead
  rw [hA2eq] at h
  by_cases htake : (A2 ++ ((if q ≠ [] then '?' :: q else []) ++ fpart)).take 2 = ['/', '/']
  · rw [if_pos htake] at h
    dsimp only at h
    cases hA2c : A2 with
    | nil =>
      exfalso
      rw [hA2c, List.nil_append] at htake
      cases hQc : (if q ≠ [] then '?' :: q else []) ++ fpart with
      | nil => rw [hQc] at htake; cases htake
      | cons c t =>
        rw [hQc] at htake
        have hc := (List.cons.inj htake).1
        subst hc
        rcases hQhead '/' t hQc with hh | hh <;> cases hh
    | cons a0 a2t =>
      cases hA2c2 : a2t with
      | nil =>
        exfalso
        rw [hA2c, hA2c2] at htake
        rw [show ([a0] ++ ((if q ≠ [] then '?' :: q else []) ++ fpart)).take 2
            = a0 :: ((if q ≠ [] then '?' :: q else []) ++ fpart).take 1 from rfl] at htake
        have ht2 := (List.cons.inj htake).2
        cases hQc : (if q ≠ [] then '?' :: q else []) ++ fpart with
        | nil => rw [hQc] at ht2; cases ht2
        | cons c t =>
          rw [hQc] at ht2
          have hc := (List.cons.inj ht2).1
          subst hc
          rcases hQhead '/' t hQc with hh | hh <;> cases hh
      | cons b0 t =>
        rw [hA2c, hA2c2] at h
        rw [show ((a0 :: b0 :: t) ++ ((if q ≠ [] then '?' :: q else []) ++ fpart)).drop 2
            = t ++ ((if q ≠ [] then '?' :: q else []) ++ fpart) from rfl] at h
        obtain ⟨a1, a2, hsplit12, htw, hdw, ha1, ha2h⟩ :=
          takeWhile_dropWhile_split (fun c => !netlocDelim c) t
            ((if q ≠ [] then '?' :: q else []) ++ fpart)
            (by
              intro c t' hct
              rcases hQhead c t' hct with rfl | rfl
              · decide
              · decide)
        rw [htw, hdw] at h
        by_cases hbr : ((a1.contains '[') != (a1.contains ']')) = true
        · rw [if_pos hbr] at h
          cases h
        · rw [if_neg hbr] at h
          have ha2chars : ∀ c ∈ a2, (c == '?') = false ∧ (c == '#') = false := by
            intro c hc
            apply hA2chars
            rw [hA2c, hA2c2, hsplit12]
            exact List.mem_cons_of_mem _ (List.mem_cons_of_mem _
              (List.mem_append.mpr (Or.inr hc)))
          obtain ⟨hfr, hqr⟩ := qf_exact a2 q f2 fpart ha2chars hq hfp
          rw [hfr] at h
          dsimp only at h
          rw [hqr] at h
          dsimp only at h
          injection h with h2
          rw [← h2]
          exact ⟨rfl, rfl⟩
  · rw [if_neg htake] at h
    dsimp only at h
    rw [if_neg (by decide)] at h
    obtain ⟨hfr, hqr⟩ := qf_exact A2 q f2 fpart hA2chars hq hfp
    rw [hfr] at h
    dsimp only at h
    rw [hqr] at h
    dsimp only at h
    injection h with h2
    rw [← h2]
    exact ⟨rfl, rfl⟩

set_option maxHeartbeats 2000000 in
theorem clean_url_query_keys (url : String) (p' : ParseResult)
    (h : urlparseE (clean_url url) = .ok p') :
    ∀ kv ∈ parseQsl p'.query,
      ¬ (removeParams.map String.data).contains (kv.1.map Char.toLower) = true := by
  cases hu : urlparseE url with
  | error e =>
    have hcu : clean_url url = url := by
      unfold clean_url
      rw [hu]
    rw [hcu, hu] at h
    cases h
  | ok p =>
    have hu2 := hu
    unfold urlparseE at hu2
    cases hsp : urlsplitE url with
    | error e => rw [hsp] at hu2; cases hu2
    | ok r =>
      rw [hsp] at hu2
      dsimp only at hu2
      injection hu2 with hp2
      subst hp2
      obtain ⟨inv1, inv2, inv3, inv4, inv5, inv6, inv7⟩ := urlsplitE_inv hsp
      obtain ⟨m1, m2, m3, m4⟩ := splitParams_spec r.path (splitParams r.path).1
        (splitParams r.path).2 rfl
      have hPATH0c : ∀ c ∈ (if (splitParams r.path).2 ≠ []
            then (splitParams r.path).1 ++ ';' :: (splitParams r.path).2
            else (splitParams r.path).1),
          (c == '?') = false ∧ (c == '#') = false ∧ badWsChar c = false := by
        by_cases h2 : (splitParams r.path).2 = []
        · rw [if_neg (fun hh => hh h2)]
          intro c hc
          exact inv4 c (m1 c hc)
        · rw [if_pos h2, m3 h2]
          exact inv4
      have hPATH0h : ∀ c t, (if (splitParams r.path).2 ≠ []
            then (splitParams r.path).1 ++ ';' :: (splitParams r.path).2
            else (splitParams r.path).1) = c :: t → ∃ t2, r.path = c :: t2 := by
        by_cases h2 : (splitParams r.path).2 = []
        · rw [if_neg (fun hh => hh h2)]
          exact m4
        · rw [if_pos h2, m3 h2]
          intro c t hct
          exact ⟨t, hct⟩
      have hQc : ∀ c ∈ urlencodeSeq ((parseQs r.query).filter keepParam),
          badWsChar c = false ∧ ((c == '#') = false) ∧ ((c == '?') = false) :=
        cleanedQuery_chars r.query
      unfold clean_url at h
      rw [hu] at h
      dsimp only at h
      unfold urlunparseL at h
      dsimp only at h
      obtain ⟨A, hAeq, hAmem, hAhead⟩ := urlunsplitL_shape r.scheme r.netloc
        (if (splitParams r.path).2 ≠ []
          then (splitParams r.path).1 ++ ';' :: (splitParams r.path).2
          else (splitParams r.path).1)
        (urlencodeSeq ((parseQs r.query).filter keepParam)) r.fragment
      rw [hAeq] at h
      have hAprops : ∀ c ∈ A, ((c == '?') = false ∧ (c == '#') = false) ∧
          badWsChar c = false := by
        intro c hc
        rcases hAmem c hc with hsch | rfl | rfl | hnet | hpath
        · rcases inv1 with h0 | ⟨hv, -⟩
          · rw [h0] at hsch; cases hsch
          · have hpr := schemeChar_props (validSchemeName_all hv c hsch)
            exact ⟨⟨hpr.2.2.2.1, hpr.2.2.2.2.1⟩, hpr.1⟩
        · exact ⟨⟨by decide, by decide⟩, by decide⟩
        · exact ⟨⟨by decide, by decide⟩, by decide⟩
        · obtain ⟨hnd, hw⟩ := inv2 c hnet
          obtain ⟨-, h2, h3⟩ := netlocDelim_false hnd
          exact ⟨⟨h2, h3⟩, hw⟩
        · obtain ⟨h1, h2, h3⟩ := hPATH0c c hpath
          exact ⟨⟨h1, h2⟩, h3⟩
      have hheadA : ∀ c t, A = c :: t → 0x20 < c.toNat := by
        intro c t hct
        rcases hAhead c t hct with ⟨st, hs⟩ | rfl | ⟨hs0, hn0, t2, hpth⟩
        · rcases inv1 with h0 | ⟨hv, -⟩
          · rw [h0] at hs; cases hs
          · rw [hs] at hv
            rw [show validSchemeName (c :: st) = (isAsciiAlpha c && st.all isSchemeChar)
                from rfl, Bool.and_eq_true] at hv
            have hsch : isSchemeChar c = true := by
              unfold isSchemeChar
              rw [hv.1]
              rfl
            exact (schemeChar_props hsch).2.1
        · decide
        · obtain ⟨t3, hrp⟩ := hPATH0h c t2 hpth
          exact inv7 hs0 hn0 c t3 hrp
      have hmain : ∀ (fpart0 f20 : List Char),
          (fpart0 = '#' :: f20 ∨ (fpart0 = [] ∧ f20 = [])) →
          (∀ c ∈ f20, badWsChar c = false) →
          urlparseE (if (A ++ ((if urlencodeSeq ((parseQs r.query).filter keepParam) ≠ []
                then '?' :: urlencodeSeq ((parseQs r.query).filter keepParam) else [])
                ++ fpart0)).getLast? = some '?'
            then String.mk (A ++ ((if urlencodeSeq ((parseQs r.query).filter keepParam) ≠ []
                then '?' :: urlencodeSeq ((parseQs r.query).filter keepParam) else [])
                ++ fpart0)).dropLast
            else String.mk (A ++ ((if urlencodeSeq ((parseQs r.query).filter keepParam) ≠ []
                then '?' :: urlencodeSeq ((parseQs r.query).filter keepParam) else [])
                ++ fpart0))) = .ok p' →
          ∀ kv ∈ parseQsl p'.query,
            ¬ (removeParams.map String.data).contains (kv.1.map Char.toLower) = true := by
        intro fpart0 f20 hfp hf20 hh
        obtain ⟨fpart', f2', hfp', hf2mem, hstripeq⟩ := strip_shape A
          (urlencodeSeq ((parseQs r.query).filter keepParam)) f20 fpart0
          (fun c hc => ((hAprops c hc).1).1) (fun c hc => (hQc c hc).2.2) hfp
        rw [show (if (A ++ ((if urlencodeSeq ((parseQs r.query).filter keepParam) ≠ []
              then '?' :: urlencodeSeq ((parseQs r.query).filter keepParam) else [])
              ++ fpart0)).getLast? = some '?'
            then String.mk (A ++ ((if urlencodeSeq ((parseQs r.query).filter keepParam) ≠ []
              then '?' :: urlencodeSeq ((parseQs r.query).filter keepParam) else [])
              ++ fpart0)).dropLast
            else String.mk (A ++ ((if urlencodeSeq ((parseQs r.query).filter keepParam) ≠ []
              then '?' :: urlencodeSeq ((parseQs r.query).filter keepParam) else [])
              ++ fpart0)))
            = String.mk (if (A ++ ((if urlencodeSeq ((parseQs r.query).filter keepParam) ≠ []
              then '?' :: urlencodeSeq ((parseQs r.query).filter keepParam) else [])
              ++ fpart0)).getLast? = some '?'
            then (A ++ ((if urlencodeSeq ((parseQs r.query).filter keepParam) ≠ []
              then '?' :: urlencodeSeq ((parseQs r.query).filter keepParam) else [])
              ++ fpart0)).dropLast
            else (A ++ ((if urlencodeSeq ((parseQs r.query).filter keepParam) ≠ []
              then '?' :: urlencodeSeq ((parseQs r.query).filter keepParam) else [])
              ++ fpart0))) from (apply_ite String.mk _ _ _).symm] at hh
        rw [hstripeq] at hh
        have hws : ∀ c ∈ A ++ ((if urlencodeSeq ((parseQs r.query).filter keepParam) ≠ []
            then '?' :: urlencodeSeq ((parseQs r.query).filter keepParam) else [])
            ++ fpart'), badWsChar c = false := by
          intro c hc
          rcases List.mem_append.mp hc with hc | hc
          · exact (hAprops c hc).2
          rcases List.mem_append.mp hc with hc | hc
          · by_cases hqq : urlencodeSeq ((parseQs r.query).filter keepParam) ≠ []
            · rw [if_pos hqq] at hc
              rcases List.mem_cons.mp hc with rfl | hc
              · decide
              · exact (hQc c hc).1
            · rw [if_neg hqq] at hc
              cases hc
          · rcases hfp' with hfp1 | ⟨hfp1, -⟩
            · rw [hfp1] at hc
              rcases List.mem_cons.mp hc with rfl | hc
              · decide
              · exact hf20 c (hf2mem c hc)
            · rw [hfp1] at hc
              cases hc
        unfold urlparseE at hh
        cases hsp2 : urlsplitE (String.mk
            (A ++ ((if urlencodeSeq ((parseQs r.query).filter keepParam) ≠ []
              then '?' :: urlencodeSeq ((parseQs r.query).filter keepParam) else [])
              ++ fpart'))) with
        | error e2 => rw [hsp2] at hh; cases hh
        | ok r' =>
          rw [hsp2] at hh
          dsimp only at hh
          injection hh with hh2
          obtain ⟨hq', -⟩ := urlsplitE_shape A
            (urlencodeSeq ((parseQs r.query).filter keepParam)) f2' fpart'
            (fun c hc => (hAprops c hc).1) hws hheadA
            (fun c hc => (hQc c hc).2.1) hfp' hsp2
          intro kv hkv
          rw [← hh2] at hkv
          dsimp only at hkv
          rw [hq'] at hkv
          exact cleanedQuery_keys r.query kv hkv
      by_cases hfe : r.fragment = []
      · rw [show (if r.fragment ≠ [] then '#' :: r.fragment else []) = ([] : List Char)
          from if_neg (fun hh => hh hfe)] at h
        exact hmain [] [] (Or.inr ⟨rfl, rfl⟩) (fun c hc => by cases hc) h
      · rw [show (if r.fragment ≠ [] then '#' :: r.fragment else []) = '#' :: r.fragment
          from if_pos hfe] at h
        exact hmain ('#' :: r.fragment) r.fragment (Or.inl rfl) inv5 h

theorem clean_url_no_trailing (url : String) (p : ParseResult)
    (hu : urlparseE url = .ok p) (hfe : p.fragment = []) :
    ¬ (clean_url url).data.getLast? = some '?' := by
  have hu2 := hu
  unfold urlparseE at hu2
  cases hsp : urlsplitE url with
  | error e => rw [hsp] at hu2; cases hu2
  | ok r =>
    rw [hsp] at hu2
    dsimp only at hu2
    injection hu2 with hp2
    subst hp2
    have hfe' : r.fragment = [] := hfe
    obtain ⟨inv1, inv2, inv3, inv4, -, -, -⟩ := urlsplitE_inv hsp
    obtain ⟨m1, m2, m3, m4⟩ := splitParams_spec r.path (splitParams r.path).1
      (splitParams r.path).2 rfl
    have hPATH0c : ∀ c ∈ (if (splitParams r.path).2 ≠ []
          then (splitParams r.path).1 ++ ';' :: (splitParams r.path).2
          else (splitParams r.path).1),
        (c == '?') = false ∧ (c == '#') = false ∧ badWsChar c = false := by
      by_cases h2 : (splitParams r.path).2 = []
      · rw [if_neg (fun hh => hh h2)]
        intro c hc
        exact inv4 c (m1 c hc)
      · rw [if_pos h2, m3 h2]
        exact inv4
    have hQc : ∀ c ∈ urlencodeSeq ((parseQs r.query).filter keepParam),
        badWsChar c = false ∧ ((c == '#') = false) ∧ ((c == '?') = false) :=
      cleanedQuery_chars r.query
    unfold clean_url
    rw [hu]
    dsimp only
    unfold urlunparseL
    dsimp only
    obtain ⟨A, hAeq, hAmem, hAhead⟩ := urlunsplitL_shape r.scheme r.netloc
      (if (splitParams r.path).2 ≠ []
        then (splitParams r.path).1 ++ ';' :: (splitParams r.path).2
        else (splitParams r.path).1)
      (urlencodeSeq ((parseQs r.query).filter keepParam)) r.fragment
    rw [hAeq, hfe']
    rw [show (if ([] : List Char) ≠ [] then '#' :: ([] : List Char) else [])
        = ([] : List Char) from rfl]
    have hAq : ∀ c ∈ A, (c == '?') = false := by
      intro c hc
      rcases hAmem c hc with hsch | rfl | rfl | hnet | hpath
      · rcases inv1 with h0 | ⟨hv, -⟩
        · rw [h0] at hsch; cases hsch
        · exact (schemeChar_props (validSchemeName_all hv c hsch)).2.2.2.1
      · decide
      · decide
      · exact (netlocDelim_false (inv2 c hnet).1).2.1
      · exact (hPATH0c c hpath).1
    have hlast := shape_last_ne A (urlencodeSeq ((parseQs r.query).filter keepParam))
      hAq (fun c hc => (hQc c hc).2.2)
    rw [if_neg hlast]
    exact hlast

theorem stripFragment_ne_nil {f : List Char} (hne : f ≠ []) (hq : f ≠ ['?']) :
    stripFragment f ≠ [] := by
  unfold stripFragment
  by_cases hl : f.getLast? = some '?'
  · rw [if_pos hl]
    intro hd
    cases hf : f with
    | nil => exact hne hf
    | cons c t =>
      cases ht : t with
      | nil =>
        rw [hf, ht] at hl
        have h2 : (some c : Option Char) = some '?' := hl
        have hcq := Option.some.inj h2
        exact hq (by rw [hf, ht, hcq])
      | cons d u =>
        rw [hf, ht] at hd
        cases hd
  · rw [if_neg hl]
    exact hne

theorem clean_url_idem_aux (url : String)
    (h : (∃ e, urlparseE url = .error e) ∨
      ∃ p, urlparseE url = .ok p ∧ p.netloc ≠ [] ∧
        ¬ (stripFragment p.fragment).getLast? = some '?' ∧ p.fragment ≠ ['?']) :
    clean_url (clean_url url) = clean_url url := by
  rcases h with ⟨e, he⟩ | ⟨p, hpok, hnn, hns, hnq⟩
  · have hcu : clean_url url = url := by
      unfold clean_url
      rw [he]
    rw [hcu, hcu]
  · obtain ⟨hm1, hm2⟩ := clean_url_master hpok hnn
    have hnn2 : (⟨p.scheme, p.netloc, p.path, p.params, cleanedQuery p.query,
        stripFragment p.fragment⟩ : ParseResult).netloc ≠ [] := hnn
    obtain ⟨-, hm2'⟩ := clean_url_master hm1 hnn2
    dsimp only at hm2'
    rw [cleanedQuery_idem p.query] at hm2'
    have hss : stripFragment (stripFragment p.fragment) = stripFragment p.fragment := by
      rw [show stripFragment (stripFragment p.fragment)
          = (if (stripFragment p.fragment).getLast? = some '?'
              then (stripFragment p.fragment).dropLast
              else stripFragment p.fragment) from rfl, if_neg hns]
    rw [hss] at hm2'
    rw [show (if stripFragment p.fragment ≠ []
          then '#' :: stripFragment p.fragment else [])
        = (if p.fragment ≠ [] then '#' :: stripFragment p.fragment else []) from by
      by_cases hfe : p.fragment = []
      · rw [hfe]
        rfl
      · rw [if_pos (stripFragment_ne_nil hfe hnq), if_pos hfe]] at hm2'
    rw [hm2', hm2]

/-- C8 (amended): `clean_url` is idempotent on every URL that fails to parse
(returned unchanged), and on every URL that parses with a nonempty network
location whose fragment, after one trailing `?` is stripped, does not still end
in `?` and is not exactly `?`. -/
theorem c8_idempotent_amended (url : String)
    (h : (∃ e, urlparseE url = .error e) ∨
      ∃ p, urlparseE url = .ok p ∧ p.netloc ≠ [] ∧
        ¬ (stripFragment p.fragment).getLast? = some '?' ∧ p.fragment ≠ ['?']) :
    clean_url (clean_url url) = clean_url url :=
  clean_url_idem_aux url h

/-- C8 (counterexample): `clean_url` is not idempotent — a fragment ending in
`??` loses one `?` per pass, and with an empty network location a run of
slashes keeps collapsing. -/
theorem c8_counterexample :
    clean_url (clean_url "http://x/p#a??") ≠ clean_url "http://x/p#a??" ∧
    clean_url (clean_url "mailto://///y") ≠ clean_url "mailto://///y" := by
  constructor
  · decide
  · decide

theorem c8_witness :
    clean_url (clean_url "http://x/p?r=1&q=2#frag") = clean_url "http://x/p?r=1&q=2#frag" :=
  c8_idempotent_amended "http://x/p?r=1&q=2#frag"
    (Or.inr ⟨parseOf "http://x/p?r=1&q=2#frag", rfl, by decide, by decide, by decide⟩)

/-- C7: the claim fails on the program — the denylist stores the key
`eType` with a capital `T` (src/main.py 95), but `clean_url` lower-cases
each query key before the membership test (lines 115-117), and `"etype"` is not
an element of the list, so the entry is dead: an `eType` parameter, whose
key case-insensitively equals the denylisted key, survives cleaning — and
appears among the parsed query parameters of the output — while
`utm_source` in the same URL is removed.  (The literal-membership property
the code actually implements is `clean_url_query_keys` above.) -/
theorem c7_dead_denylist_entry :
    "eType" ∈ removeParams ∧
    clean_url "http://x/?eType=1&utm_source=a" = "http://x/?eType=1" ∧
    (parseQsl (parseOf (clean_url "http://x/?eType=1&utm_source=a")).query).map
      Prod.fst = ["eType".data] := by
  refine ⟨by decide, by decide, by decide⟩

/-- C10 (amended): for every URL that parses with a nonempty network location,
`clean_url` preserves the scheme, netloc, path and params, rewrites the query
to the denylist-filtered re-encoding, and the output's fragment is the input's
with one trailing `?` stripped; on any parse failure the URL is returned
unchanged. -/
theorem c10_frame_amended (url : String) :
    (∀ p, urlparseE url = .ok p → p.netloc ≠ [] →
      urlparseE (clean_url url) = .ok ⟨p.scheme, p.netloc, p.path, p.params,
        cleanedQuery p.query, stripFragment p.fragment⟩) ∧
    (∀ e, urlparseE url = .error e → clean_url url = url) := by
  constructor
  · intro p hp hnn
    exact (clean_url_master hp hnn).1
  · intro e he
    unfold clean_url
    rw [he]

/-- C10 (counterexample): `clean_url` can change the fragment (a trailing `?`
is eaten) and, on a URL with empty netloc, even the netloc of the reparsed
output. -/
theorem c10_counterexample :
    (parseOf (clean_url "http://x/p#a?")).fragment
      ≠ (parseOf "http://x/p#a?").fragment ∧
    (parseOf (clean_url "http:////x?r=1")).netloc
      ≠ (parseOf "http:////x?r=1").netloc := by
  constructor
  · decide
  · decide

theorem c10_witness :
    urlparseE (clean_url "http://h/a/b;par?x=1&ref=z#f")
      = .ok ⟨(parseOf "http://h/a/b;par?x=1&ref=z#f").scheme,
          (parseOf "http://h/a/b;par?x=1&ref=z#f").netloc,
          (parseOf "http://h/a/b;par?x=1&ref=z#f").path,
          (parseOf "http://h/a/b;par?x=1&ref=z#f").params,
          cleanedQuery (parseOf "http://h/a/b;par?x=1&ref=z#f").query,
          stripFragment (parseOf "http://h/a/b;par?x=1&ref=z#f").fragment⟩ ∧
    clean_url "http://[x" = "http://[x" :=
  ⟨(c10_frame_amended "http://h/a/b;par?x=1&ref=z#f").1
      (parseOf "http://h/a/b;par?x=1&ref=z#f") rfl (by decide),
    (c10_frame_amended "http://[x").2 "Invalid IPv6 URL" rfl⟩
